import Mathlib

/-!
# Bulk tag writer (`blob-set-tags.go`): batching, sharding and request signing

A shallow embedding of the set-tags tool.

* Go `string` values are sequences of code points (`Str`); the input file is UTF-8 text,
  so splitting its bytes on `\n` and splitting its code points on `\n` coincide, and the
  byte-wise order used by `sort.Strings` is the code-point order.
* Go `int` is a 64-bit signed integer: arithmetic that the source performs on `int` goes
  through `add64`, `sub64`, `mul64`, `div64`, which wrap at `2^63`.
* A Go `map` is a list of entries with distinct keys, listed in the order in which a
  `range` loop happens to enumerate them.
* Operations that panic in Go return `Except Fault`. The counter of a `sync.WaitGroup` is a
  32-bit signed integer (`waitGroupAdd`).
* Two parts of the standard library are parameters of the model: HMAC-SHA256
  (`hmacSha256`) and the case tables of the `unicode` package above ASCII (`lowerCase`).
  What the http-client workers have finished while its launch loop runs is a parameter too
  (`finished`).
-/

namespace BlobSetTags

/-! ## Go primitives -/

/-- Go `string`, as the sequence of its code points. -/
abbrev Str := List Char

/-- Run-time failures of the modelled code. Four are panics: an integer division by zero, a
slice expression out of bounds, a `sync.WaitGroup` counter below zero, an index out of
range. `waitGroupOutOfStep` stands for a `WaitGroup` whose counter, as `wg.Add` left it,
differs from the number of `wg.Done()` calls that follow: either one `Done` brings the
counter below zero and panics, or `wg.Wait()` does not return when the workers are done. -/
inductive Fault where
  | divideByZero
  | sliceBounds
  | negativeWaitGroup
  | indexOutOfRange
  | waitGroupOutOfStep
  deriving DecidableEq, Repr

/-- Two's-complement wrap of an integer into the range of Go's 64-bit `int`. -/
def wrapInt64 (x : Int) : Int :=
  (x + 9223372036854775808) % 18446744073709551616 - 9223372036854775808

/-- Two's-complement wrap of an integer into the range of `int32`. -/
def wrapInt32 (x : Int) : Int :=
  (x + 2147483648) % 4294967296 - 2147483648

/-- The counter `v` that Go `wg.Add(delta)` computes on a `sync.WaitGroup` whose counter is
`counter`: the counter is kept in the upper 32 bits of the 64-bit state and read back as an
`int32` (`state := wg.state.Add(uint64(delta) << 32); v := int32(state >> 32)`). `Add`
panics when `v` is negative and returns otherwise. -/
def waitGroupAdd (counter delta : Int) : Int := wrapInt32 (counter + delta)

/-- Go `a + b` on `int`. -/
def add64 (a b : Int) : Int := wrapInt64 (a + b)

/-- Go `a - b` on `int`. -/
def sub64 (a b : Int) : Int := wrapInt64 (a - b)

/-- Go `a * b` on `int`. -/
def mul64 (a b : Int) : Int := wrapInt64 (a * b)

/-- Go `a / b` on `int` for `b ≠ 0`: the quotient truncated toward zero. -/
def div64 (a b : Int) : Int := wrapInt64 (Int.tdiv a b)

/-- Go `len(xs)`. -/
def len {α : Type} (xs : List α) : Int := (xs.length : Int)

/-- Go slice expression `xs[lo:hi]`: it panics unless `0 ≤ lo ≤ hi ≤ len(xs)`. (Go checks
`hi` against the capacity; the modelled code never slices past the length, so the two
checks cannot be told apart.) -/
def goSlice {α : Type} (xs : List α) (lo hi : Int) : Except Fault (List α) :=
  if 0 ≤ lo ∧ lo ≤ hi ∧ hi ≤ len xs then
    .ok ((xs.drop lo.toNat).take (hi.toNat - lo.toNat))
  else
    .error .sliceBounds

/-- Go `unicode.IsSpace`. -/
def isSpace (c : Char) : Bool :=
  let n := c.toNat
  n == 0x09 || n == 0x0A || n == 0x0B || n == 0x0C || n == 0x0D || n == 0x20 ||
  n == 0x85 || n == 0xA0 || n == 0x1680 || (0x2000 ≤ n && n ≤ 0x200A) ||
  n == 0x2028 || n == 0x2029 || n == 0x202F || n == 0x205F || n == 0x3000

/-- Go `strings.TrimSpace`: all leading and trailing white space removed. -/
def trimSpace (s : Str) : Str :=
  (s.dropWhile isSpace).rdropWhile isSpace

/-! ## Work distribution (`processBatch`) -/

/-- The first loop of `processBatch` (lines 203-217): empty lines are skipped, every other
line is trimmed and kept unless the trimmed text is empty. -/
def cleanLines : List Str → List Str
  | [] => []
  | line :: rest =>
    if len line = 0 then cleanLines rest
    else
      let path := trimSpace line
      if path = [] then cleanLines rest
      else path :: cleanLines rest

/-- One started worker: the slice `urlPaths[start:stop]` it was handed. -/
structure Launch where
  start : Int
  stop : Int
  paths : List Str
  deriving DecidableEq, Repr

/-- The worker-launch loop of `processBatch` (lines 245-260), from worker index `i` on, with
`remaining` iterations to go. A worker that is started contributes `some launch`; an index
whose branch only calls `wg.Done()` contributes `none`. -/
def launchWorkers (urlPaths : List Str) (workerCount pathsPerWorker : Int) :
    Nat → Int → Except Fault (List (Option Launch))
  | 0, _ => .ok []
  | remaining + 1, i =>
    let start := mul64 i pathsPerWorker
    let end0 := mul64 (add64 i 1) pathsPerWorker
    let end1 := if i = sub64 workerCount 1 then len urlPaths else end0
    if start < len urlPaths then
      match goSlice urlPaths start end1 with
      | .error f => .error f
      | .ok shard =>
        match launchWorkers urlPaths workerCount pathsPerWorker remaining (add64 i 1) with
        | .error f => .error f
        | .ok rest => .ok (some ⟨start, end1, shard⟩ :: rest)
    else
      match launchWorkers urlPaths workerCount pathsPerWorker remaining (add64 i 1) with
      | .error f => .error f
      | .ok rest => .ok (none :: rest)

/-- The second half of `processBatch` (lines 219-264) on the cleaned work items `urlPaths`.
The result lists, by worker index, what each worker was handed. `wg.Add(workerCount)` sets
the 32-bit counter of the fresh `WaitGroup` and panics when that counter is negative. Every
index of the launch loop then accounts for one `wg.Done()`, called by the worker when it
returns or by the loop itself, and `wg.Wait()` returns when the counter is back at zero: the
batch ends normally when the counter that `Add` left is the number of indices of the loop. -/
def distribute (urlPaths : List Str) (numWorkers : Int) : Except Fault (List (Option Launch)) :=
  if len urlPaths = 0 then .ok []
  else
    let workerCount := if numWorkers > len urlPaths then len urlPaths else numWorkers
    if workerCount = 0 then .error .divideByZero
    else
      let q := div64 (len urlPaths) workerCount
      let pathsPerWorker := if q < 1 then 1 else q
      let counter := waitGroupAdd 0 workerCount
      if counter < 0 then .error .negativeWaitGroup
      else
        match launchWorkers urlPaths workerCount pathsPerWorker workerCount.toNat 0 with
        | .error f => .error f
        | .ok slots => if len slots = counter then .ok slots else .error .waitGroupOutOfStep

/-- Go `processBatch`: what the workers of one batch of raw lines are handed. -/
def processBatch (lines : List Str) (numWorkers : Int) : Except Fault (List (Option Launch)) :=
  distribute (cleanLines lines) numWorkers

/-- The shards that were handed to workers, in worker-index order. -/
def shardsOf (slots : List (Option Launch)) : List (List Str) :=
  slots.reduceOption.map Launch.paths

/-- Closed form of the launch loop for `wc` workers of `ppw` paths each: the slices of the
last `k` workers, the first of them having index `i`. -/
def shardPlan (urlPaths : List Str) (ppw : Nat) : Nat → Nat → List Launch
  | 0, _ => []
  | k + 1, i =>
    let stop := if k = 0 then urlPaths.length else (i + 1) * ppw
    ⟨(i * ppw : Nat), (stop : Nat), (urlPaths.drop (i * ppw)).take (stop - i * ppw)⟩
      :: shardPlan urlPaths ppw k (i + 1)

/-! ## The unsigned load generator (`http-client.go`) -/

/-- One iteration of the http-client launch loop: whether the guard
`endIdx > totalRequests` was taken, and the worker started (`none` when the guard
`startIdx >= totalRequests` skipped the index). -/
structure ClientSlot where
  clamped : Bool
  launch : Option Launch
  deriving DecidableEq, Repr

/-- The worker-launch loop of the http-client `main` (lines 107-129), from worker index `i`
on, `started` workers having been started so far. The loop calls `wg.Add(1)` once per index;
the counter it raises holds the workers that were started and have not yet called
`wg.Done()`. How many have is a matter of scheduling: `finished i` is the number of workers
that are done when index `i` calls `wg.Add(1)`, read as `0` when negative and as `started`
when larger than that. -/
def clientLaunchWorkers (urlPaths : List Str) (numWorkers itemsPerWorker : Int)
    (finished : Int → Int) : Nat → Int → Int → Except Fault (List ClientSlot)
  | 0, _, _ => .ok []
  | remaining + 1, i, started =>
    let done := if finished i < 0 then 0 else if finished i > started then started
      else finished i
    if waitGroupAdd (started - done) 1 < 0 then .error .negativeWaitGroup
    else
      let totalRequests := len urlPaths
      let startIdx := mul64 i itemsPerWorker
      let endIdx0 := add64 startIdx itemsPerWorker
      let endIdx1 := if i = sub64 numWorkers 1 then totalRequests else endIdx0
      let clamped := decide (endIdx1 > totalRequests)
      let endIdx := if endIdx1 > totalRequests then totalRequests else endIdx1
      if startIdx ≥ totalRequests then
        match clientLaunchWorkers urlPaths numWorkers itemsPerWorker finished remaining
            (add64 i 1) started with
        | .error f => .error f
        | .ok rest => .ok (⟨clamped, none⟩ :: rest)
      else
        match goSlice urlPaths startIdx endIdx with
        | .error f => .error f
        | .ok shard =>
          match clientLaunchWorkers urlPaths numWorkers itemsPerWorker finished remaining
              (add64 i 1) (started + 1) with
          | .error f => .error f
          | .ok rest => .ok (⟨clamped, some ⟨startIdx, endIdx, shard⟩⟩ :: rest)

/-- The work distribution of the http-client `main` (lines 89-129) for a non-empty
`urlPaths`; for an empty one `main` exits before distributing. `finished` is the scheduling
of the workers, as in `clientLaunchWorkers`. -/
def clientDistribute (urlPaths : List Str) (numWorkers : Int) (finished : Int → Int) :
    Except Fault (List ClientSlot) :=
  let totalRequests := len urlPaths
  if numWorkers = 0 then .error .divideByZero
  else
    let q := div64 totalRequests numWorkers
    let itemsPerWorker := if q = 0 then 1 else q
    let numWorkers1 := if q = 0 then totalRequests else numWorkers
    clientLaunchWorkers urlPaths numWorkers1 itemsPerWorker finished numWorkers1.toNat 0 0

/-- A scheduling of the http-client workers in which no worker is done while the launch
loop runs. -/
def slowWorkers (_ : Int) : Int := 0

/-- A scheduling of the http-client workers in which every worker is done before the next
index of the launch loop is reached. -/
def promptWorkers (i : Int) : Int := i

/-! ## Batch loader (`processFileInBatches`) -/

/-- Go `bytes.Split(file, []byte("\n"))`: the pieces between newlines, at least one. -/
def splitLines : Str → List Str
  | [] => [[]]
  | c :: rest =>
    if c = '\n' then [] :: splitLines rest
    else
      match splitLines rest with
      | [] => [[c]]
      | line :: lines => (c :: line) :: lines

/-- The loop `for i := batchStart; i < batchEnd; i++ { lines[i] = nil }` (lines 192-194). -/
def clearRange (lines : List Str) (batchStart batchEnd : Int) : List Str :=
  lines.take batchStart.toNat
    ++ List.replicate (batchEnd.toNat - batchStart.toNat) []
    ++ lines.drop batchEnd.toNat

/-- One iteration of the batch loop: the line range, the raw lines passed to `processBatch`
and what `processBatch` handed to its workers. -/
structure BatchRun where
  batchStart : Int
  batchEnd : Int
  lines : List Str
  slots : List (Option Launch)
  deriving DecidableEq, Repr

/-- The batch loop of `processFileInBatches` (lines 179-197) from `batchStart` on. The loop
is given `fuel` iterations; `none` means the fuel ran out before the loop condition
failed. A panic inside the loop ends it with `some (.error _)`. -/
def batchLoop (numWorkers batchSize : Int) :
    Nat → List Str → Int → Option (Except Fault (List BatchRun))
  | 0, lines, batchStart => if batchStart < len lines then none else some (.ok [])
  | fuel + 1, lines, batchStart =>
    let totalLines := len lines
    if batchStart < totalLines then
      let batchEnd0 := add64 batchStart batchSize
      let batchEnd := if batchEnd0 > totalLines then totalLines else batchEnd0
      match goSlice lines batchStart batchEnd with
      | .error f => some (.error f)
      | .ok batch =>
        match processBatch batch numWorkers with
        | .error f => some (.error f)
        | .ok slots =>
          let lines1 :=
            if batchEnd < totalLines then clearRange lines batchStart batchEnd else lines
          match batchLoop numWorkers batchSize fuel lines1 (add64 batchStart batchSize) with
          | none => none
          | some (.error f) => some (.error f)
          | some (.ok runs) => some (.ok (⟨batchStart, batchEnd, batch, slots⟩ :: runs))
    else some (.ok [])

/-- The batches that the loop of `processFileInBatches` passes to `processBatch` from
`batchStart` on, in the order of the calls, whether or not the loop comes to its end: a
panic ends the loop with the batch that met it, and the calls of at most `fuel` iterations
are listed. -/
def batchLoopPassed (numWorkers batchSize : Int) : Nat → List Str → Int → List (List Str)
  | 0, _, _ => []
  | fuel + 1, lines, batchStart =>
    let totalLines := len lines
    if batchStart < totalLines then
      let batchEnd0 := add64 batchStart batchSize
      let batchEnd := if batchEnd0 > totalLines then totalLines else batchEnd0
      match goSlice lines batchStart batchEnd with
      | .error _ => []
      | .ok batch =>
        match processBatch batch numWorkers with
        | .error _ => [batch]
        | .ok _ =>
          let lines1 :=
            if batchEnd < totalLines then clearRange lines batchStart batchEnd else lines
          batch :: batchLoopPassed numWorkers batchSize fuel lines1 (add64 batchStart batchSize)
    else []

/-- Go `processFileInBatches` on the content of a file that was read successfully. -/
def processFileInBatches (file : Str) (numWorkers batchSize : Int) (fuel : Nat) :
    Option (Except Fault (List BatchRun)) :=
  batchLoop numWorkers batchSize fuel (splitLines file) 0

/-- The batches that `processFileInBatches` passes to `processBatch` for the content of a
file, in the order of the calls (see `batchLoopPassed`). -/
def batchesPassed (file : Str) (numWorkers batchSize : Int) (fuel : Nat) : List (List Str) :=
  batchLoopPassed numWorkers batchSize fuel (splitLines file) 0

/-- The content of a file of `n + 1` lines, each of them `/a`. -/
def manyLines (n : Nat) : Str := (List.replicate n "/a\n".toList).flatten ++ "/a".toList

/-- The work items of one batch: the `urlPaths` that `processBatch` builds from its lines. -/
def BatchRun.workItems (r : BatchRun) : List Str := cleanLines r.lines

/-- The line ranges `[s, min (s + B) L)`, `[s + B, ...)`, ... of `n` successive batches. -/
def batchRanges (L B : Nat) : Nat → Nat → List (Nat × Nat)
  | 0, _ => []
  | n + 1, s => (s, min (s + B) L) :: batchRanges L B n (s + B)

/-- The number of batches still to run when the loop variable is `s`: `⌈(L - s) / B⌉`. -/
def batchesLeft (L B s : Nat) : Nat := (L - s + B - 1) / B

/-! ## Request signing (`createAuthorizationHeader`) -/

/-- Go `[]byte`. -/
abbrev Bytes := List UInt8

/-- The bytes of a Go string: its UTF-8 encoding. -/
def utf8 (s : Str) : Bytes := s.flatMap String.utf8EncodeChar

/-- Go `unicode.ToLower`: on ASCII the letters `A`..`Z` go to `a`..`z` and every other code
point is kept (`Char.toLower`); a code point above ASCII is looked up in the case tables of
the `unicode` package (`unicode.To(unicode.LowerCase, r)`), which are the parameter
`lowerCase`. The tables send, for instance, U+00C9 to U+00E9 and the Kelvin sign U+212A
to `k`. -/
def runeToLower (lowerCase : Char → Char) (c : Char) : Char :=
  if c.toNat ≤ 0x7F then c.toLower else lowerCase c

/-- Go `strings.ToLower`: `unicode.ToLower` applied to every code point. -/
def toLower (lowerCase : Char → Char) (s : Str) : Str := s.map (runeToLower lowerCase)

/-- Go `strings.HasPrefix`. -/
def hasPrefix (s p : Str) : Bool := p.isPrefixOf s

/-- Go `strings.TrimSuffix`. -/
def trimSuffix (s suffix : Str) : Str :=
  if suffix.isSuffixOf s then s.take (s.length - suffix.length) else s

/-- Go `strings.Join`. -/
def joinWith (sep : Str) (parts : List Str) : Str := sep.intercalate parts

/-- Go `sort.Strings`: ascending byte-wise order, which on UTF-8 text is the code-point
order. Any sorting algorithm returns this list (`sortStrings_unique`). -/
def sortStrings (xs : List Str) : List Str := xs.insertionSort (fun a b => a ≤ b)

/-- Go `fmt.Sprintf("%d", n)`. -/
def decimal (n : Int) : Str := (toString n).toList

/-- Go map assignment `m[k] = v` (and `sync.Map.Store`) on a map given by its entries. -/
def mapSet {κ β : Type} [DecidableEq κ] : List (κ × β) → κ → β → List (κ × β)
  | [], k, v => [(k, v)]
  | (k1, v1) :: rest, k, v =>
    if k1 = k then (k, v) :: rest else (k1, v1) :: mapSet rest k v

/-- Go map read `m[k]` on a map of strings: the zero value `""` for a missing key. -/
def mapGet (m : List (Str × Str)) (k : Str) : Str := (m.lookup k).getD []

/-- Go map read `m[k]` on a map of string slices: `nil` for a missing key. -/
def mapGetAll (m : List (Str × List Str)) (k : Str) : List Str := (m.lookup k).getD []

/-- The parts of a `*url.URL` that signing reads: `Path`, and the map returned by `Query()`,
given by its entries in enumeration order. -/
structure URL where
  path : Str
  query : List (Str × List Str)
  deriving DecidableEq, Repr

/-- The parts of an `*http.Request` that signing reads. `header` is the `http.Header` map,
given by its entries in enumeration order. -/
structure Request where
  method : Str
  url : URL
  header : List (Str × List Str)
  contentLength : Int
  deriving DecidableEq, Repr

/-- Go `request.Header.Get(key)` for a key in canonical form: the first value stored under
the key, `""` if there is none. -/
def headerGet (header : List (Str × List Str)) (key : Str) : Str :=
  match header.lookup key with
  | some (v :: _) => v
  | _ => []

/-- The first loop of `canonicalizedHeaders` (lines 530-536), run over the entries of the
header map in enumeration order, with `msHeaders` as built so far. -/
def collectMsHeaders (lowerCase : Char → Char) :
    List (Str × List Str) → List (Str × Str) → List (Str × Str)
  | [], msHeaders => msHeaders
  | (header, values) :: rest, msHeaders =>
    let headerName := toLower lowerCase header
    if hasPrefix headerName "x-ms-".toList then
      collectMsHeaders lowerCase rest
        (mapSet msHeaders headerName (joinWith ",".toList values))
    else
      collectMsHeaders lowerCase rest msHeaders

/-- Go `canonicalizedHeaders` on the header map of the request. -/
def canonicalizedHeaders (lowerCase : Char → Char) (header : List (Str × List Str)) : Str :=
  let msHeaders := collectMsHeaders lowerCase header []
  if msHeaders.length = 0 then []
  else
    let keys := sortStrings (msHeaders.map Prod.fst)
    let result := (keys.map (fun key => key ++ ":".toList ++ mapGet msHeaders key
      ++ "\n".toList)).flatten
    trimSuffix result "\n".toList

/-- Go `getCanonicalizedResource`. -/
def getCanonicalizedResource (lowerCase : Char → Char) (uri : URL) (accountName : Str) :
    Str :=
  let canonicalizedResource := "/".toList ++ accountName ++ uri.path
  let queryParams := uri.query
  if queryParams.length > 0 then
    let params := sortStrings (queryParams.map Prod.fst)
    canonicalizedResource ++ (params.map (fun param =>
      let values := sortStrings (mapGetAll queryParams param)
      (values.map (fun value =>
        "\n".toList ++ toLower lowerCase param ++ ":".toList ++ value)).flatten
      )).flatten
  else canonicalizedResource

/-- The string that `createAuthorizationHeader` signs (lines 468-487). -/
def stringToSign (lowerCase : Char → Char) (request : Request) (storageAccount : Str) :
    Str :=
  let canonicalizedResource := getCanonicalizedResource lowerCase request.url storageAccount
  let contentLength := if request.contentLength > 0 then decimal request.contentLength else []
  let canonicalizedHeadersStr := canonicalizedHeaders lowerCase request.header
  request.method ++ "\n\n\n".toList ++ contentLength ++ "\n\n".toList
    ++ headerGet request.header "Content-Type".toList ++ "\n\n\n\n\n\n\n".toList
    ++ canonicalizedHeadersStr ++ "\n".toList ++ canonicalizedResource

/-- The alphabet of `base64.StdEncoding`. -/
def base64Alphabet : Str :=
  "ABCDEFGHIJKLMNOPQRSTUVWXYZabcdefghijklmnopqrstuvwxyz0123456789+/".toList

/-- The character that encodes the 6-bit value `v`. -/
def encodeSextet (v : Nat) : Char := base64Alphabet.getD (v % 64) 'A'

/-- The 6-bit value of a character of the alphabet. -/
def decodeSextet (c : Char) : Option Nat :=
  let i := base64Alphabet.indexOf c
  if i < 64 then some i else none

/-- Go `base64.StdEncoding.EncodeToString`. -/
def base64EncodeToString : Bytes → Str
  | [] => []
  | [a] =>
    let v := a.toNat * 65536
    [encodeSextet (v / 262144), encodeSextet (v / 4096), '=', '=']
  | [a, b] =>
    let v := a.toNat * 65536 + b.toNat * 256
    [encodeSextet (v / 262144), encodeSextet (v / 4096), encodeSextet (v / 64), '=']
  | a :: b :: c :: rest =>
    let v := a.toNat * 65536 + b.toNat * 256 + c.toNat
    encodeSextet (v / 262144) :: encodeSextet (v / 4096) :: encodeSextet (v / 64)
      :: encodeSextet v :: base64EncodeToString rest

/-- The bytes of a quantum of `n` characters (`n` is 2, 3 or 4) with 6-bit values `ds`. -/
def quantumBytes (ds : List Nat) : Bytes :=
  let v := ds.getD 0 0 * 262144 + ds.getD 1 0 * 4096 + ds.getD 2 0 * 64 + ds.getD 3 0
  ([UInt8.ofNat (v / 65536), UInt8.ofNat (v / 256), UInt8.ofNat v] : Bytes).take
    (ds.length - 1)

/-- Newlines are skipped by the decoder. -/
def isNewline (c : Char) : Bool := c = '\n' || c = '\r'

/-- Go `(*Encoding).decodeQuantum` of `base64.StdEncoding`: reads one quantum from `src`,
`ds` being the 6-bit values read so far. Returns the input left, the bytes decoded and
whether a `CorruptInputError` is reported. -/
def decodeQuantum : Str → List Nat → Str × Bytes × Bool
  | [], ds => if ds.length = 0 then ([], [], false) else ([], [], true)
  | c :: rest, ds =>
    match decodeSextet c with
    | some v =>
      if ds.length = 3 then (rest, quantumBytes (ds ++ [v]), false)
      else decodeQuantum rest (ds ++ [v])
    | none =>
      if isNewline c then decodeQuantum rest ds
      else if c ≠ '=' then (rest, [], true)
      else if ds.length < 2 then (rest, [], true)
      else if ds.length = 2 then
        match rest.dropWhile isNewline with
        | [] => ([], [], true)
        | d :: rest2 =>
          if d ≠ '=' then (d :: rest2, [], true)
          else
            let rest3 := rest2.dropWhile isNewline
            (rest3, quantumBytes ds, decide (rest3 ≠ []))
      else
        let rest3 := rest.dropWhile isNewline
        (rest3, quantumBytes ds, decide (rest3 ≠ []))

/-- Go `(*Encoding).Decode`: quantum after quantum until the input is used up or an error
is reported; the bytes decoded before the error are returned with it. -/
def decodeLoop : Nat → Str → Bytes × Bool
  | 0, _ => ([], false)
  | fuel + 1, src =>
    if src = [] then ([], false)
    else
      match decodeQuantum src [] with
      | (_, bytes, true) => (bytes, true)
      | (rest, bytes, false) =>
        let more := decodeLoop fuel rest
        (bytes ++ more.1, more.2)

/-- Go `base64.StdEncoding.DecodeString`: the decoded bytes and whether an error is
returned with them. -/
def base64DecodeString (s : Str) : Bytes × Bool := decodeLoop (s.length + 1) s

/-- Go `computeHmac256`; `hmacSha256 key message` stands for HMAC-SHA256 of the standard
library (`hmac.New(sha256.New, key)`, `Write`, `Sum`). The error of `DecodeString` is
discarded. -/
def computeHmac256 (hmacSha256 : Bytes → Bytes → Bytes) (message secret : Str) : Str :=
  let key := (base64DecodeString secret).1
  base64EncodeToString (hmacSha256 key (utf8 message))

/-- Go `createAuthorizationHeader`. -/
def createAuthorizationHeader (lowerCase : Char → Char) (hmacSha256 : Bytes → Bytes → Bytes)
    (request : Request) (storageAccount storageKey : Str) : Str :=
  let signature :=
    computeHmac256 hmacSha256 (stringToSign lowerCase request storageAccount) storageKey
  "SharedKey ".toList ++ storageAccount ++ ":".toList ++ signature

/-- The canonicalized headers as the specification words them: the headers whose
lower-cased name starts with `x-ms-`, each rendered as `name:values` with the values joined
by commas, ordered by lower-cased name, joined by newlines. -/
def canonicalizedHeadersSpec (lowerCase : Char → Char) (header : List (Str × List Str)) :
    Str :=
  let marked := header.filter (fun kv => hasPrefix (toLower lowerCase kv.1) "x-ms-".toList)
  let rendered := marked.map (fun kv =>
    (toLower lowerCase kv.1,
      toLower lowerCase kv.1 ++ ":".toList ++ joinWith ",".toList kv.2))
  let ordered := rendered.insertionSort (fun a b => a.1 ≤ b.1)
  joinWith "\n".toList (ordered.map Prod.snd)

/-- The headers that carry the `x-ms-` prefix, as entries of `msHeaders`: lower-cased
name and comma-joined values, in the enumeration order of the header map. -/
def markedHeaders (lowerCase : Char → Char) (header : List (Str × List Str)) :
    List (Str × Str) :=
  (header.filter (fun kv => hasPrefix (toLower lowerCase kv.1) "x-ms-".toList)).map
    (fun kv => (toLower lowerCase kv.1, joinWith ",".toList kv.2))

/-- The request of the code comment at line 481: `PUT` of the 30-byte payload to
`/logs/file.txt?comp=tags`. -/
def sampleRequest : Request :=
  { method := "PUT".toList
    url := { path := "/logs/file.txt".toList, query := [("comp".toList, ["tags".toList])] }
    header := [("Content-Type".toList, ["application/xml; charset=UTF-8".toList]),
      ("X-Ms-Version".toList, ["2025-05-05".toList]),
      ("X-Ms-Date".toList, ["Fri, 04 Apr 2025 06:42:53 GMT".toList])]
    contentLength := 30 }

/-- A stand-in for HMAC-SHA256 where an example needs a concrete function: the key
followed by the message. -/
def sampleMac (key message : Bytes) : Bytes := key ++ message

/-- An excerpt of the case tables of the `unicode` package, where an example needs a
concrete table: U+00C9 goes to U+00E9, the Kelvin sign U+212A to `k`. -/
def sampleLowerCase (c : Char) : Char :=
  if c.toNat = 0xC9 then Char.ofNat 0xE9 else if c.toNat = 0x212A then 'k' else c

/-- A request whose header map holds two names that differ only in letter case, with the
map enumerated in the order given. -/
def collidingRequest (header : List (Str × List Str)) : Request :=
  { method := "PUT".toList
    url := { path := "/c/o".toList, query := [] }
    header := header
    contentLength := 30 }

/-! ## Statistics (`Stats`, `updateErrorCount`, `reportStats`) -/

/-- Go `Stats`, without its clocks. The two counters are `uint64` and a histogram count is
an `int`; each is raised by one per request at most, so none of them can wrap around and
they are natural numbers here. The two `sync.Map`s are given by their entries. -/
structure Stats where
  completed : Nat
  errors : Nat
  errorDetails : List (Str × Bytes)
  errorCounts : List (Bytes × Nat)
  logErrorDetails : Bool
  deriving DecidableEq, Repr

/-- Go `updateErrorCount`. -/
def updateErrorCount (stats : Stats) (errMsg : Bytes) : Stats :=
  if !stats.logErrorDetails then stats
  else
    let normalizedMsg := if errMsg.length > 200 then errMsg.take 200 else errMsg
    let count :=
      match stats.errorCounts.lookup normalizedMsg with
      | some c => c
      | none => 0
    { stats with errorCounts := mapSet stats.errorCounts normalizedMsg (count + 1) }

/-- What happens when the request of one work item is attempted: `http.NewRequest` fails,
`client.Do` fails, or a response with a status code and a body arrives. -/
inductive Outcome where
  | createError (err : Bytes)
  | transportError (err : Bytes)
  | response (status : Int) (body : Bytes)
  deriving DecidableEq, Repr

/-- The request of the item was answered with a status code in `200..299`. -/
def Outcome.isSuccess : Outcome → Bool
  | .response status _ => decide (200 ≤ status ∧ status < 300)
  | _ => false

/-- The state that the workers share: the statistics, and the URLs for which a request was
attempted, in the order of the attempts. -/
structure Run where
  stats : Stats
  requests : List Str
  deriving DecidableEq, Repr

/-- The three error branches of the worker loop: count the error, store its detail,
aggregate its message. -/
def recordError (run : Run) (fullURL : Str) (errMsg : Bytes) : Run :=
  let stats1 := { run.stats with errors := run.stats.errors + 1 }
  let stats2 := { stats1 with errorDetails := mapSet stats1.errorDetails fullURL errMsg }
  { run with stats := updateErrorCount stats2 errMsg }

/-- One iteration of the loop of `processWorkerItems` (lines 292-365) for the work item
`path` whose request meets `outcome`. Building and signing the request does not touch the
statistics. -/
def handleItem (baseURL : Str) (run : Run) (path : Str) (outcome : Outcome) : Run :=
  let fullURL := baseURL ++ path ++ "?comp=tags".toList
  let run1 := { run with requests := run.requests ++ [fullURL] }
  match outcome with
  | .createError err =>
    recordError run1 fullURL (utf8 "Request creation error: ".toList ++ err)
  | .transportError err =>
    recordError run1 fullURL (utf8 "Request execution error: ".toList ++ err)
  | .response status body =>
    let responseBody := if status ≥ 400 then body else []
    if status ≥ 200 ∧ status < 300 then
      { run1 with stats := { run1.stats with completed := run1.stats.completed + 1 } }
    else
      recordError run1 fullURL
        (utf8 ("Status: ".toList ++ decimal status ++ ", Response: ".toList) ++ responseBody)

/-- Go `processWorkerItems` on a shard, each path paired with the outcome of its request. -/
def processWorkerItems (baseURL : Str) (items : List (Str × Outcome)) (run : Run) : Run :=
  items.foldl (fun r item => handleItem baseURL r item.1 item.2) run

/-- The workers of one batch, run one after the other in worker-index order; `world` tells
the outcome of the request for a path. The counters do not depend on how the workers
interleave, every update being an atomic increment. -/
def runWorkers (baseURL : Str) (world : Str → Outcome) (slots : List (Option Launch))
    (run : Run) : Run :=
  slots.foldl (fun r slot =>
    match slot with
    | some launch => processWorkerItems baseURL (launch.paths.map (fun p => (p, world p))) r
    | none => r) run

/-- The text that `reportStats` prints for a message (lines 451-454). -/
def displayMsg (msg : Bytes) : Bytes :=
  if msg.length > 100 then msg.take 97 ++ utf8 "...".toList else msg

/-- The slice that `reportStats` sorts (lines 417-443): the histogram copied into a map,
the map copied into a slice, the slice sorted by count, descending. `sort.Slice` may order
equal counts differently. -/
def sortedErrors (stats : Stats) : List (Bytes × Nat) :=
  let errorSummary := stats.errorCounts.foldl (fun m e => mapSet m e.1 e.2) []
  errorSummary.insertionSort (fun a b => a.2 ≥ b.2)

/-- The entries printed under `Top errors:` by one report of `reportStats` (lines 414-457),
as pairs of count and displayed message. -/
def topErrors (stats : Stats) : List (Nat × Bytes) :=
  if stats.errors > 0 then
    if (stats.errorCounts.foldl (fun m e => mapSet m e.1 e.2) []).length > 0 then
      ((sortedErrors stats).take 3).map (fun e => (e.2, displayMsg e.1))
    else []
  else []

/-! ## The run over the input files (`main`) -/

/-- The command-line flags that `main` reads. -/
structure Config where
  account : Str
  key : Str
  container : Str
  numWorkers : Int
  batchSize : Int
  logErrorDetails : Bool
  deriving DecidableEq, Repr

/-- How a run ends: `main` returns, `log.Fatalf` exits the process, a panic, or the fuel of
the model runs out. -/
inductive RunEnd where
  | finished (run : Run)
  | fatal (message : Str) (run : Run)
  | panicked (fault : Fault)
  | outOfFuel
  deriving DecidableEq, Repr

/-- The base URL built at lines 75-81. -/
def baseURLOf (cfg : Config) : Str :=
  let containerPath := if cfg.container ≠ [] then "/".toList ++ cfg.container else []
  "https://".toList ++ cfg.account ++ ".blob.core.windows.net".toList ++ containerPath

/-- The loop over the data files (lines 107-113). A file is given by what `os.ReadFile`
returns for it: its content, or `none` when it cannot be read, in which case
`processFileInBatches` calls `log.Fatalf`. -/
def processFiles (cfg : Config) (world : Str → Outcome) (fuel : Nat) :
    List (Option Str) → Run → RunEnd
  | [], run => .finished run
  | none :: _, run => .fatal "Failed to read data file".toList run
  | some content :: rest, run =>
    match processFileInBatches content cfg.numWorkers cfg.batchSize fuel with
    | none => .outOfFuel
    | some (.error fault) => .panicked fault
    | some (.ok runs) =>
      processFiles cfg world fuel rest
        (runs.foldl (fun r batch => runWorkers (baseURLOf cfg) world batch.slots r) run)

/-- Go `main` of the set-tags tool up to the end of the file loop. -/
def runMain (cfg : Config) (world : Str → Outcome) (fuel : Nat) (files : List (Option Str)) :
    RunEnd :=
  let stats : Stats := ⟨0, 0, [], [], cfg.logErrorDetails⟩
  if files.length = 0 then .fatal "No data files found".toList ⟨stats, []⟩
  else processFiles cfg world fuel files ⟨stats, []⟩

/-- The sum of all counts of the error histogram. -/
def histogramTotal (stats : Stats) : Nat := (stats.errorCounts.map Prod.snd).sum

/-- Zeroed statistics, as `main` creates them. -/
def zeroRun (logErrorDetails : Bool) : Run := ⟨⟨0, 0, [], [], logErrorDetails⟩, []⟩

/-! ## The quantities of the sharding (`processBatch`, lines 226-235) -/

/-- The `workerCount` that `processBatch` computes at lines 226-229. -/
def workerCountOf (urlPaths : List Str) (numWorkers : Int) : Int :=
  if numWorkers > len urlPaths then len urlPaths else numWorkers

/-- The `pathsPerWorker` that `processBatch` computes at lines 232-235, the divisor being
different from zero. -/
def pathsPerWorkerOf (urlPaths : List Str) (numWorkers : Int) : Int :=
  let q := div64 (len urlPaths) (workerCountOf urlPaths numWorkers)
  if q < 1 then 1 else q

/-! ## Human-readable sizes (`formatSize` of create-blobs and of datagenerator) -/

/-- The loop `for n := bytes / unit; n >= unit; n /= unit { div *= unit; exp++ }` of
`formatSize`, from the state `n`, `div`, `exp` on; `div` is an `int64` and `exp` an `int`.
`none` means that the fuel ran out before the loop condition failed. -/
def formatSizeLoop : Nat → Int → Int → Int → Option (Int × Int)
  | 0, n, div, exp => if n ≥ 1024 then none else some (div, exp)
  | fuel + 1, n, div, exp =>
    if n ≥ 1024 then formatSizeLoop fuel (div64 n 1024) (mul64 div 1024) (add64 exp 1)
    else some (div, exp)

/-- Go index expression `"KMGTPE"[exp]`: it panics unless `0 ≤ exp < 6`. -/
def unitAt (exp : Int) : Except Fault Char :=
  if 0 ≤ exp ∧ exp < 6 then .ok ("KMGTPE".toList.getD exp.toNat 'K')
  else .error .indexOutOfRange

/-- What `formatSize` returns: the text `<bytes> bytes`, or the text that
`fmt.Sprintf("%.2f %cB", float64(bytes)/float64(div), unit)` prints, given by `bytes`, `div`
and the unit letter (the floating-point quotient is not evaluated here). -/
inductive SizeText where
  | plain (text : Str)
  | scaled (bytes : Int) (div : Int) (unit : Char)
  deriving DecidableEq, Repr

/-- Go `formatSize`. -/
def formatSize (bytes : Int) (fuel : Nat) : Option (Except Fault SizeText) :=
  if bytes < 1024 then some (.ok (.plain (decimal bytes ++ " bytes".toList)))
  else
    match formatSizeLoop fuel (div64 bytes 1024) 1024 0 with
    | none => none
    | some (div, exp) =>
      match unitAt exp with
      | .error fault => some (.error fault)
      | .ok unit => some (.ok (.scaled bytes div unit))

end BlobSetTags

namespace BlobSetTags

/-! ## Arithmetic on Go's `int` -/

theorem wrapInt64_of_range {x : Int} (h1 : -9223372036854775808 ≤ x)
    (h2 : x < 9223372036854775808) : wrapInt64 x = x := by
  unfold wrapInt64
  omega

theorem mul64_natCast (a b c : Nat) (hc : a * b = c) (h : c < 9223372036854775808) :
    mul64 (a : Int) (b : Int) = (c : Int) := by
  unfold mul64
  rw [← Int.natCast_mul, hc]
  exact wrapInt64_of_range (by omega) (by omega)

theorem add64_natCast (a b : Nat) (h : a + b < 9223372036854775808) :
    add64 (a : Int) (b : Int) = ((a + b : Nat) : Int) := by
  unfold add64
  rw [← Int.natCast_add]
  exact wrapInt64_of_range (by omega) (by omega)

theorem sub64_natCast (a b : Nat) (h : a < 9223372036854775808)
    (hb : b < 9223372036854775808) :
    sub64 (a : Int) (b : Int) = (a : Int) - (b : Int) := by
  unfold sub64
  exact wrapInt64_of_range (by omega) (by omega)

theorem div64_natCast (a b : Nat) (h : a < 9223372036854775808) :
    div64 (a : Int) (b : Int) = ((a / b : Nat) : Int) := by
  unfold div64
  have hdiv : Int.tdiv (a : Int) (b : Int) = ((a / b : Nat) : Int) := by
    rw [Int.tdiv_eq_ediv (Int.natCast_nonneg a) (Int.natCast_nonneg b)]
    rfl
  rw [hdiv]
  have hle : a / b ≤ a := Nat.div_le_self a b
  generalize a / b = q at hle
  exact wrapInt64_of_range (by omega) (by omega)

theorem goSlice_natCast {α : Type} (xs : List α) (s e : Nat) (hse : s ≤ e)
    (he : e ≤ xs.length) :
    goSlice xs (s : Int) (e : Int) = .ok ((xs.drop s).take (e - s)) := by
  unfold goSlice len
  have hc : (0 : Int) ≤ (s : Int) ∧ (s : Int) ≤ (e : Int) ∧ (e : Int) ≤ ((xs.length : Nat) : Int) := by
    omega
  rw [if_pos hc]
  simp only [Int.toNat_ofNat]

/-! ## The counter of a `sync.WaitGroup` -/

theorem wrapInt32_of_range {x : Int} (h1 : -2147483648 ≤ x) (h2 : x < 2147483648) :
    wrapInt32 x = x := by
  unfold wrapInt32
  omega

theorem wrapInt32_lt (x : Int) : wrapInt32 x < 2147483648 := by
  unfold wrapInt32
  omega

theorem wrapInt32_neg_of_range {x : Int} (h1 : 2147483648 ≤ x) (h2 : x < 4294967296) :
    wrapInt32 x < 0 := by
  unfold wrapInt32
  omega

theorem waitGroupAdd_of_range (c d : Int) (h0 : -2147483648 ≤ c + d)
    (h1 : c + d < 2147483648) : waitGroupAdd c d = c + d :=
  wrapInt32_of_range h0 h1

theorem waitGroupAdd_zero (d : Int) (h0 : 0 ≤ d) (h1 : d < 2147483648) :
    waitGroupAdd 0 d = d := by
  have h := waitGroupAdd_of_range 0 d (by omega) (by omega)
  rwa [Int.zero_add] at h

theorem waitGroupAdd_neg (d : Int) (h1 : 2147483648 ≤ d) (h2 : d < 4294967296) :
    waitGroupAdd 0 d < 0 := by
  unfold waitGroupAdd
  rw [Int.zero_add]
  exact wrapInt32_neg_of_range h1 h2

theorem waitGroupAdd_lt (c d : Int) : waitGroupAdd c d < 2147483648 := wrapInt32_lt _

end BlobSetTags

namespace BlobSetTags

/-! ## The launch loops follow the shard plan -/

theorem launchWorkers_plan (urlPaths : List Str) (wc ppw : Nat) (hq : 1 ≤ ppw)
    (hle : wc * ppw ≤ urlPaths.length) (hN : urlPaths.length < 9223372036854775808) :
    ∀ (k i : Nat), i + k = wc →
      launchWorkers urlPaths (wc : Int) (ppw : Int) k (i : Int)
        = .ok ((shardPlan urlPaths ppw k i).map some) := by
  intro k
  induction k with
  | zero => intro i _; rfl
  | succ k ih =>
    intro i hik
    have ih1 := ih (i + 1) (by omega)
    obtain ⟨a, ha⟩ : ∃ a, i * ppw = a := ⟨_, rfl⟩
    obtain ⟨b, hb⟩ : ∃ b, k * ppw = b := ⟨_, rfl⟩
    have ha1 : (i + 1) * ppw = a + ppw := by rw [← ha]; ring
    have hwc : wc * ppw = a + b + ppw := by rw [← hik, ← ha, ← hb]; ring
    have hia : i ≤ a := by rw [← ha]; exact Nat.le_mul_of_pos_right i hq
    have hwcle : wc ≤ a + b + ppw := by rw [← hwc]; exact Nat.le_mul_of_pos_right wc hq
    have hkb : k = 0 → b = 0 := by intro h; rw [← hb, h, Nat.zero_mul]
    rw [hwc] at hle
    clear hwc hb ih
    have f1 : a < 9223372036854775808 := by omega
    have f2 : i + 1 < 9223372036854775808 := by omega
    have f3 : a + ppw < 9223372036854775808 := by omega
    have f4 : wc < 9223372036854775808 := by omega
    have f5 : a < urlPaths.length := by omega
    have f6 : a + ppw ≤ urlPaths.length := by omega
    have f7 : a ≤ a + ppw := by omega
    have f8 : k = 0 → ((i : Nat) : Int) = (wc : Int) - 1 := by omega
    have f9 : ¬ k = 0 → ¬ ((i : Nat) : Int) = (wc : Int) - 1 := by omega
    have hstart : mul64 (i : Int) (ppw : Int) = (a : Int) := mul64_natCast i ppw a ha f1
    have hadd : add64 (i : Int) 1 = ((i + 1 : Nat) : Int) := add64_natCast i 1 f2
    have hend : mul64 (((i + 1 : Nat) : Int)) (ppw : Int) = ((a + ppw : Nat) : Int) :=
      mul64_natCast (i + 1) ppw (a + ppw) ha1 f3
    have hsub : sub64 (wc : Int) 1 = (wc : Int) - 1 := sub64_natCast wc 1 f4 (by decide)
    have hlt : (a : Int) < len urlPaths := by unfold len; exact_mod_cast f5
    rw [launchWorkers, hstart, hadd, hend, hsub, if_pos hlt, ih1, shardPlan, ha, ha1]
    by_cases hk : k = 0
    · rw [if_pos (f8 hk), if_pos hk]
      unfold len
      rw [goSlice_natCast urlPaths a urlPaths.length (Nat.le_of_lt f5) (le_refl _)]
      rfl
    · rw [if_neg (f9 hk), if_neg hk]
      rw [goSlice_natCast urlPaths a (a + ppw) f7 f6]
      rfl

theorem clientWaitGroup_small (finished : Int → Int) (wc : Nat) (hwc : wc < 2147483648) :
    ∀ j : Nat, j < wc → ¬ waitGroupAdd ((j : Int) - (if finished j < 0 then 0
      else if finished j > (j : Int) then (j : Int) else finished j)) 1 < 0 := by
  intro j hj
  split_ifs
  · rw [waitGroupAdd_of_range _ _ (by omega) (by omega)]; omega
  · rw [waitGroupAdd_of_range _ _ (by omega) (by omega)]; omega
  · rw [waitGroupAdd_of_range _ _ (by omega) (by omega)]; omega

theorem clientWaitGroup_prompt (wc : Nat) :
    ∀ j : Nat, j < wc → ¬ waitGroupAdd ((j : Int) - (if promptWorkers j < 0 then 0
      else if promptWorkers j > (j : Int) then (j : Int) else promptWorkers j)) 1 < 0 := by
  intro j _
  unfold promptWorkers
  split_ifs
  · rw [waitGroupAdd_of_range _ _ (by omega) (by omega)]; omega
  · rw [waitGroupAdd_of_range _ _ (by omega) (by omega)]; omega
  · rw [waitGroupAdd_of_range _ _ (by omega) (by omega)]; omega

theorem clientLaunchWorkers_plan (urlPaths : List Str) (wc ppw : Nat) (finished : Int → Int)
    (hq : 1 ≤ ppw) (hle : wc * ppw ≤ urlPaths.length)
    (hN : urlPaths.length < 9223372036854775808)
    (hwg : ∀ j : Nat, j < wc → ¬ waitGroupAdd ((j : Int) - (if finished j < 0 then 0
      else if finished j > (j : Int) then (j : Int) else finished j)) 1 < 0) :
    ∀ (k i : Nat), i + k = wc →
      clientLaunchWorkers urlPaths (wc : Int) (ppw : Int) finished k (i : Int) (i : Int)
        = .ok ((shardPlan urlPaths ppw k i).map (fun l => ⟨false, some l⟩)) := by
  intro k
  induction k with
  | zero => intro i _; rfl
  | succ k ih =>
    intro i hik
    have ih1 := ih (i + 1) (by omega)
    have hv := hwg i (by omega)
    obtain ⟨a, ha⟩ : ∃ a, i * ppw = a := ⟨_, rfl⟩
    obtain ⟨b, hb⟩ : ∃ b, k * ppw = b := ⟨_, rfl⟩
    have ha1 : (i + 1) * ppw = a + ppw := by rw [← ha]; ring
    have hwc : wc * ppw = a + b + ppw := by rw [← hik, ← ha, ← hb]; ring
    have hia : i ≤ a := by rw [← ha]; exact Nat.le_mul_of_pos_right i hq
    have hwcle : wc ≤ a + b + ppw := by rw [← hwc]; exact Nat.le_mul_of_pos_right wc hq
    rw [hwc] at hle
    clear hwc hb ih hwg
    have f1 : a < 9223372036854775808 := by omega
    have f2 : i + 1 < 9223372036854775808 := by omega
    have f3 : a + ppw < 9223372036854775808 := by omega
    have f4 : wc < 9223372036854775808 := by omega
    have f5 : a < urlPaths.length := by omega
    have f6 : a + ppw ≤ urlPaths.length := by omega
    have f7 : a ≤ a + ppw := by omega
    have f8 : k = 0 → ((i : Nat) : Int) = (wc : Int) - 1 := by omega
    have f9 : ¬ k = 0 → ¬ ((i : Nat) : Int) = (wc : Int) - 1 := by omega
    have g1 : ¬ ((urlPaths.length : Nat) : Int) > ((urlPaths.length : Nat) : Int) := by omega
    have g2 : ¬ ((a + ppw : Nat) : Int) > ((urlPaths.length : Nat) : Int) := by omega
    have g3 : ¬ (a : Int) ≥ ((urlPaths.length : Nat) : Int) := by omega
    have hst : (i : Int) + 1 = ((i + 1 : Nat) : Int) := by push_cast; rfl
    have hstart : mul64 (i : Int) (ppw : Int) = (a : Int) := mul64_natCast i ppw a ha f1
    have hadd : add64 (i : Int) 1 = ((i + 1 : Nat) : Int) := add64_natCast i 1 f2
    have hend : add64 (a : Int) (ppw : Int) = ((a + ppw : Nat) : Int) := add64_natCast a ppw f3
    have hsub : sub64 (wc : Int) 1 = (wc : Int) - 1 := sub64_natCast wc 1 f4 (by decide)
    rw [clientLaunchWorkers, if_neg hv]
    dsimp only
    rw [hstart, hadd, hend, hsub, hst, ih1, shardPlan, ha, ha1]
    unfold len
    by_cases hk : k = 0
    · rw [if_pos (f8 hk), if_pos hk, if_neg g1, if_neg g3,
        goSlice_natCast urlPaths a urlPaths.length (Nat.le_of_lt f5) (le_refl _)]
      simp
    · rw [if_neg (f9 hk), if_neg hk, if_neg g2, if_neg g3,
        goSlice_natCast urlPaths a (a + ppw) f7 f6]
      have g4 : (a : Int) + (ppw : Int) ≤ ((urlPaths.length : Nat) : Int) := by exact_mod_cast f6
      simp [g4]

theorem shardPlan_length (urlPaths : List Str) (ppw : Nat) :
    ∀ (k i : Nat), (shardPlan urlPaths ppw k i).length = k := by
  intro k
  induction k with
  | zero => intro i; rfl
  | succ k ih => intro i; simp [shardPlan, ih]

theorem shardPlan_flatten (urlPaths : List Str) (ppw : Nat) :
    ∀ (k i : Nat), 1 ≤ k → (i + k) * ppw ≤ urlPaths.length →
      ((shardPlan urlPaths ppw k i).map Launch.paths).flatten = urlPaths.drop (i * ppw) := by
  intro k
  induction k with
  | zero => intro i h; omega
  | succ k ih =>
    intro i _ hle
    rw [shardPlan, List.map_cons, List.flatten_cons]
    by_cases hk : k = 0
    · subst hk
      simp [shardPlan, List.take_of_length_le]
    · have hle1 : (i + 1 + k) * ppw ≤ urlPaths.length := by
        have : i + 1 + k = i + (k + 1) := by omega
        rw [this]; exact hle
      rw [ih (i + 1) (by omega) hle1]
      simp only [hk, if_false]
      have h1 : (i + 1) * ppw - i * ppw = ppw := by
        have : (i + 1) * ppw = i * ppw + ppw := by ring
        omega
      have h2 : (i + 1) * ppw = i * ppw + ppw := by ring
      rw [h1, h2, ← List.drop_drop, List.take_append_drop]

theorem shardPlan_sizes (urlPaths : List Str) (ppw : Nat) :
    ∀ (k i : Nat), 1 ≤ k → (i + k) * ppw ≤ urlPaths.length →
      (shardPlan urlPaths ppw k i).map (fun l => l.paths.length)
        = List.replicate (k - 1) ppw ++ [urlPaths.length - (i + k - 1) * ppw] := by
  intro k
  induction k with
  | zero => intro i h; omega
  | succ k ih =>
    intro i _ hle
    rw [shardPlan, List.map_cons]
    by_cases hk : k = 0
    · subst hk
      simp [shardPlan]
    · have hle1 : (i + 1 + k) * ppw ≤ urlPaths.length := by
        have : i + 1 + k = i + (k + 1) := by omega
        rw [this]; exact hle
      rw [ih (i + 1) (by omega) hle1]
      simp only [hk, if_false]
      have h2 : (i + 1) * ppw = i * ppw + ppw := by ring
      have h3 : i * ppw + ppw ≤ urlPaths.length := by
        have : (i + 1) * ppw ≤ (i + (k + 1)) * ppw := Nat.mul_le_mul_right ppw (by omega)
        omega
      have h1 : ((urlPaths.drop (i * ppw)).take ((i + 1) * ppw - i * ppw)).length = ppw := by
        rw [h2, List.length_take, List.length_drop]; omega
      rw [h1]
      obtain ⟨k', rfl⟩ : ∃ k', k = k' + 1 := ⟨k - 1, by omega⟩
      have h4 : i + 1 + (k' + 1) - 1 = i + (k' + 1 + 1) - 1 := by omega
      rw [h4]
      simp [List.replicate_succ]

theorem reduceOption_map_some {α : Type} (xs : List α) : (xs.map some).reduceOption = xs := by
  induction xs with
  | nil => rfl
  | cons x xs ih => simp [List.reduceOption_cons_of_some, ih]

end BlobSetTags

namespace BlobSetTags

theorem distribute_eq (urlPaths : List Str) (W : Int) (hW : 1 ≤ W)
    (hpos : 1 ≤ urlPaths.length) (hN : urlPaths.length < 9223372036854775808) :
    distribute urlPaths W
      = if waitGroupAdd 0 ((min W.toNat urlPaths.length : Nat) : Int) < 0 then
          .error .negativeWaitGroup
        else if ((min W.toNat urlPaths.length : Nat) : Int)
            = waitGroupAdd 0 ((min W.toNat urlPaths.length : Nat) : Int) then
          .ok ((shardPlan urlPaths (urlPaths.length / min W.toNat urlPaths.length)
            (min W.toNat urlPaths.length) 0).map some)
        else .error .waitGroupOutOfStep := by
  obtain ⟨w, rfl⟩ : ∃ w : Nat, W = (w : Int) := ⟨W.toNat, (Int.toNat_of_nonneg (by omega)).symm⟩
  obtain ⟨n, hn⟩ : ∃ n, urlPaths.length = n := ⟨_, rfl⟩
  rw [Int.toNat_ofNat]
  obtain ⟨wc, hwc⟩ : ∃ wc, min w n = wc := ⟨_, rfl⟩
  have hwc1 : 1 ≤ wc := by omega
  have hwcn : wc ≤ n := by omega
  have e1 : (if (w : Int) > (n : Int) then (n : Int) else (w : Int)) = (wc : Int) := by
    by_cases h : (w : Int) > (n : Int)
    · rw [if_pos h]; omega
    · rw [if_neg h]; omega
  have e2 : ¬ ((n : Nat) : Int) = 0 := by omega
  have e3 : ¬ (wc : Int) = 0 := by omega
  have hq : 1 ≤ n / wc := (Nat.one_le_div_iff (by omega)).mpr hwcn
  have e5 : ¬ ((n / wc : Nat) : Int) < 1 := by
    generalize n / wc = q at hq
    omega
  have hmul : wc * (n / wc) ≤ n := Nat.mul_div_le n wc
  have hdiv : div64 (n : Int) (wc : Int) = ((n / wc : Nat) : Int) := div64_natCast n wc (by omega)
  have hplan := launchWorkers_plan urlPaths wc (n / wc) hq (by rw [hn]; exact hmul) hN wc 0
    (by omega)
  have hplan1 : launchWorkers urlPaths (wc : Int) ((n / wc : Nat) : Int) wc 0
      = .ok ((shardPlan urlPaths (n / wc) wc 0).map some) := by exact_mod_cast hplan
  have hlen : ((shardPlan urlPaths (n / wc) wc 0).map some).length = wc := by
    rw [List.length_map, shardPlan_length]
  unfold distribute len
  rw [hn, hwc, e1, if_neg e2]
  simp only [e3, if_false, hdiv, e5, Int.toNat_ofNat, hplan1, hlen]

theorem distribute_plan (urlPaths : List Str) (W : Int) (hW : 1 ≤ W)
    (hpos : 1 ≤ urlPaths.length) (hN : urlPaths.length < 9223372036854775808)
    (hwg : min W.toNat urlPaths.length < 2147483648) :
    distribute urlPaths W
      = .ok ((shardPlan urlPaths (urlPaths.length / min W.toNat urlPaths.length)
          (min W.toNat urlPaths.length) 0).map some) := by
  rw [distribute_eq urlPaths W hW hpos hN]
  generalize min W.toNat urlPaths.length = wc at hwg ⊢
  have h0 : ¬ (wc : Int) < 0 := by omega
  rw [waitGroupAdd_zero (wc : Int) (by omega) (by omega), if_neg h0, if_pos rfl]

theorem distribute_out_of_range (urlPaths : List Str) (W : Int) (hW : 1 ≤ W)
    (hN : urlPaths.length < 9223372036854775808)
    (hwg : 2147483648 ≤ min W.toNat urlPaths.length) :
    ∃ fault, distribute urlPaths W = .error fault ∧
      (fault = .negativeWaitGroup ∨ fault = .waitGroupOutOfStep) ∧
      (min W.toNat urlPaths.length < 4294967296 → fault = .negativeWaitGroup) := by
  rw [distribute_eq urlPaths W hW (by omega) hN]
  generalize min W.toNat urlPaths.length = wc at hwg ⊢
  have hbig : (2147483648 : Int) ≤ (wc : Int) := by omega
  have hsmall : wc < 4294967296 → (wc : Int) < 4294967296 := by omega
  by_cases hneg : waitGroupAdd 0 (wc : Int) < 0
  · rw [if_pos hneg]
    exact ⟨_, rfl, Or.inl rfl, fun _ => rfl⟩
  · have hc := waitGroupAdd_lt 0 (wc : Int)
    have hne : ¬ (wc : Int) = waitGroupAdd 0 (wc : Int) := by
      generalize waitGroupAdd 0 (wc : Int) = c at hc
      clear hneg
      omega
    rw [if_neg hneg, if_neg hne]
    exact ⟨_, rfl, Or.inr rfl,
      fun hlt => absurd (waitGroupAdd_neg (wc : Int) hbig (hsmall hlt)) hneg⟩

end BlobSetTags

namespace BlobSetTags

theorem cleanLines_length_le (lines : List Str) : (cleanLines lines).length ≤ lines.length := by
  induction lines with
  | nil => exact Nat.le_refl _
  | cons line rest ih =>
    unfold cleanLines
    split
    · exact Nat.le_succ_of_le ih
    · simp only []
      split
      · exact Nat.le_succ_of_le ih
      · simpa using ih

theorem distribute_nil (W : Int) : distribute [] W = .ok [] := rfl

theorem cleanLines_replicate (p : Str) (hp : p ≠ []) (ht : trimSpace p = p) (n : Nat) :
    cleanLines (List.replicate n p) = List.replicate n p := by
  induction n with
  | zero => rfl
  | succ n ih =>
    have h0 : ¬ len p = 0 := by
      unfold len
      cases p with
      | nil => exact absurd rfl hp
      | cons c cs => simp only [List.length_cons]; omega
    rw [List.replicate_succ, cleanLines, if_neg h0]
    simp only [ht, if_neg hp, ih]

theorem processBatch_cover (lines : List Str) (W : Int) (hW : 1 ≤ W)
    (hN : lines.length < 9223372036854775808)
    (hwg : min W.toNat (cleanLines lines).length < 2147483648) :
    ∃ slots, processBatch lines W = .ok slots ∧
      (shardsOf slots).flatten = cleanLines lines ∧
      (cleanLines lines = [] → slots = []) := by
  have hlen := cleanLines_length_le lines
  unfold processBatch
  obtain ⟨urlPaths, hu⟩ : ∃ u, cleanLines lines = u := ⟨_, rfl⟩
  rw [hu] at hlen hwg ⊢
  cases urlPaths with
  | nil => exact ⟨[], rfl, rfl, fun _ => rfl⟩
  | cons p ps =>
    have hpos : 1 ≤ (p :: ps).length := by simp
    have hlt : (p :: ps).length < 9223372036854775808 := by omega
    refine ⟨_, distribute_plan (p :: ps) W hW hpos hlt hwg, ?_, fun h => by simp at h⟩
    unfold shardsOf
    rw [reduceOption_map_some]
    have h := shardPlan_flatten (p :: ps) ((p :: ps).length / min W.toNat (p :: ps).length)
      (min W.toNat (p :: ps).length) 0 (by omega)
      (by rw [Nat.zero_add]; exact Nat.mul_div_le _ _)
    rw [h]
    simp

theorem processBatch_fault (lines : List Str) (W : Int) (hW : 1 ≤ W)
    (hN : lines.length < 9223372036854775808)
    (hwg : 2147483648 ≤ min W.toNat (cleanLines lines).length) :
    ∃ fault, processBatch lines W = .error fault ∧
      (fault = .negativeWaitGroup ∨ fault = .waitGroupOutOfStep) ∧
      (min W.toNat (cleanLines lines).length < 4294967296 → fault = .negativeWaitGroup) := by
  have hlen := cleanLines_length_le lines
  unfold processBatch
  exact distribute_out_of_range (cleanLines lines) W hW (by omega) hwg

theorem processBatch_ok_cover (lines : List Str) (W : Int) (hW : 1 ≤ W)
    (hN : lines.length < 9223372036854775808) (slots : List (Option Launch))
    (hok : processBatch lines W = .ok slots) :
    (shardsOf slots).flatten = cleanLines lines := by
  by_cases hwg : min W.toNat (cleanLines lines).length < 2147483648
  · obtain ⟨slots1, h1, h2, _⟩ := processBatch_cover lines W hW hN hwg
    rw [hok] at h1
    cases h1
    exact h2
  · obtain ⟨fault, h1, _⟩ := processBatch_fault lines W hW hN (by omega)
    rw [hok] at h1
    cases h1

theorem processBatch_replicate (n : Nat) (W : Int) (hW : 1 ≤ W)
    (hn : n < 9223372036854775808) (hlo : 2147483648 ≤ min W.toNat n)
    (hhi : min W.toNat n < 4294967296) :
    processBatch (List.replicate n "/a".toList) W = .error .negativeWaitGroup := by
  have hc : cleanLines (List.replicate n "/a".toList) = List.replicate n "/a".toList :=
    cleanLines_replicate "/a".toList (by decide) (by decide) n
  have hl : (cleanLines (List.replicate n "/a".toList)).length = n := by
    rw [hc, List.length_replicate]
  obtain ⟨fault, h1, _, h2⟩ := processBatch_fault (List.replicate n "/a".toList) W hW
    (by rw [List.length_replicate]; exact hn) (by rw [hl]; exact hlo)
  rw [h1, h2 (by rw [hl]; exact hhi)]

/-- C1 as stated fails: a batch of `2^31` work items with `W = 2^31` makes
`wg.Add(workerCount)` panic on the 32-bit counter of the `WaitGroup`, so the `2^31` work
items of the batch are handed to no worker. -/
theorem processBatch_hands_out_nothing :
    (cleanLines (List.replicate 2147483648 "/a".toList)).length = 2147483648 ∧
    processBatch (List.replicate 2147483648 "/a".toList) 2147483648
      = .error .negativeWaitGroup :=
  ⟨by rw [cleanLines_replicate "/a".toList (by decide) (by decide), List.length_replicate],
    processBatch_replicate 2147483648 2147483648 (by decide) (by decide) (by decide)
      (by decide)⟩

/-- C1, amended: for every batch and every worker count `W ≥ 1` such that the worker count
`min W N` that `processBatch` uses is below `2^31`, `processBatch` returns normally and the
shards it hands to its workers, concatenated in worker-index order, are exactly the
work-item list of the batch (no item omitted, duplicated or reordered); a batch without work
items creates no shard. -/
theorem processBatch_shards_cover_batch (lines : List Str) (W : Int) (hW : 1 ≤ W)
    (hN : lines.length < 9223372036854775808)
    (hwg : min W.toNat (cleanLines lines).length < 2147483648) :
    ∃ slots, processBatch lines W = .ok slots ∧
      (shardsOf slots).flatten = cleanLines lines ∧
      (cleanLines lines = [] → slots = []) :=
  processBatch_cover lines W hW hN hwg

theorem processBatch_shards_cover_batch_witness :
    ∃ slots, processBatch ["/a".toList, "/b".toList, "/c".toList] 2 = .ok slots ∧
      (shardsOf slots).flatten = cleanLines ["/a".toList, "/b".toList, "/c".toList] ∧
      (cleanLines ["/a".toList, "/b".toList, "/c".toList] = [] → slots = []) :=
  processBatch_shards_cover_batch ["/a".toList, "/b".toList, "/c".toList] 2 (by decide)
    (by decide) (by decide)

/-- C2 as stated fails: with `N = 2^31` work items and `W = 3000000000` the worker count is
`min W N = 2^31`, `wg.Add(workerCount)` panics on the 32-bit counter of the `WaitGroup`, and
no worker is started. -/
theorem processBatch_starts_no_worker :
    (cleanLines (List.replicate 2147483648 "/a".toList)).length = 2147483648 ∧
    processBatch (List.replicate 2147483648 "/a".toList) 3000000000
      = .error .negativeWaitGroup :=
  ⟨by rw [cleanLines_replicate "/a".toList (by decide) (by decide), List.length_replicate],
    processBatch_replicate 2147483648 3000000000 (by decide) (by decide) (by decide)
      (by decide)⟩

/-- C2, amended: for a batch with `N ≥ 1` work items and `W ≥ 1` such that `min W N` is
below `2^31`, `processBatch` starts exactly `min W N` workers (no index is skipped); every
shard but the last holds `N / min W N` items, the last holds `N / min W N + N % min W N`,
so no shard is empty; with `W = 10` and `N = 3` there are three shards of one item each. -/
theorem processBatch_worker_count_and_sizes (lines : List Str) (W : Int) (hW : 1 ≤ W)
    (hpos : 1 ≤ (cleanLines lines).length) (hN : lines.length < 9223372036854775808)
    (hwg : min W.toNat (cleanLines lines).length < 2147483648) :
    ∃ launches : List Launch,
      processBatch lines W = .ok (launches.map some) ∧
      launches.length = min W.toNat (cleanLines lines).length ∧
      launches.map (fun l => l.paths.length)
        = List.replicate (min W.toNat (cleanLines lines).length - 1)
            ((cleanLines lines).length / min W.toNat (cleanLines lines).length)
          ++ [(cleanLines lines).length / min W.toNat (cleanLines lines).length
              + (cleanLines lines).length % min W.toNat (cleanLines lines).length] ∧
      (∀ l ∈ launches, l.paths ≠ []) ∧
      (W = 10 → (cleanLines lines).length = 3 →
        launches.map (fun l => l.paths.length) = [1, 1, 1]) := by
  have hlen := cleanLines_length_le lines
  unfold processBatch
  obtain ⟨urlPaths, hu⟩ : ∃ u, cleanLines lines = u := ⟨_, rfl⟩
  rw [hu] at hlen hpos hwg ⊢
  have hlt : urlPaths.length < 9223372036854775808 := by omega
  obtain ⟨n, hn⟩ : ∃ n, urlPaths.length = n := ⟨_, rfl⟩
  obtain ⟨wc, hwc⟩ : ∃ wc, min W.toNat n = wc := ⟨_, rfl⟩
  have hwc1 : 1 ≤ wc := by omega
  have hwcn : wc ≤ n := by omega
  have hq : 1 ≤ n / wc := (Nat.one_le_div_iff (by omega)).mpr hwcn
  have hmul : (0 + wc) * (n / wc) ≤ urlPaths.length := by
    rw [Nat.zero_add, hn]; exact Nat.mul_div_le n wc
  have hplan := distribute_plan urlPaths W hW hpos hlt hwg
  have hsz := shardPlan_sizes urlPaths (n / wc) wc 0 hwc1 hmul
  have hlast : urlPaths.length - (0 + wc - 1) * (n / wc) = n / wc + n % wc := by
    have h1 : (wc - 1) * (n / wc) = wc * (n / wc) - n / wc := by
      rw [Nat.sub_mul, Nat.one_mul]
    have h2 : wc * (n / wc) + n % wc = n := Nat.div_add_mod n wc
    have h3 : n / wc ≤ wc * (n / wc) := Nat.le_mul_of_pos_left _ (by omega)
    rw [Nat.zero_add, h1, hn]
    generalize wc * (n / wc) = p at h2 h3
    generalize n / wc = q at h3
    generalize n % wc = r at h2
    omega
  rw [hn, hwc] at hplan
  rw [hlast] at hsz
  rw [hn, hwc]
  have hne : ∀ l ∈ shardPlan urlPaths (n / wc) wc 0, l.paths ≠ [] := by
    intro l hl hnil
    have hmem : l.paths.length ∈ (shardPlan urlPaths (n / wc) wc 0).map
        (fun l => l.paths.length) := List.mem_map_of_mem (fun l => l.paths.length) hl
    rw [hsz, hnil] at hmem
    simp only [List.length_nil, List.mem_append, List.mem_replicate, List.mem_singleton] at hmem
    generalize n / wc = q at hq hmem
    omega
  refine ⟨_, hplan, shardPlan_length _ _ _ _, hsz, hne, ?_⟩
  intro hW10 hn3
  subst hW10
  subst hn3
  have : wc = 3 := by rw [← hwc]; decide
  subst this
  rw [hsz]
  decide

theorem processBatch_worker_count_and_sizes_witness :
    ∃ launches : List Launch,
      processBatch ["/a".toList, "/b".toList, "/c".toList] 10 = .ok (launches.map some) ∧
      launches.length = 3 ∧
      launches.map (fun l => l.paths.length) = [1, 1, 1] ∧
      launches.map Launch.paths = [["/a".toList], ["/b".toList], ["/c".toList]] := by
  obtain ⟨launches, h1, h2, _, _, h5⟩ :=
    processBatch_worker_count_and_sizes ["/a".toList, "/b".toList, "/c".toList] 10
      (by decide) (by decide) (by decide) (by decide)
  refine ⟨launches, h1, h2, h5 rfl rfl, ?_⟩
  have hrun : processBatch ["/a".toList, "/b".toList, "/c".toList] 10
      = .ok (([⟨0, 1, ["/a".toList]⟩, ⟨1, 2, ["/b".toList]⟩, ⟨2, 3, ["/c".toList]⟩]
          : List Launch).map some) := rfl
  rw [hrun] at h1
  have hinj := List.map_injective_iff.mpr (Option.some_injective Launch) (Except.ok.inj h1)
  rw [← hinj]
  rfl

end BlobSetTags

namespace BlobSetTags

theorem clientDistribute_plan (urlPaths : List Str) (W : Int) (finished : Int → Int)
    (hW : 1 ≤ W) (hpos : 1 ≤ urlPaths.length) (hN : urlPaths.length < 9223372036854775808)
    (hwg : ∀ j : Nat, j < min W.toNat urlPaths.length →
      ¬ waitGroupAdd ((j : Int) - (if finished j < 0 then 0
        else if finished j > (j : Int) then (j : Int) else finished j)) 1 < 0) :
    clientDistribute urlPaths W finished
      = .ok ((shardPlan urlPaths (urlPaths.length / min W.toNat urlPaths.length)
          (min W.toNat urlPaths.length) 0).map (fun l => ⟨false, some l⟩)) := by
  obtain ⟨w, rfl⟩ : ∃ w : Nat, W = (w : Int) := ⟨W.toNat, (Int.toNat_of_nonneg (by omega)).symm⟩
  obtain ⟨n, hn⟩ : ∃ n, urlPaths.length = n := ⟨_, rfl⟩
  simp only [Int.toNat_ofNat] at hwg ⊢
  rw [hn] at hwg
  have e0 : ¬ (w : Int) = 0 := by omega
  have hw1 : 1 ≤ w := by omega
  have hdiv : div64 (n : Int) (w : Int) = ((n / w : Nat) : Int) := div64_natCast n w (by omega)
  unfold clientDistribute len
  rw [hn, if_neg e0, hdiv]
  by_cases hq : n / w = 0
  · have hlt : n < w := (Nat.div_eq_zero_iff (by omega)).mp hq
    have hmin : min w n = n := by omega
    have hnn : n / n = 1 := Nat.div_self (by omega)
    have c1 : ((n / w : Nat) : Int) = 0 := by rw [hq]; rfl
    rw [hmin] at hwg ⊢
    rw [hnn]
    simp only [c1, if_true, Int.toNat_ofNat]
    have hplan := clientLaunchWorkers_plan urlPaths n 1 finished (le_refl 1) (by omega) hN hwg
      n 0 (by omega)
    exact_mod_cast hplan
  · have hle : w ≤ n := by
      by_contra hc
      exact hq (Nat.div_eq_of_lt (by omega))
    have hmin : min w n = w := by omega
    have hq1 : 1 ≤ n / w := Nat.one_le_iff_ne_zero.mpr hq
    have c1 : ¬ ((n / w : Nat) : Int) = 0 := by exact_mod_cast hq
    rw [hmin] at hwg ⊢
    simp only [c1, if_false, Int.toNat_ofNat]
    have hplan := clientLaunchWorkers_plan urlPaths w (n / w) finished hq1
      (by rw [hn]; exact Nat.mul_div_le n w) hN hwg w 0 (by omega)
    exact_mod_cast hplan

/-- C20 as stated fails: for `N = W = 2^31` the set-tags distributor panics in
`wg.Add(workerCount)` before it launches a slice, while the http-client `main`, which
raises its `WaitGroup` by one per worker, launches all `2^31` slices when every worker is
done before the next one is started. -/
theorem distributors_differ_at_two_to_31_workers :
    distribute (List.replicate 2147483648 "/a".toList) 2147483648
      = .error .negativeWaitGroup ∧
    ∃ slots : List ClientSlot,
      clientDistribute (List.replicate 2147483648 "/a".toList) 2147483648 promptWorkers
        = .ok slots ∧ slots.length = 2147483648 := by
  constructor
  · obtain ⟨fault, h1, _, h2⟩ := distribute_out_of_range (List.replicate 2147483648 "/a".toList)
      2147483648 (by decide) (by rw [List.length_replicate]; decide)
      (by rw [List.length_replicate]; decide)
    rw [h1, h2 (by rw [List.length_replicate]; decide)]
  · refine ⟨_, clientDistribute_plan (List.replicate 2147483648 "/a".toList) 2147483648
      promptWorkers (by decide) (by rw [List.length_replicate]; decide)
      (by rw [List.length_replicate]; decide) (clientWaitGroup_prompt _), ?_⟩
    rw [List.length_map, shardPlan_length, List.length_replicate]
    decide

/-- C20, amended: for every item list of length `N ≥ 1` and every worker count `W ≥ 1` such
that `min W N` is below `2^31`, and however the workers of the http-client are scheduled,
the slices launched by the http-client `main` are, index by index, the slices launched by
the set-tags `processBatch` distributor, and in the http-client loop neither the guard
`endIdx > totalRequests` nor the guard `startIdx >= totalRequests` is ever taken. -/
theorem clientDistribute_agrees_with_distribute (urlPaths : List Str) (W : Int)
    (finished : Int → Int) (hW : 1 ≤ W)
    (hpos : 1 ≤ urlPaths.length) (hN : urlPaths.length < 9223372036854775808)
    (hwg : min W.toNat urlPaths.length < 2147483648) :
    ∃ slots : List ClientSlot,
      clientDistribute urlPaths W finished = .ok slots ∧
      distribute urlPaths W = .ok (slots.map ClientSlot.launch) ∧
      (∀ s ∈ slots, s.clamped = false ∧ s.launch ≠ none) := by
  refine ⟨_, clientDistribute_plan urlPaths W finished hW hpos hN
    (clientWaitGroup_small finished _ hwg), ?_, ?_⟩
  · rw [distribute_plan urlPaths W hW hpos hN hwg, List.map_map]
    rfl
  · intro s hs
    obtain ⟨l, _, rfl⟩ := List.mem_map.mp hs
    exact ⟨rfl, by simp⟩

theorem clientDistribute_agrees_with_distribute_witness :
    ∃ slots : List ClientSlot,
      clientDistribute ["/a".toList, "/b".toList, "/c".toList, "/d".toList, "/e".toList] 2
        slowWorkers = .ok slots ∧
      distribute ["/a".toList, "/b".toList, "/c".toList, "/d".toList, "/e".toList] 2
        = .ok (slots.map ClientSlot.launch) ∧
      (∀ s ∈ slots, s.clamped = false ∧ s.launch ≠ none) :=
  clientDistribute_agrees_with_distribute
    ["/a".toList, "/b".toList, "/c".toList, "/d".toList, "/e".toList] 2 slowWorkers
    (by decide) (by decide) (by decide) (by decide)

end BlobSetTags

namespace BlobSetTags

/-! ## The batch loop -/

theorem batchesLeft_of_ge (L B s : Nat) (hB : 1 ≤ B) (h : L ≤ s) : batchesLeft L B s = 0 := by
  unfold batchesLeft
  have : L - s + B - 1 < B := by omega
  exact Nat.div_eq_of_lt this

theorem batchesLeft_step (L B s : Nat) (hB : 1 ≤ B) (h : s < L) :
    batchesLeft L B s = batchesLeft L B (s + B) + 1 := by
  unfold batchesLeft
  by_cases hc : s + B ≤ L
  · have e : L - s + B - 1 = (L - (s + B) + B - 1) + B := by omega
    rw [e, Nat.add_div_right _ (by omega)]
  · have e : L - s + B - 1 = (L - s - 1) + B := by omega
    have e2 : L - (s + B) + B - 1 = B - 1 := by omega
    rw [e, e2, Nat.add_div_right _ (by omega), Nat.div_eq_of_lt (by omega : L - s - 1 < B),
      Nat.div_eq_of_lt (by omega : B - 1 < B)]

theorem clearRange_length (lines : List Str) (s e : Nat) (hse : s ≤ e) (he : e ≤ lines.length) :
    (clearRange lines (s : Int) (e : Int)).length = lines.length := by
  unfold clearRange
  simp only [Int.toNat_ofNat, List.length_append, List.length_take, List.length_replicate,
    List.length_drop]
  omega

theorem clearRange_drop (lines : List Str) (s e : Nat) (hse : s ≤ e) (he : e ≤ lines.length) :
    (clearRange lines (s : Int) (e : Int)).drop e = lines.drop e := by
  unfold clearRange
  simp only [Int.toNat_ofNat]
  have hl : (lines.take s ++ List.replicate (e - s) ([] : Str)).length = e := by
    simp only [List.length_append, List.length_take, List.length_replicate]
    omega
  rw [List.drop_append_eq_append_drop, hl, Nat.sub_self, List.drop_zero,
    List.drop_of_length_le (by omega), List.nil_append]

end BlobSetTags

namespace BlobSetTags

theorem drop_add_eq {α : Type} (l : List α) (s k : Nat) :
    l.drop (s + k) = (l.drop s).drop k := by
  rw [List.drop_drop, Nat.add_comm]

theorem drop_eq_of_le {α : Type} {l l1 : List α} (s e : Nat) (hse : s ≤ e)
    (h : l.drop s = l1.drop s) : l.drop e = l1.drop e := by
  obtain ⟨k, rfl⟩ : ∃ k, e = s + k := ⟨e - s, by omega⟩
  rw [drop_add_eq, drop_add_eq, h]

theorem batchLoop_spec (orig : List Str) (W : Int) (B : Nat) (hW : 1 ≤ W) (hB : 1 ≤ B)
    (hB2 : B < 9223372036854775808) (hL : orig.length < 4611686018427387904)
    (hwg : min W.toNat (min B orig.length) < 2147483648) :
    ∀ (fuel s : Nat) (cur : List Str), cur.length = orig.length → cur.drop s = orig.drop s →
      (s = 0 ∨ B ≤ s) → batchesLeft orig.length B s ≤ fuel →
      ∃ runs : List BatchRun,
        batchLoop W (B : Int) fuel cur (s : Int) = some (.ok runs) ∧
        runs.map (fun r => (r.batchStart, r.batchEnd))
          = (batchRanges orig.length B (batchesLeft orig.length B s) s).map
              (fun p => ((p.1 : Int), (p.2 : Int))) ∧
        (runs.map BatchRun.lines).flatten = orig.drop s ∧
        (∀ r ∈ runs,
          r.lines = (orig.drop r.batchStart.toNat).take (r.batchEnd.toNat - r.batchStart.toNat) ∧
          processBatch r.lines W = .ok r.slots) := by
  intro fuel
  induction fuel with
  | zero =>
    intro s cur hlen _ _ hfuel
    have hge : orig.length ≤ s := by
      by_contra hc
      have := batchesLeft_step orig.length B s hB (by omega)
      omega
    have hcond : ¬ ((s : Nat) : Int) < len cur := by unfold len; omega
    refine ⟨[], ?_, ?_, ?_, ?_⟩
    · rw [batchLoop, if_neg hcond]
    · rw [batchesLeft_of_ge _ _ _ hB hge]; rfl
    · rw [List.drop_of_length_le hge]; rfl
    · intro r hr; cases hr
  | succ fuel ih =>
    intro s cur hlen hdrop hs hfuel
    by_cases hlt : s < orig.length
    · -- one more batch
      have hstep := batchesLeft_step orig.length B s hB hlt
      obtain ⟨e, he⟩ : ∃ e, min (s + B) orig.length = e := ⟨_, rfl⟩
      have f1 : s + B < 9223372036854775808 := by omega
      have f2 : s ≤ e := by omega
      have f3 : e ≤ cur.length := by omega
      have f4 : s < e := by omega
      have f5 : e ≤ orig.length := by omega
      have f6 : batchesLeft orig.length B (s + B) ≤ fuel := by omega
      have hcond : ((s : Nat) : Int) < len cur := by unfold len; omega
      have hend : (if ((s + B : Nat) : Int) > len cur then len cur else ((s + B : Nat) : Int))
          = (e : Int) := by
        unfold len
        by_cases h : ((s + B : Nat) : Int) > ((cur.length : Nat) : Int)
        · rw [if_pos h]; omega
        · rw [if_neg h]; omega
      have hbatch : (cur.drop s).take (e - s) = (orig.drop s).take (e - s) := by rw [hdrop]
      have hbl : ((orig.drop s).take (e - s)).length ≤ min B orig.length := by
        simp only [List.length_take, List.length_drop]; omega
      have hcl := cleanLines_length_le ((orig.drop s).take (e - s))
      obtain ⟨slots, hslots, _, _⟩ := processBatch_cover ((orig.drop s).take (e - s)) W hW
        (by omega) (by omega)
      -- the state handed to the next iteration
      obtain ⟨next, hnext⟩ : ∃ next, (if (e : Int) < len cur
          then clearRange cur (s : Int) (e : Int) else cur) = next := ⟨_, rfl⟩
      have hnlen : next.length = orig.length := by
        rw [← hnext]
        split
        · rw [clearRange_length cur s e f2 f3]; exact hlen
        · exact hlen
      have hndrop : next.drop (s + B) = orig.drop (s + B) := by
        rw [← hnext]
        unfold len
        by_cases h : (e : Int) < ((cur.length : Nat) : Int)
        · rw [if_pos h]
          have hes : e = s + B := by omega
          rw [← hes, clearRange_drop cur s e f2 f3]
          exact drop_eq_of_le s e f2 hdrop
        · rw [if_neg h]
          exact drop_eq_of_le s (s + B) (by omega) hdrop
      obtain ⟨runs, hruns, hranges, hflat, hall⟩ := ih (s + B) next hnlen hndrop (Or.inr (by omega)) f6
      refine ⟨⟨(s : Int), (e : Int), (orig.drop s).take (e - s), slots⟩ :: runs, ?_, ?_, ?_, ?_⟩
      · have hadd : add64 (s : Int) (B : Int) = ((s + B : Nat) : Int) :=
          add64_natCast s B f1
        rw [batchLoop, hadd, if_pos hcond]
        dsimp only
        rw [hend, goSlice_natCast cur s e f2 f3, hbatch]
        dsimp only
        rw [hslots]
        dsimp only
        rw [hnext, hruns]
      · rw [hstep, batchRanges, List.map_cons, List.map_cons, hranges, he]
      · rw [List.map_cons, List.flatten_cons, hflat]
        show List.take (e - s) (List.drop s orig) ++ List.drop (s + B) orig = List.drop s orig
        by_cases hc : s + B ≤ orig.length
        · have hes : e - s = B := by omega
          rw [hes, drop_add_eq, List.take_append_drop]
        · have h1 : orig.drop (s + B) = [] := List.drop_of_length_le (by omega)
          have h2 : (orig.drop s).length ≤ e - s := by
            simp only [List.length_drop]; omega
          rw [h1, List.append_nil, List.take_of_length_le h2]
      · intro r hr
        rcases List.mem_cons.mp hr with rfl | hr
        · refine ⟨?_, hslots⟩
          show List.take (e - s) (List.drop s orig)
            = List.take ((e : Int).toNat - (s : Int).toNat) (List.drop (s : Int).toNat orig)
          rw [Int.toNat_ofNat, Int.toNat_ofNat]
        · exact hall r hr
    · -- the loop condition fails
      have hge : orig.length ≤ s := by omega
      have hcond : ¬ ((s : Nat) : Int) < len cur := by unfold len; omega
      refine ⟨[], ?_, ?_, ?_, ?_⟩
      · rw [batchLoop, if_neg hcond]
      · rw [batchesLeft_of_ge _ _ _ hB hge]; rfl
      · rw [List.drop_of_length_le hge]; rfl
      · intro r hr; cases hr

theorem batchLoop_short_of_fuel (orig : List Str) (W : Int) (B : Nat) (hW : 1 ≤ W) (hB : 1 ≤ B)
    (hB2 : B < 9223372036854775808) (hL : orig.length < 4611686018427387904)
    (hwg : min W.toNat (min B orig.length) < 2147483648) :
    ∀ (fuel s : Nat) (cur : List Str), cur.length = orig.length → cur.drop s = orig.drop s →
      (s = 0 ∨ B ≤ s) → fuel < batchesLeft orig.length B s →
      batchLoop W (B : Int) fuel cur (s : Int) = none := by
  intro fuel
  induction fuel with
  | zero =>
    intro s cur hlen _ _ hfuel
    have hlt : s < orig.length := by
      by_contra hc
      have := batchesLeft_of_ge orig.length B s hB (by omega)
      omega
    have hcond : ((s : Nat) : Int) < len cur := by unfold len; omega
    rw [batchLoop, if_pos hcond]
  | succ fuel ih =>
    intro s cur hlen hdrop hs hfuel
    have hlt : s < orig.length := by
      by_contra hc
      have := batchesLeft_of_ge orig.length B s hB (by omega)
      omega
    have hstep := batchesLeft_step orig.length B s hB hlt
    obtain ⟨e, he⟩ : ∃ e, min (s + B) orig.length = e := ⟨_, rfl⟩
    have f1 : s + B < 9223372036854775808 := by omega
    have f2 : s ≤ e := by omega
    have f3 : e ≤ cur.length := by omega
    have f6 : fuel < batchesLeft orig.length B (s + B) := by omega
    have hcond : ((s : Nat) : Int) < len cur := by unfold len; omega
    have hend : (if ((s + B : Nat) : Int) > len cur then len cur else ((s + B : Nat) : Int))
        = (e : Int) := by
      unfold len
      by_cases h : ((s + B : Nat) : Int) > ((cur.length : Nat) : Int)
      · rw [if_pos h]; omega
      · rw [if_neg h]; omega
    have hbatch : (cur.drop s).take (e - s) = (orig.drop s).take (e - s) := by rw [hdrop]
    have hbl : ((orig.drop s).take (e - s)).length ≤ min B orig.length := by
      simp only [List.length_take, List.length_drop]; omega
    have hcl := cleanLines_length_le ((orig.drop s).take (e - s))
    obtain ⟨slots, hslots, _, _⟩ := processBatch_cover ((orig.drop s).take (e - s)) W hW
      (by omega) (by omega)
    obtain ⟨next, hnext⟩ : ∃ next, (if (e : Int) < len cur
        then clearRange cur (s : Int) (e : Int) else cur) = next := ⟨_, rfl⟩
    have hnlen : next.length = orig.length := by
      rw [← hnext]
      split
      · rw [clearRange_length cur s e f2 f3]; exact hlen
      · exact hlen
    have hndrop : next.drop (s + B) = orig.drop (s + B) := by
      rw [← hnext]
      unfold len
      by_cases h : (e : Int) < ((cur.length : Nat) : Int)
      · rw [if_pos h]
        have hes : e = s + B := by omega
        rw [← hes, clearRange_drop cur s e f2 f3]
        exact drop_eq_of_le s e f2 hdrop
      · rw [if_neg h]
        exact drop_eq_of_le s (s + B) (by omega) hdrop
    have hnone := ih (s + B) next hnlen hndrop (Or.inr (by omega)) f6
    have hadd : add64 (s : Int) (B : Int) = ((s + B : Nat) : Int) := add64_natCast s B f1
    rw [batchLoop, hadd, if_pos hcond]
    dsimp only
    rw [hend, goSlice_natCast cur s e f2 f3, hbatch]
    dsimp only
    rw [hslots]
    dsimp only
    rw [hnext, hnone]

/-! ## One iteration of the batch loop, whatever `processBatch` does -/

theorem batchLoop_step (W : Int) (B fuel s e : Nat) (cur : List Str)
    (hs : s < cur.length) (hsB : s + B < 9223372036854775808)
    (he : min (s + B) cur.length = e) :
    batchLoop W (B : Int) (fuel + 1) cur (s : Int)
      = match processBatch ((cur.drop s).take (e - s)) W with
        | .error f => some (.error f)
        | .ok slots =>
          match batchLoop W (B : Int) fuel
              (if (e : Int) < len cur then clearRange cur (s : Int) (e : Int) else cur)
              ((s + B : Nat) : Int) with
          | none => none
          | some (.error f) => some (.error f)
          | some (.ok runs) =>
            some (.ok (⟨(s : Int), (e : Int), (cur.drop s).take (e - s), slots⟩ :: runs)) := by
  have f2 : s ≤ e := by omega
  have f3 : e ≤ cur.length := by omega
  have hcond : ((s : Nat) : Int) < len cur := by unfold len; omega
  have hend : (if ((s + B : Nat) : Int) > len cur then len cur else ((s + B : Nat) : Int))
      = (e : Int) := by
    unfold len
    by_cases h : ((s + B : Nat) : Int) > ((cur.length : Nat) : Int)
    · rw [if_pos h]; omega
    · rw [if_neg h]; omega
  have hadd : add64 (s : Int) (B : Int) = ((s + B : Nat) : Int) := add64_natCast s B hsB
  rw [batchLoop, hadd, if_pos hcond]
  dsimp only
  rw [hend, goSlice_natCast cur s e f2 f3]

theorem batchLoopPassed_step (W : Int) (B fuel s e : Nat) (cur : List Str)
    (hs : s < cur.length) (hsB : s + B < 9223372036854775808)
    (he : min (s + B) cur.length = e) :
    batchLoopPassed W (B : Int) (fuel + 1) cur (s : Int)
      = match processBatch ((cur.drop s).take (e - s)) W with
        | .error _ => [(cur.drop s).take (e - s)]
        | .ok _ =>
          (cur.drop s).take (e - s) :: batchLoopPassed W (B : Int) fuel
              (if (e : Int) < len cur then clearRange cur (s : Int) (e : Int) else cur)
              ((s + B : Nat) : Int) := by
  have f2 : s ≤ e := by omega
  have f3 : e ≤ cur.length := by omega
  have hcond : ((s : Nat) : Int) < len cur := by unfold len; omega
  have hend : (if ((s + B : Nat) : Int) > len cur then len cur else ((s + B : Nat) : Int))
      = (e : Int) := by
    unfold len
    by_cases h : ((s + B : Nat) : Int) > ((cur.length : Nat) : Int)
    · rw [if_pos h]; omega
    · rw [if_neg h]; omega
  have hadd : add64 (s : Int) (B : Int) = ((s + B : Nat) : Int) := add64_natCast s B hsB
  rw [batchLoopPassed, hadd, if_pos hcond]
  dsimp only
  rw [hend, goSlice_natCast cur s e f2 f3]

theorem batchLoop_done (W : Int) (B fuel s : Nat) (cur : List Str) (hs : cur.length ≤ s) :
    batchLoop W (B : Int) fuel cur (s : Int) = some (.ok []) := by
  have hcond : ¬ ((s : Nat) : Int) < len cur := by unfold len; omega
  cases fuel with
  | zero => rw [batchLoop, if_neg hcond]
  | succ fuel => rw [batchLoop, if_neg hcond]

theorem batchLoopPassed_done (W : Int) (B fuel s : Nat) (cur : List Str)
    (hs : cur.length ≤ s) : batchLoopPassed W (B : Int) fuel cur (s : Int) = [] := by
  have hcond : ¬ ((s : Nat) : Int) < len cur := by unfold len; omega
  cases fuel with
  | zero => rfl
  | succ fuel => rw [batchLoopPassed, if_neg hcond]

theorem next_lines (orig cur : List Str) (B s e : Nat) (hlen : cur.length = orig.length)
    (hdrop : cur.drop s = orig.drop s) (hs : s < orig.length)
    (he : min (s + B) cur.length = e) :
    (if (e : Int) < len cur then clearRange cur (s : Int) (e : Int) else cur).length
        = orig.length ∧
      (if (e : Int) < len cur then clearRange cur (s : Int) (e : Int) else cur).drop (s + B)
        = orig.drop (s + B) := by
  have f2 : s ≤ e := by omega
  have f3 : e ≤ cur.length := by omega
  unfold len
  by_cases h : (e : Int) < ((cur.length : Nat) : Int)
  · rw [if_pos h]
    have hes : e = s + B := by omega
    refine ⟨by rw [clearRange_length cur s e f2 f3]; exact hlen, ?_⟩
    rw [← hes, clearRange_drop cur s e f2 f3]
    exact drop_eq_of_le s e f2 hdrop
  · rw [if_neg h]
    exact ⟨hlen, drop_eq_of_le s (s + B) (by omega) hdrop⟩

theorem batchLoop_ok_spec (orig : List Str) (W : Int) (B : Nat) (hB : 1 ≤ B)
    (hB2 : B < 9223372036854775808) (hL : orig.length < 4611686018427387904) :
    ∀ (fuel s : Nat) (cur : List Str), cur.length = orig.length → cur.drop s = orig.drop s →
      (s = 0 ∨ B ≤ s) → ∀ runs : List BatchRun,
      batchLoop W (B : Int) fuel cur (s : Int) = some (.ok runs) →
        (runs.map BatchRun.lines).flatten = orig.drop s ∧
        (∀ r ∈ runs, processBatch r.lines W = .ok r.slots) ∧
        batchLoopPassed W (B : Int) fuel cur (s : Int) = runs.map BatchRun.lines := by
  intro fuel
  induction fuel with
  | zero =>
    intro s cur hlen _ _ runs hrun
    have hge : orig.length ≤ s := by
      by_contra hc
      have hcond : ((s : Nat) : Int) < len cur := by unfold len; omega
      rw [batchLoop, if_pos hcond] at hrun
      cases hrun
    rw [batchLoop_done W B 0 s cur (by omega)] at hrun
    cases hrun
    refine ⟨?_, ?_, rfl⟩
    · rw [List.drop_of_length_le hge]; rfl
    · intro r hr; cases hr
  | succ fuel ih =>
    intro s cur hlen hdrop hs runs hrun
    by_cases hlt : s < orig.length
    · obtain ⟨e, he⟩ : ∃ e, min (s + B) cur.length = e := ⟨_, rfl⟩
      have f1 : s + B < 9223372036854775808 := by omega
      have hbatch : (cur.drop s).take (e - s) = (orig.drop s).take (e - s) := by rw [hdrop]
      obtain ⟨hnlen, hndrop⟩ := next_lines orig cur B s e hlen hdrop hlt he
      rw [batchLoop_step W B fuel s e cur (by omega) f1 he] at hrun
      rw [batchLoopPassed_step W B fuel s e cur (by omega) f1 he]
      cases hp : processBatch ((cur.drop s).take (e - s)) W with
      | error f =>
        rw [hp] at hrun
        cases hrun
      | ok slots =>
        rw [hp] at hrun
        dsimp only at hrun ⊢
        cases hr : batchLoop W (B : Int) fuel
            (if (e : Int) < len cur then clearRange cur (s : Int) (e : Int) else cur)
            ((s + B : Nat) : Int) with
        | none =>
          rw [hr] at hrun
          cases hrun
        | some res =>
          rw [hr] at hrun
          cases res with
          | error f => cases hrun
          | ok rest =>
            dsimp only at hrun
            cases hrun
            obtain ⟨hflat, hall, hpassed⟩ := ih (s + B) _ hnlen hndrop (Or.inr (by omega)) rest hr
            refine ⟨?_, ?_, ?_⟩
            · rw [List.map_cons, List.flatten_cons, hflat]
              show List.take (e - s) (List.drop s cur) ++ List.drop (s + B) orig
                = List.drop s orig
              rw [hbatch]
              by_cases hc : s + B ≤ orig.length
              · have hes : e - s = B := by omega
                rw [hes, drop_add_eq, List.take_append_drop]
              · have h1 : orig.drop (s + B) = [] := List.drop_of_length_le (by omega)
                have h2 : (orig.drop s).length ≤ e - s := by
                  simp only [List.length_drop]; omega
                rw [h1, List.append_nil, List.take_of_length_le h2]
            · intro r hr1
              rcases List.mem_cons.mp hr1 with rfl | hr1
              · exact hp
              · exact hall r hr1
            · rw [hpassed]
              rfl
    · have hge : cur.length ≤ s := by omega
      rw [batchLoop_done W B (fuel + 1) s cur hge] at hrun
      cases hrun
      refine ⟨?_, ?_, ?_⟩
      · rw [List.drop_of_length_le (by omega)]; rfl
      · intro r hr; cases hr
      · rw [batchLoopPassed_done W B (fuel + 1) s cur hge]; rfl

theorem batchLoopPassed_spec (L : Nat) (W : Int) (B : Nat) (hB : 1 ≤ B)
    (hB2 : B < 9223372036854775808) (hL : L < 4611686018427387904) :
    ∀ (fuel s : Nat) (cur : List Str), cur.length = L → (s = 0 ∨ B ≤ s) →
      (batchLoopPassed W (B : Int) fuel cur (s : Int) ≠ [] → s < L) ∧
      (∀ b ∈ batchLoopPassed W (B : Int) fuel cur (s : Int), 1 ≤ b.length ∧ b.length ≤ B) ∧
      (∀ b ∈ (batchLoopPassed W (B : Int) fuel cur (s : Int)).dropLast, b.length = B) := by
  intro fuel
  induction fuel with
  | zero =>
    intro s cur _ _
    refine ⟨fun h => absurd rfl h, fun b hb => ?_, fun b hb => ?_⟩
    · cases hb
    · cases hb
  | succ fuel ih =>
    intro s cur hlen hs
    by_cases hlt : s < L
    · obtain ⟨e, he⟩ : ∃ e, min (s + B) cur.length = e := ⟨_, rfl⟩
      have f1 : s + B < 9223372036854775808 := by omega
      have hbl : ((cur.drop s).take (e - s)).length = e - s := by
        simp only [List.length_take, List.length_drop]; omega
      have hnlen : (if (e : Int) < len cur then clearRange cur (s : Int) (e : Int)
          else cur).length = L := by
        unfold len
        split
        · rw [clearRange_length cur s e (by omega) (by omega)]; exact hlen
        · exact hlen
      obtain ⟨ih1, ih2, ih3⟩ := ih (s + B) _ hnlen (Or.inr (by omega))
      rw [batchLoopPassed_step W B fuel s e cur (by omega) f1 he]
      cases hp : processBatch ((cur.drop s).take (e - s)) W with
      | error f =>
        dsimp only
        refine ⟨fun _ => hlt, fun b hb => ?_, fun b hb => ?_⟩
        · rw [List.mem_singleton] at hb
          rw [hb, hbl]
          omega
        · simp at hb
      | ok slots =>
        dsimp only
        refine ⟨fun _ => hlt, fun b hb => ?_, fun b hb => ?_⟩
        · rcases List.mem_cons.mp hb with rfl | hb
          · rw [hbl]; omega
          · exact ih2 b hb
        · cases hrest : batchLoopPassed W (B : Int) fuel
              (if (e : Int) < len cur then clearRange cur (s : Int) (e : Int) else cur)
              ((s + B : Nat) : Int) with
          | nil =>
            rw [hrest] at hb
            simp at hb
          | cons b1 rest =>
            have hnext : s + B < L := ih1 (by rw [hrest]; exact List.cons_ne_nil _ _)
            rw [hrest, List.dropLast_cons₂] at hb
            rcases List.mem_cons.mp hb with rfl | hb
            · rw [hbl]; omega
            · rw [hrest] at ih3
              exact ih3 b hb
    · rw [batchLoopPassed_done W B (fuel + 1) s cur (by omega)]
      refine ⟨fun h => absurd rfl h, fun b hb => ?_, fun b hb => ?_⟩
      · cases hb
      · cases hb

theorem batchLoopPassed_ne_nil (W : Int) (B fuel : Nat) (cur : List Str)
    (hB2 : B < 9223372036854775808) (hcur : 1 ≤ cur.length) :
    batchLoopPassed W (B : Int) (fuel + 1) cur ((0 : Nat) : Int) ≠ [] := by
  rw [batchLoopPassed_step W B fuel 0 (min (0 + B) cur.length) cur (by omega) (by omega) rfl]
  cases processBatch ((cur.drop 0).take (min (0 + B) cur.length - 0)) W with
  | error f => exact List.cons_ne_nil _ _
  | ok slots => exact List.cons_ne_nil _ _

theorem batchLoopPassed_stable (L : Nat) (W : Int) (B : Nat) (hB : 1 ≤ B)
    (hB2 : B < 9223372036854775808) (hL : L < 4611686018427387904) :
    ∀ (fuel s : Nat) (cur : List Str), cur.length = L → (s = 0 ∨ B ≤ s) →
      batchesLeft L B s ≤ fuel →
      batchLoopPassed W (B : Int) (fuel + 1) cur (s : Int)
        = batchLoopPassed W (B : Int) fuel cur (s : Int) := by
  intro fuel
  induction fuel with
  | zero =>
    intro s cur hlen _ hfuel
    have hge : L ≤ s := by
      by_contra hc
      have := batchesLeft_step L B s hB (by omega)
      omega
    rw [batchLoopPassed_done W B 1 s cur (by omega), batchLoopPassed_done W B 0 s cur (by omega)]
  | succ fuel ih =>
    intro s cur hlen hs hfuel
    by_cases hlt : s < L
    · obtain ⟨e, he⟩ : ∃ e, min (s + B) cur.length = e := ⟨_, rfl⟩
      have hstep := batchesLeft_step L B s hB hlt
      have f1 : s + B < 9223372036854775808 := by omega
      have hnlen : (if (e : Int) < len cur then clearRange cur (s : Int) (e : Int)
          else cur).length = L := by
        unfold len
        split
        · rw [clearRange_length cur s e (by omega) (by omega)]; exact hlen
        · exact hlen
      rw [batchLoopPassed_step W B (fuel + 1) s e cur (by omega) f1 he,
        batchLoopPassed_step W B fuel s e cur (by omega) f1 he,
        ih (s + B) _ hnlen (Or.inr (by omega)) (by omega)]
    · rw [batchLoopPassed_done W B (fuel + 1 + 1) s cur (by omega),
        batchLoopPassed_done W B (fuel + 1) s cur (by omega)]

theorem batchLoopPassed_enough (L : Nat) (W : Int) (B : Nat) (hB : 1 ≤ B)
    (hB2 : B < 9223372036854775808) (hL : L < 4611686018427387904) (fuel : Nat)
    (cur : List Str) (hlen : cur.length = L) (hfuel : batchesLeft L B 0 ≤ fuel) :
    ∀ more : Nat, batchLoopPassed W (B : Int) (fuel + more) cur ((0 : Nat) : Int)
      = batchLoopPassed W (B : Int) fuel cur ((0 : Nat) : Int) := by
  intro more
  induction more with
  | zero => rfl
  | succ more ih =>
    rw [← ih]
    exact batchLoopPassed_stable L W B hB hB2 hL (fuel + more) 0 cur hlen (Or.inl rfl)
      (by omega)

end BlobSetTags

namespace BlobSetTags

/-! ## The line ranges of the batches -/

theorem batchRanges_length (L B : Nat) : ∀ n s, (batchRanges L B n s).length = n := by
  intro n
  induction n with
  | zero => intro s; rfl
  | succ n ih => intro s; simp [batchRanges, ih]

theorem batchRanges_bounds (L B : Nat) (hB : 1 ≤ B) :
    ∀ n s, n = batchesLeft L B s →
      ∀ p ∈ batchRanges L B n s, s ≤ p.1 ∧ p.1 < p.2 ∧ p.2 ≤ L ∧ p.2 - p.1 ≤ B := by
  intro n
  induction n with
  | zero => intro s _ p hp; cases hp
  | succ n ih =>
    intro s hn p hp
    have hlt : s < L := by
      by_contra hc
      have := batchesLeft_of_ge L B s hB (by omega)
      omega
    have hstep := batchesLeft_step L B s hB hlt
    rw [batchRanges] at hp
    rcases List.mem_cons.mp hp with rfl | hp
    · simp only
      omega
    · obtain ⟨h1, h2, h3, h4⟩ := ih (s + B) (by omega) p hp
      exact ⟨by omega, h2, h3, h4⟩

theorem batchRanges_cover (L B : Nat) (hB : 1 ≤ B) :
    ∀ n s, n = batchesLeft L B s →
      ((batchRanges L B n s).map (fun p => List.range' p.1 (p.2 - p.1))).flatten
        = List.range' s (L - s) := by
  intro n
  induction n with
  | zero =>
    intro s hn
    have hge : L ≤ s := by
      by_contra hc
      have := batchesLeft_step L B s hB (by omega)
      omega
    have : L - s = 0 := by omega
    rw [this]
    rfl
  | succ n ih =>
    intro s hn
    have hlt : s < L := by
      by_contra hc
      have := batchesLeft_of_ge L B s hB (by omega)
      omega
    have hstep := batchesLeft_step L B s hB hlt
    rw [batchRanges, List.map_cons, List.flatten_cons, ih (s + B) (by omega)]
    simp only
    by_cases hc : s + B ≤ L
    · have e1 : min (s + B) L - s = B := by omega
      have e2 : L - s = B + (L - (s + B)) := by omega
      have happ := List.range'_append s B (L - (s + B)) 1
      rw [Nat.one_mul] at happ
      rw [e1, e2, happ, Nat.add_comm]
    · have e1 : min (s + B) L - s = L - s := by omega
      have e2 : L - (s + B) = 0 := by omega
      rw [e1, e2]
      simp

theorem batchRanges_chain (L B : Nat) (hB : 1 ≤ B) :
    ∀ n s, n = batchesLeft L B s →
      List.Chain' (fun p q : Nat × Nat => p.2 = q.1) (batchRanges L B n s) ∧
      (∀ p, (batchRanges L B n s).head? = some p → p.1 = s) ∧
      (∀ p, (batchRanges L B n s).getLast? = some p → p.2 = L) ∧
      (∀ p ∈ (batchRanges L B n s).dropLast, p.2 - p.1 = B) := by
  intro n
  induction n with
  | zero =>
    intro s _
    exact ⟨List.chain'_nil, fun p h => (by cases h), fun p h => (by cases h),
      fun p h => (by cases h)⟩
  | succ n ih =>
    intro s hn
    have hlt : s < L := by
      by_contra hc
      have := batchesLeft_of_ge L B s hB (by omega)
      omega
    have hstep := batchesLeft_step L B s hB hlt
    obtain ⟨hch, hhead, hlast, hfull⟩ := ih (s + B) (by omega)
    rw [batchRanges]
    cases n with
    | zero =>
      have hge : L ≤ s + B := by
        by_contra hc
        have := batchesLeft_step L B (s + B) hB (by omega)
        omega
      refine ⟨List.chain'_singleton _, ?_, ?_, ?_⟩
      · intro p h
        simp only [batchRanges, List.head?_cons, Option.some.injEq] at h
        rw [← h]
      · intro p h
        simp only [batchRanges, List.getLast?_singleton, Option.some.injEq] at h
        rw [← h]
        simp only
        omega
      · intro p h
        simp [batchRanges] at h
    | succ n =>
      have hlt2 : s + B < L := by
        by_contra hc
        have := batchesLeft_of_ge L B (s + B) hB (by omega)
        omega
      refine ⟨?_, ?_, ?_, ?_⟩
      · rw [List.chain'_cons']
        refine ⟨?_, hch⟩
        intro q hq
        have := hhead q hq
        simp only
        omega
      · intro p h
        simp only [List.head?_cons, Option.some.injEq] at h
        rw [← h]
      · intro p h
        apply hlast p
        rw [batchRanges] at h ⊢
        simpa [List.getLast?_cons_cons] using h
      · intro p h
        rw [batchRanges, List.dropLast_cons₂] at h
        rcases List.mem_cons.mp h with rfl | h
        · simp only
          omega
        · apply hfull p
          rw [batchRanges]
          exact h

end BlobSetTags

namespace BlobSetTags

/-! ## Cleaning lines -/

theorem splitLines_ne_nil (s : Str) : splitLines s ≠ [] := by
  induction s with
  | nil => simp [splitLines]
  | cons c rest ih =>
    unfold splitLines
    split
    · simp
    · split
      · simp
      · simp

theorem splitLines_length_pos (s : Str) : 1 ≤ (splitLines s).length :=
  Nat.one_le_iff_ne_zero.mpr (fun h => splitLines_ne_nil s (List.length_eq_zero.mp h))

theorem cleanLines_eq (lines : List Str) :
    cleanLines lines = (lines.map trimSpace).filter (fun p => decide (p ≠ [])) := by
  induction lines with
  | nil => rfl
  | cons line rest ih =>
    unfold cleanLines
    by_cases h0 : len line = 0
    · have hnil : line = [] := by
        unfold len at h0
        exact List.length_eq_zero.mp (by exact_mod_cast h0)
      subst hnil
      rw [if_pos h0, ih]
      rfl
    · rw [if_neg h0]
      by_cases h1 : trimSpace line = []
      · simp only [h1, if_true, ih, List.map_cons]
        rw [List.filter_cons_of_neg (by simp)]
      · simp only [h1, if_false, ih, List.map_cons]
        rw [List.filter_cons_of_pos (by simpa using h1)]

theorem cleanLines_append (a b : List Str) :
    cleanLines (a ++ b) = cleanLines a ++ cleanLines b := by
  rw [cleanLines_eq, cleanLines_eq, cleanLines_eq, List.map_append, List.filter_append]

theorem cleanLines_flatten (batches : List (List Str)) :
    (batches.map cleanLines).flatten = cleanLines batches.flatten := by
  induction batches with
  | nil => rfl
  | cons b bs ih =>
    rw [List.map_cons, List.flatten_cons, List.flatten_cons, cleanLines_append, ih]

theorem trimSpace_head (s : Str) (c : Char) (h : (trimSpace s).head? = some c) :
    isSpace c = false := by
  unfold trimSpace at h
  have hne : (s.dropWhile isSpace).rdropWhile isSpace ≠ [] := by
    intro hnil
    rw [hnil] at h
    cases h
  have hpre := List.rdropWhile_prefix isSpace (s.dropWhile isSpace)
  have hne2 : s.dropWhile isSpace ≠ [] := by
    intro hnil
    rw [hnil] at hne
    exact hne rfl
  have hhead := hpre.head hne
  rw [List.head?_eq_head hne, hhead] at h
  have hnot := List.head_dropWhile_not isSpace s hne2
  have hc : (s.dropWhile isSpace).head hne2 = c := Option.some.inj h
  rw [hc] at hnot
  simpa using hnot

theorem trimSpace_last (s : Str) (c : Char) (h : (trimSpace s).getLast? = some c) :
    isSpace c = false := by
  unfold trimSpace at h
  have hne : (s.dropWhile isSpace).rdropWhile isSpace ≠ [] := by
    intro hnil
    rw [hnil] at h
    cases h
  have hnot := List.rdropWhile_last_not isSpace (s.dropWhile isSpace) hne
  rw [List.getLast?_eq_getLast _ hne] at h
  have hc := Option.some.inj h
  rw [hc] at hnot
  simpa using hnot

theorem cleanLines_items (lines : List Str) :
    ∀ p ∈ cleanLines lines, p ≠ [] ∧ (∀ c, p.head? = some c → isSpace c = false) ∧
      (∀ c, p.getLast? = some c → isSpace c = false) := by
  intro p hp
  rw [cleanLines_eq] at hp
  obtain ⟨hmem, hne⟩ := List.mem_filter.mp hp
  obtain ⟨line, _, rfl⟩ := List.mem_map.mp hmem
  exact ⟨by simpa using hne, trimSpace_head line, trimSpace_last line⟩

end BlobSetTags

namespace BlobSetTags

/-! ## `processFileInBatches` -/

theorem batchesLeft_zero (L B : Nat) : batchesLeft L B 0 = (L + B - 1) / B := by
  unfold batchesLeft
  rw [Nat.sub_zero]

theorem processFileInBatches_runs (file : Str) (W : Int) (B fuel : Nat) (hW : 1 ≤ W)
    (hB : 1 ≤ B) (hB2 : B < 9223372036854775808)
    (hL : (splitLines file).length < 4611686018427387904)
    (hwg : min W.toNat (min B (splitLines file).length) < 2147483648)
    (hfuel : ((splitLines file).length + B - 1) / B ≤ fuel) :
    ∃ runs : List BatchRun,
      processFileInBatches file W (B : Int) fuel = some (.ok runs) ∧
      runs.map (fun r => (r.batchStart, r.batchEnd))
        = (batchRanges (splitLines file).length B
            (((splitLines file).length + B - 1) / B) 0).map
            (fun p => ((p.1 : Int), (p.2 : Int))) ∧
      (runs.map BatchRun.lines).flatten = splitLines file ∧
      (∀ r ∈ runs,
        r.lines = ((splitLines file).drop r.batchStart.toNat).take
            (r.batchEnd.toNat - r.batchStart.toNat) ∧
        processBatch r.lines W = .ok r.slots) := by
  have h := batchLoop_spec (splitLines file) W B hW hB hB2 hL hwg fuel 0 (splitLines file) rfl
    rfl (Or.inl rfl) (by rw [batchesLeft_zero]; exact hfuel)
  rw [batchesLeft_zero] at h
  exact h

theorem processFileInBatches_ok (file : Str) (W : Int) (B fuel : Nat)
    (hB : 1 ≤ B) (hB2 : B < 9223372036854775808)
    (hL : (splitLines file).length < 4611686018427387904) (runs : List BatchRun)
    (hrun : processFileInBatches file W (B : Int) fuel = some (.ok runs)) :
    (runs.map BatchRun.lines).flatten = splitLines file ∧
      (∀ r ∈ runs, processBatch r.lines W = .ok r.slots) ∧
      batchesPassed file W (B : Int) fuel = runs.map BatchRun.lines :=
  batchLoop_ok_spec (splitLines file) W B hB hB2 hL fuel 0 (splitLines file) rfl rfl
    (Or.inl rfl) runs hrun

theorem batchesPassed_spec (file : Str) (W : Int) (B fuel : Nat)
    (hB : 1 ≤ B) (hB2 : B < 9223372036854775808)
    (hL : (splitLines file).length < 4611686018427387904) :
    (∀ b ∈ batchesPassed file W (B : Int) fuel, 1 ≤ b.length ∧ b.length ≤ B) ∧
      (∀ b ∈ (batchesPassed file W (B : Int) fuel).dropLast, b.length = B) ∧
      (1 ≤ fuel → batchesPassed file W (B : Int) fuel ≠ []) := by
  obtain ⟨_, h2, h3⟩ := batchLoopPassed_spec (splitLines file).length W B hB hB2 hL fuel 0
    (splitLines file) rfl (Or.inl rfl)
  refine ⟨h2, h3, fun hfuel => ?_⟩
  obtain ⟨k, rfl⟩ : ∃ k, fuel = k + 1 := ⟨fuel - 1, by omega⟩
  exact batchLoopPassed_ne_nil W B k (splitLines file) hB2 (splitLines_length_pos file)

theorem run_span (L B n : Nat) (runs : List BatchRun)
    (hspans : runs.map (fun r => (r.batchStart, r.batchEnd))
      = (batchRanges L B n 0).map (fun p => ((p.1 : Int), (p.2 : Int))))
    (r : BatchRun) (hr : r ∈ runs) :
    ∃ p ∈ batchRanges L B n 0, r.batchStart = (p.1 : Int) ∧ r.batchEnd = (p.2 : Int) := by
  have hmem : (r.batchStart, r.batchEnd) ∈ runs.map (fun r => (r.batchStart, r.batchEnd)) :=
    List.mem_map_of_mem (fun r => (r.batchStart, r.batchEnd)) hr
  rw [hspans] at hmem
  obtain ⟨p, hp, heq⟩ := List.mem_map.mp hmem
  refine ⟨p, hp, ?_, ?_⟩
  · exact (congrArg Prod.fst heq).symm
  · exact (congrArg Prod.snd heq).symm

theorem slice_length (orig : List Str) (a b : Nat) (hab : a ≤ b) (hb : b ≤ orig.length) :
    ((orig.drop (a : Int).toNat).take ((b : Int).toNat - (a : Int).toNat)).length = b - a := by
  rw [Int.toNat_ofNat, Int.toNat_ofNat, List.length_take, List.length_drop]
  omega

theorem run_lines_length (file : Str) (B : Nat) (hB : 1 ≤ B) (runs : List BatchRun)
    (hspans : runs.map (fun r => (r.batchStart, r.batchEnd))
      = (batchRanges (splitLines file).length B
          (((splitLines file).length + B - 1) / B) 0).map
          (fun p => ((p.1 : Int), (p.2 : Int))))
    (hall : ∀ r ∈ runs,
        r.lines = ((splitLines file).drop r.batchStart.toNat).take
            (r.batchEnd.toNat - r.batchStart.toNat))
    (r : BatchRun) (hr : r ∈ runs) :
    ∃ p ∈ batchRanges (splitLines file).length B (((splitLines file).length + B - 1) / B) 0,
      r.batchStart = (p.1 : Int) ∧ r.batchEnd = (p.2 : Int) ∧
      r.lines.length = p.2 - p.1 ∧ 1 ≤ p.2 - p.1 ∧ p.2 - p.1 ≤ B := by
  obtain ⟨p, hp, h1, h2⟩ := run_span _ _ _ runs hspans r hr
  obtain ⟨b1, b2, b3, b4⟩ := batchRanges_bounds (splitLines file).length B hB _ 0
    (batchesLeft_zero _ _).symm p hp
  refine ⟨p, hp, h1, h2, ?_, by omega, b4⟩
  rw [hall r hr, h1, h2]
  exact slice_length _ _ _ (by omega) b3

theorem batchesPassed_enough (file : Str) (W : Int) (B fuel : Nat)
    (hB : 1 ≤ B) (hB2 : B < 9223372036854775808)
    (hL : (splitLines file).length < 4611686018427387904)
    (hfuel : ((splitLines file).length + B - 1) / B ≤ fuel) (more : Nat) :
    batchesPassed file W (B : Int) (fuel + more) = batchesPassed file W (B : Int) fuel :=
  batchLoopPassed_enough (splitLines file).length W B hB hB2 hL fuel (splitLines file) rfl
    (by rw [batchesLeft_zero]; exact hfuel) more

/-! ## A file of `2^31` lines -/

theorem splitLines_manyLines (n : Nat) :
    splitLines (manyLines n) = List.replicate (n + 1) "/a".toList := by
  unfold manyLines
  induction n with
  | zero => rfl
  | succ n ih =>
    have hstep : ∀ rest : Str,
        splitLines ("/a\n".toList ++ rest) = "/a".toList :: splitLines rest := fun _ => rfl
    rw [List.replicate_succ, List.flatten_cons, List.append_assoc, hstep, ih]
    rfl

theorem processFileInBatches_manyLines (n : Nat) (W : Int) (B fuel : Nat) (hW : 1 ≤ W)
    (hB : n + 1 ≤ B) (hB2 : B < 9223372036854775808) (hlo : 2147483648 ≤ min W.toNat (n + 1))
    (hhi : min W.toNat (n + 1) < 4294967296) :
    processFileInBatches (manyLines n) W (B : Int) (fuel + 1)
        = some (.error .negativeWaitGroup) ∧
      batchesPassed (manyLines n) W (B : Int) (fuel + 1)
        = [List.replicate (n + 1) "/a".toList] := by
  have hlen : (List.replicate (n + 1) "/a".toList).length = n + 1 := List.length_replicate _ _
  have he : min (0 + B) (List.replicate (n + 1) "/a".toList).length = n + 1 := by
    rw [hlen]; omega
  have hbatch : ((List.replicate (n + 1) "/a".toList).drop 0).take (n + 1 - 0)
      = List.replicate (n + 1) "/a".toList := by
    rw [List.drop_zero, Nat.sub_zero]
    exact List.take_of_length_le (by rw [hlen])
  have hp := processBatch_replicate (n + 1) W hW (by omega) hlo hhi
  have h1 := batchLoop_step W B fuel 0 (n + 1) (List.replicate (n + 1) "/a".toList)
    (by rw [hlen]; omega) (by omega) he
  have h2 := batchLoopPassed_step W B fuel 0 (n + 1) (List.replicate (n + 1) "/a".toList)
    (by rw [hlen]; omega) (by omega) he
  rw [hbatch, hp] at h1 h2
  unfold processFileInBatches batchesPassed
  rw [splitLines_manyLines]
  exact ⟨h1, h2⟩

end BlobSetTags

namespace BlobSetTags

/-- C19 as stated fails. With `-workers 0` the file `/a`, `/b` and batch size 1 need two
iterations, but `processBatch` divides by zero in the first one, so the loop ends there with
a panic after the range `[0, 1)`. And with `2^31` workers a file of `2^31` lines `/a` taken
as one batch makes `wg.Add` panic in the only iteration, so the loop does not terminate
normally either. -/
theorem batch_loop_ends_in_a_panic :
    (splitLines "/a\n/b".toList).length = 2 ∧
    processFileInBatches "/a\n/b".toList 0 1 2 = some (.error .divideByZero) ∧
    batchesPassed "/a\n/b".toList 0 1 2 = [["/a".toList]] ∧
    (splitLines (manyLines 2147483647)).length = 2147483648 ∧
    processFileInBatches (manyLines 2147483647) 2147483648 ((2147483648 : Nat) : Int) 1
      = some (.error .negativeWaitGroup) :=
  ⟨rfl, rfl, rfl, by rw [splitLines_manyLines, List.length_replicate],
    (processFileInBatches_manyLines 2147483647 2147483648 2147483648 0 (by decide) (by decide)
      (by decide) (by decide) (by decide)).1⟩

/-- C19, amended: for a file with `L` raw lines (`L ≥ 1`), a batch size `B ≥ 1` and a worker
count `W ≥ 1` with `min W (min B L) < 2^31` (no batch starts `2^31` workers or more), the
batch loop returns once it is given `⌈L / B⌉` iterations, runs exactly that many and is still
running after fewer; the successive ranges `[batchStart, batchEnd)` are the ranges
`batchRanges`, each non-empty and inside `[0, L)`, each starting where the previous one
ended, and listed one after the other they enumerate `0, 1, ..., L - 1` exactly once. -/
theorem batch_loop_iterations_and_ranges (file : Str) (W : Int) (B fuel : Nat) (hW : 1 ≤ W)
    (hB : 1 ≤ B) (hB2 : B < 9223372036854775808)
    (hL : (splitLines file).length < 4611686018427387904)
    (hwg : min W.toNat (min B (splitLines file).length) < 2147483648)
    (hfuel : ((splitLines file).length + B - 1) / B ≤ fuel) :
    ∃ runs : List BatchRun,
      processFileInBatches file W (B : Int) fuel = some (.ok runs) ∧
      1 ≤ (splitLines file).length ∧
      runs.length = ((splitLines file).length + B - 1) / B ∧
      runs.map (fun r => (r.batchStart, r.batchEnd))
        = (batchRanges (splitLines file).length B
            (((splitLines file).length + B - 1) / B) 0).map
            (fun p => ((p.1 : Int), (p.2 : Int))) ∧
      ((batchRanges (splitLines file).length B
          (((splitLines file).length + B - 1) / B) 0).map
          (fun p => List.range' p.1 (p.2 - p.1))).flatten
        = List.range (splitLines file).length ∧
      List.Chain' (fun p q : Nat × Nat => p.2 = q.1)
        (batchRanges (splitLines file).length B
          (((splitLines file).length + B - 1) / B) 0) ∧
      (∀ p ∈ batchRanges (splitLines file).length B
          (((splitLines file).length + B - 1) / B) 0,
        p.1 < p.2 ∧ p.2 ≤ (splitLines file).length) ∧
      (∀ less, less < ((splitLines file).length + B - 1) / B →
        processFileInBatches file W (B : Int) less = none) := by
  obtain ⟨runs, hrun, hspans, _, _⟩ :=
    processFileInBatches_runs file W B fuel hW hB hB2 hL hwg hfuel
  have hn := (batchesLeft_zero (splitLines file).length B).symm
  refine ⟨runs, hrun, splitLines_length_pos file, ?_, hspans, ?_, ?_, ?_, ?_⟩
  rotate_right
  · intro less hless
    exact batchLoop_short_of_fuel (splitLines file) W B hW hB hB2 hL hwg less 0
      (splitLines file) rfl rfl (Or.inl rfl) (by rw [batchesLeft_zero]; exact hless)
  · have := congrArg List.length hspans
    rw [List.length_map, List.length_map, batchRanges_length] at this
    exact this
  · rw [batchRanges_cover _ B hB _ 0 hn, Nat.sub_zero, List.range_eq_range']
  · exact (batchRanges_chain _ B hB _ 0 hn).1
  · intro p hp
    obtain ⟨_, h2, h3, _⟩ := batchRanges_bounds _ B hB _ 0 hn p hp
    exact ⟨h2, h3⟩

theorem batch_loop_iterations_and_ranges_witness :
    ∃ runs : List BatchRun,
      processFileInBatches "/a\n\n/b\n/c\n/d".toList 3 ((2 : Nat) : Int) 3 = some (.ok runs) ∧
      runs.length = 3 ∧
      runs.map (fun r => (r.batchStart, r.batchEnd)) = [(0, 2), (2, 4), (4, 5)] := by
  obtain ⟨runs, h1, _, h3, h4, _⟩ :=
    batch_loop_iterations_and_ranges "/a\n\n/b\n/c\n/d".toList 3 2 3 (by decide) (by decide)
      (by decide) (by decide) (by decide) (by decide)
  exact ⟨runs, h1, h3, h4⟩

/-- C10 as stated fails. With `-workers 0` the file `/a`, blank, `/b` and batch size 10 has
the two work items `/a` and `/b`, but `processBatch` divides by zero before it starts a
worker, so no work item is dispatched. And with `3000000000` workers a file of `2^31` lines
`/a` taken as one batch makes `wg.Add` panic before a worker is started, so none of its
`2^31` work items is dispatched. -/
theorem nothing_dispatched :
    cleanLines (splitLines "/a\n\n/b".toList) = ["/a".toList, "/b".toList] ∧
    processFileInBatches "/a\n\n/b".toList 0 10 1 = some (.error .divideByZero) ∧
    processBatch (splitLines "/a\n\n/b".toList) 0 = .error .divideByZero ∧
    (cleanLines (splitLines (manyLines 2147483647))).length = 2147483648 ∧
    processFileInBatches (manyLines 2147483647) 3000000000 ((2147483648 : Nat) : Int) 1
      = some (.error .negativeWaitGroup) :=
  ⟨by decide, rfl, rfl,
    by rw [splitLines_manyLines, cleanLines_replicate "/a".toList (by decide) (by decide),
      List.length_replicate],
    (processFileInBatches_manyLines 2147483647 3000000000 2147483648 0 (by decide) (by decide)
      (by decide) (by decide) (by decide)).1⟩

/-- C10, amended: for every file content, batch size `B ≥ 1` and worker count `W ≥ 1` with
`min W (min B L) < 2^31` (`L` the number of raw lines; no batch starts `2^31` workers or
more), the work items of the batches, concatenated in batch order (and likewise the shards
handed to the workers), are the newline-separated lines of the file, trimmed, without the
lines that are empty after trimming, in file order; no work item is empty or begins or ends
with white space. -/
theorem dispatched_items_are_trimmed_lines (file : Str) (W : Int) (B fuel : Nat) (hW : 1 ≤ W)
    (hB : 1 ≤ B) (hB2 : B < 9223372036854775808)
    (hL : (splitLines file).length < 4611686018427387904)
    (hwg : min W.toNat (min B (splitLines file).length) < 2147483648)
    (hfuel : ((splitLines file).length + B - 1) / B ≤ fuel) :
    ∃ runs : List BatchRun,
      processFileInBatches file W (B : Int) fuel = some (.ok runs) ∧
      (runs.map BatchRun.workItems).flatten
        = ((splitLines file).map trimSpace).filter (fun p => decide (p ≠ [])) ∧
      (runs.map (fun r => (shardsOf r.slots).flatten)).flatten
        = ((splitLines file).map trimSpace).filter (fun p => decide (p ≠ [])) ∧
      (∀ r ∈ runs, ∀ p ∈ r.workItems, p ≠ [] ∧
        (∀ c, p.head? = some c → isSpace c = false) ∧
        (∀ c, p.getLast? = some c → isSpace c = false)) := by
  obtain ⟨runs, hrun, hspans, hflat, hall⟩ :=
    processFileInBatches_runs file W B fuel hW hB hB2 hL hwg hfuel
  have hitems : (runs.map BatchRun.workItems).flatten
      = ((splitLines file).map trimSpace).filter (fun p => decide (p ≠ [])) := by
    have : runs.map BatchRun.workItems = (runs.map BatchRun.lines).map cleanLines := by
      rw [List.map_map]; rfl
    rw [this, cleanLines_flatten, hflat, cleanLines_eq]
  refine ⟨runs, hrun, hitems, ?_, ?_⟩
  · rw [← hitems]
    congr 1
    apply List.map_congr_left
    intro r hr
    obtain ⟨p, _, _, _, hlen, _, hle⟩ :=
      run_lines_length file B hB runs hspans (fun r hr => (hall r hr).1) r hr
    rw [processBatch_ok_cover r.lines W hW (by omega) r.slots (hall r hr).2]
    rfl
  · intro r _ p hp
    exact cleanLines_items r.lines p hp

theorem dispatched_items_are_trimmed_lines_witness :
    ∃ runs : List BatchRun,
      processFileInBatches "/a\n\n/b".toList 3 ((10 : Nat) : Int) 1 = some (.ok runs) ∧
      (runs.map BatchRun.workItems).flatten = ["/a".toList, "/b".toList] := by
  obtain ⟨runs, h1, h2, _⟩ :=
    dispatched_items_are_trimmed_lines "/a\n\n/b".toList 3 10 1 (by decide) (by decide)
      (by decide) (by decide) (by decide) (by decide)
  exact ⟨runs, h1, by rw [h2]; decide⟩

/-- C12: for every file, batch size `B ≥ 1` and worker count, every batch that
`processFileInBatches` passes to `processBatch`, whether or not the run comes to its end,
holds at most `B` raw lines, and the work-item list built from it holds at most `B` items.
The first iteration passes a batch; in a run that returns the batches passed are the batches
of its iterations; and the list of batches passed is complete after `⌈L / B⌉` iterations
(more iterations pass no further batch). -/
theorem batches_are_bounded (file : Str) (W : Int) (B fuel : Nat)
    (hB : 1 ≤ B) (hB2 : B < 9223372036854775808)
    (hL : (splitLines file).length < 4611686018427387904) :
    (∀ batch ∈ batchesPassed file W (B : Int) fuel,
      batch.length ≤ B ∧ (cleanLines batch).length ≤ B) ∧
    (1 ≤ fuel → batchesPassed file W (B : Int) fuel ≠ []) ∧
    (∀ runs, processFileInBatches file W (B : Int) fuel = some (.ok runs) →
      batchesPassed file W (B : Int) fuel = runs.map BatchRun.lines) ∧
    (∀ more, ((splitLines file).length + B - 1) / B ≤ fuel →
      batchesPassed file W (B : Int) (fuel + more) = batchesPassed file W (B : Int) fuel) := by
  obtain ⟨h1, _, h3⟩ := batchesPassed_spec file W B fuel hB hB2 hL
  refine ⟨fun batch hb => ?_, h3, fun runs hrun =>
    (processFileInBatches_ok file W B fuel hB hB2 hL runs hrun).2.2,
    fun more hfuel => batchesPassed_enough file W B fuel hB hB2 hL hfuel more⟩
  have := cleanLines_length_le batch
  have := (h1 batch hb).2
  exact ⟨by omega, by omega⟩

theorem batches_are_bounded_witness :
    (∀ batch ∈ batchesPassed "/a\n\n/b\n/c\n/d".toList 3 ((2 : Nat) : Int) 3,
      batch.length ≤ 2 ∧ (cleanLines batch).length ≤ 2) ∧
    batchesPassed "/a\n\n/b\n/c\n/d".toList 3 ((2 : Nat) : Int) 3
      = [["/a".toList, []], ["/b".toList, "/c".toList], ["/d".toList]] :=
  ⟨(batches_are_bounded "/a\n\n/b\n/c\n/d".toList 3 2 3 (by decide) (by decide)
    (by decide)).1, rfl⟩

/-- C11 as stated fails: with batch size 2 the file `/a`, blank, `/b`, `/c` is dispatched
in two batches and the first, which is not the last, holds one work item, not two. -/
theorem first_batch_short_of_work_items :
    ∃ runs : List BatchRun,
      processFileInBatches "/a\n\n/b\n/c".toList 1 2 2 = some (.ok runs) ∧
      runs.map (fun r => r.workItems.length) = [1, 2] ∧
      ¬ (∀ r ∈ runs.dropLast, r.workItems.length = 2) := by
  refine ⟨[⟨0, 2, ["/a".toList, []], [some ⟨0, 1, ["/a".toList]⟩]⟩,
    ⟨2, 4, ["/b".toList, "/c".toList], [some ⟨0, 2, ["/b".toList, "/c".toList]⟩]⟩],
    rfl, by decide, ?_⟩
  intro h
  have := h ⟨0, 2, ["/a".toList, []], [some ⟨0, 1, ["/a".toList]⟩]⟩ (by simp)
  revert this
  decide

/-- C11, amended: for every file, batch size `B ≥ 1` and worker count, of the batches that
`processFileInBatches` passes to `processBatch` every one except the last holds exactly `B`
raw lines and the last holds between 1 and `B` raw lines; the work items of a batch are at
most as many as its raw lines, since blank lines are dropped after batching. In a run that
returns the batches passed are the batches of its iterations. -/
theorem batches_fixed_size_in_raw_lines (file : Str) (W : Int) (B fuel : Nat)
    (hB : 1 ≤ B) (hB2 : B < 9223372036854775808)
    (hL : (splitLines file).length < 4611686018427387904) :
    (∀ batch ∈ (batchesPassed file W (B : Int) fuel).dropLast, batch.length = B) ∧
    (∀ batch, (batchesPassed file W (B : Int) fuel).getLast? = some batch →
      1 ≤ batch.length ∧ batch.length ≤ B) ∧
    (∀ batch ∈ batchesPassed file W (B : Int) fuel,
      (cleanLines batch).length ≤ batch.length) ∧
    (∀ runs, processFileInBatches file W (B : Int) fuel = some (.ok runs) →
      batchesPassed file W (B : Int) fuel = runs.map BatchRun.lines ∧
      (runs.map BatchRun.lines).flatten = splitLines file) := by
  obtain ⟨h1, h2, _⟩ := batchesPassed_spec file W B fuel hB hB2 hL
  refine ⟨h2, fun batch hb => h1 batch (List.mem_of_getLast?_eq_some hb),
    fun batch _ => cleanLines_length_le batch, fun runs hrun => ?_⟩
  obtain ⟨g1, _, g3⟩ := processFileInBatches_ok file W B fuel hB hB2 hL runs hrun
  exact ⟨g3, g1⟩

theorem batches_fixed_size_in_raw_lines_witness :
    (∀ batch ∈ (batchesPassed "/a\n\n/b\n/c\n/d".toList 3 ((2 : Nat) : Int) 3).dropLast,
      batch.length = 2) ∧
    (batchesPassed "/a\n\n/b\n/c\n/d".toList 3 ((2 : Nat) : Int) 3).map
      (fun batch => (batch.length, (cleanLines batch).length)) = [(2, 1), (2, 2), (1, 1)] :=
  ⟨(batches_fixed_size_in_raw_lines "/a\n\n/b\n/c\n/d".toList 3 2 3 (by decide) (by decide)
    (by decide)).1, rfl⟩

end BlobSetTags

namespace BlobSetTags

/-! ## The string to sign -/

/-- C3: for every request with positive content length the signed string is the method,
three newlines, the decimal content length, two newlines, the `Content-Type` value, seven
newlines, the canonicalized headers, one newline and the canonicalized resource; the request
of the code comment signs exactly the string quoted there, whatever the case tables are
above ASCII. -/
theorem stringToSign_layout (lowerCase : Char → Char) (request : Request) (account : Str)
    (hlen : 0 < request.contentLength) :
    stringToSign lowerCase request account
      = request.method ++ "\n\n\n".toList ++ decimal request.contentLength ++ "\n\n".toList
        ++ headerGet request.header "Content-Type".toList ++ List.replicate 7 '\n'
        ++ canonicalizedHeaders lowerCase request.header ++ "\n".toList
        ++ getCanonicalizedResource lowerCase request.url account ∧
    stringToSign lowerCase sampleRequest "stor00000001010".toList
      = ("PUT\n\n\n30\n\napplication/xml; charset=UTF-8\n\n\n\n\n\n\n"
        ++ "x-ms-date:Fri, 04 Apr 2025 06:42:53 GMT\nx-ms-version:2025-05-05\n"
        ++ "/stor00000001010/logs/file.txt\ncomp:tags").toList := by
  constructor
  · unfold stringToSign
    have h : request.contentLength > 0 := hlen
    simp only [h, if_true]
    rfl
  · rfl

theorem stringToSign_layout_witness :
    stringToSign sampleLowerCase sampleRequest "stor00000001010".toList
      = sampleRequest.method ++ "\n\n\n".toList ++ decimal sampleRequest.contentLength
        ++ "\n\n".toList ++ headerGet sampleRequest.header "Content-Type".toList
        ++ List.replicate 7 '\n' ++ canonicalizedHeaders sampleLowerCase sampleRequest.header
        ++ "\n".toList
        ++ getCanonicalizedResource sampleLowerCase sampleRequest.url
          "stor00000001010".toList :=
  (stringToSign_layout sampleLowerCase sampleRequest "stor00000001010".toList (by decide)).1

/-- C5, the code at the failing input: for the query `B=1&a=2` the parameter names are
sorted before they are lower-cased, so the segment of `b` comes before the segment of `a`,
whichever way the query map is enumerated (and whatever the case tables are above
ASCII). -/
theorem getCanonicalizedResource_mixed_case_order (lowerCase : Char → Char) :
    getCanonicalizedResource lowerCase
        ⟨"/c/o".toList, [("B".toList, ["1".toList]), ("a".toList, ["2".toList])]⟩
        "acct".toList = "/acct/c/o\nb:1\na:2".toList ∧
    getCanonicalizedResource lowerCase
        ⟨"/c/o".toList, [("a".toList, ["2".toList]), ("B".toList, ["1".toList])]⟩
        "acct".toList = "/acct/c/o\nb:1\na:2".toList :=
  ⟨rfl, rfl⟩

/-- C6: without query parameters the canonicalized resource is `/`, the account and the
URL path, with nothing after the path: `/container/obj` gives `/<account>/container/obj`,
and every newline of the result is a newline of the account or of the path. -/
theorem getCanonicalizedResource_without_query (lowerCase : Char → Char)
    (account path : Str) :
    getCanonicalizedResource lowerCase ⟨path, []⟩ account = "/".toList ++ account ++ path ∧
    getCanonicalizedResource lowerCase ⟨"/container/obj".toList, []⟩ account
      = "/".toList ++ account ++ "/container/obj".toList ∧
    (getCanonicalizedResource lowerCase ⟨path, []⟩ account).count '\n'
      = account.count '\n' + path.count '\n' := by
  refine ⟨rfl, rfl, ?_⟩
  show ("/".toList ++ account ++ path).count '\n' = _
  rw [List.count_append, List.count_append]
  have : "/".toList.count '\n' = 0 := by decide
  omega

/-- C7: for a secret that decodes without error to `key`, the authorization value is
`SharedKey `, the account, `:` and the base64 encoding of the HMAC-SHA256, under `key`, of
the UTF-8 bytes of the string to sign. -/
theorem createAuthorizationHeader_value (lowerCase : Char → Char)
    (hmacSha256 : Bytes → Bytes → Bytes)
    (request : Request) (account secret : Str) (key : Bytes)
    (hkey : base64DecodeString secret = (key, false)) :
    createAuthorizationHeader lowerCase hmacSha256 request account secret
      = "SharedKey ".toList ++ account ++ ":".toList
        ++ base64EncodeToString
          (hmacSha256 key (utf8 (stringToSign lowerCase request account))) := by
  unfold createAuthorizationHeader computeHmac256
  rw [hkey]

theorem createAuthorizationHeader_value_witness :
    base64DecodeString "a2V5".toList = ([107, 101, 121], false) ∧
    createAuthorizationHeader sampleLowerCase sampleMac sampleRequest
        "stor00000001010".toList "a2V5".toList
      = "SharedKey ".toList ++ "stor00000001010".toList ++ ":".toList
        ++ base64EncodeToString (sampleMac [107, 101, 121]
            (utf8 (stringToSign sampleLowerCase sampleRequest "stor00000001010".toList))) :=
  ⟨by decide,
    createAuthorizationHeader_value sampleLowerCase sampleMac sampleRequest
      "stor00000001010".toList "a2V5".toList [107, 101, 121] (by decide)⟩

/-- C9, the code at the failing input: the secret `!!!` is not base64, `DecodeString`
reports an error with no bytes decoded, and signing still returns an authorization value,
computed under the empty key. -/
theorem malformed_secret_still_signs (lowerCase : Char → Char)
    (hmacSha256 : Bytes → Bytes → Bytes) (request : Request) (account : Str) :
    base64DecodeString "!!!".toList = ([], true) ∧
    createAuthorizationHeader lowerCase hmacSha256 request account "!!!".toList
      = "SharedKey ".toList ++ account ++ ":".toList
        ++ base64EncodeToString
          (hmacSha256 [] (utf8 (stringToSign lowerCase request account))) := by
  have h : base64DecodeString "!!!".toList = ([], true) := by decide
  refine ⟨h, ?_⟩
  unfold createAuthorizationHeader computeHmac256
  rw [h]

end BlobSetTags

namespace BlobSetTags

/-! ## Sorting and maps -/

theorem sortStrings_sorted (xs : List Str) :
    List.Sorted (fun a b : Str => a ≤ b) (sortStrings xs) :=
  List.sorted_insertionSort (fun a b : Str => a ≤ b) xs

theorem sortStrings_perm (xs : List Str) : (sortStrings xs).Perm xs :=
  List.perm_insertionSort (fun a b : Str => a ≤ b) xs

/-- Whatever algorithm sorts the strings, the result is `sortStrings`. -/
theorem sortStrings_unique (xs ys : List Str) (hperm : ys.Perm xs)
    (hsorted : List.Sorted (fun a b : Str => a ≤ b) ys) : ys = sortStrings xs :=
  List.eq_of_perm_of_sorted (hperm.trans (sortStrings_perm xs).symm) hsorted
    (sortStrings_sorted xs)

theorem sortStrings_congr (xs ys : List Str) (hperm : xs.Perm ys) :
    sortStrings xs = sortStrings ys :=
  sortStrings_unique ys (sortStrings xs) ((sortStrings_perm xs).trans hperm)
    (sortStrings_sorted xs)

theorem mem_sortStrings (xs : List Str) (k : Str) : k ∈ sortStrings xs ↔ k ∈ xs :=
  (sortStrings_perm xs).mem_iff

theorem lookup_of_mem {β : Type} (m : List (Str × β)) (hnd : (m.map Prod.fst).Nodup)
    (k : Str) (v : β) (hmem : (k, v) ∈ m) : m.lookup k = some v := by
  induction m with
  | nil => cases hmem
  | cons p rest ih =>
    obtain ⟨k1, v1⟩ := p
    rw [List.map_cons, List.nodup_cons] at hnd
    rcases List.mem_cons.mp hmem with heq | hrest
    · cases heq
      simp [List.lookup]
    · have hne : k ≠ k1 := by
        intro h
        subst h
        have hin : (k, v).1 ∈ rest.map Prod.fst := List.mem_map_of_mem Prod.fst hrest
        exact hnd.1 hin
      have hb : (k == k1) = false := by simpa using hne
      rw [List.lookup_cons, hb]
      exact ih hnd.2 hrest

theorem lookup_perm {β : Type} (m m1 : List (Str × β)) (hperm : m.Perm m1)
    (hnd : (m.map Prod.fst).Nodup) (k : Str) (hk : k ∈ m.map Prod.fst) :
    m.lookup k = m1.lookup k := by
  obtain ⟨p, hp, rfl⟩ := List.mem_map.mp hk
  have hnd1 : (m1.map Prod.fst).Nodup := (hperm.map Prod.fst).nodup_iff.mp hnd
  rw [lookup_of_mem m hnd p.1 p.2 hp, lookup_of_mem m1 hnd1 p.1 p.2 (hperm.mem_iff.mp hp)]

theorem mapSet_of_not_mem {κ β : Type} [DecidableEq κ] (m : List (κ × β)) (k : κ) (v : β)
    (hk : k ∉ m.map Prod.fst) : mapSet m k v = m ++ [(k, v)] := by
  induction m with
  | nil => rfl
  | cons p rest ih =>
    obtain ⟨k1, v1⟩ := p
    rw [List.map_cons, List.mem_cons, not_or] at hk
    have hne : ¬ k1 = k := fun h => hk.1 h.symm
    rw [mapSet, if_neg hne, ih hk.2]
    rfl

end BlobSetTags

namespace BlobSetTags

/-! ## Canonicalized headers -/

theorem markedHeaders_cons_pos {lowerCase : Char → Char} (kv : Str × List Str) (rest : List (Str × List Str))
    (h : hasPrefix (toLower lowerCase kv.1) "x-ms-".toList = true) :
    markedHeaders lowerCase (kv :: rest)
      = (toLower lowerCase kv.1, joinWith ",".toList kv.2) :: markedHeaders lowerCase rest := by
  unfold markedHeaders
  rw [List.filter_cons]
  simp only [h, if_true, List.map_cons]

theorem markedHeaders_cons_neg {lowerCase : Char → Char} (kv : Str × List Str) (rest : List (Str × List Str))
    (h : ¬ hasPrefix (toLower lowerCase kv.1) "x-ms-".toList = true) :
    markedHeaders lowerCase (kv :: rest) = markedHeaders lowerCase rest := by
  unfold markedHeaders
  rw [List.filter_cons]
  simp only [h]
  rfl

theorem collectMsHeaders_eq {lowerCase : Char → Char} (header : List (Str × List Str)) :
    ∀ acc : List (Str × Str), ((acc ++ markedHeaders lowerCase header).map Prod.fst).Nodup →
      collectMsHeaders lowerCase header acc = acc ++ markedHeaders lowerCase header := by
  induction header with
  | nil =>
    intro acc _
    simp [collectMsHeaders, markedHeaders]
  | cons kv rest ih =>
    intro acc hnd
    obtain ⟨header, values⟩ := kv
    by_cases h : hasPrefix (toLower lowerCase header) "x-ms-".toList = true
    · rw [markedHeaders_cons_pos (header, values) rest h] at hnd ⊢
      have hnot : toLower lowerCase header ∉ acc.map Prod.fst := by
        rw [List.map_append, List.map_cons] at hnd
        have := (List.nodup_append.mp hnd).2.2
        intro hin
        exact this hin (List.mem_cons_self _ _)
      rw [collectMsHeaders]
      simp only [h, if_true]
      rw [mapSet_of_not_mem acc _ _ hnot, ih (acc ++ [(toLower lowerCase header, joinWith ",".toList values)])
        (by simpa [List.append_assoc] using hnd)]
      simp [List.append_assoc]
    · rw [markedHeaders_cons_neg (header, values) rest h] at hnd ⊢
      rw [collectMsHeaders]
      simp only [h]
      exact ih acc hnd

theorem intercalate_cons_cons (sep x y : Str) (rest : List Str) :
    joinWith sep (x :: y :: rest) = x ++ sep ++ joinWith sep (y :: rest) := by
  simp [joinWith, List.intercalate, List.intersperse]

theorem flatten_lines (sep : Str) (lines : List Str) (hne : lines ≠ []) :
    (lines.map (fun l => l ++ sep)).flatten = joinWith sep lines ++ sep := by
  induction lines with
  | nil => exact absurd rfl hne
  | cons x rest ih =>
    cases rest with
    | nil => simp [joinWith, List.intercalate, List.intersperse]
    | cons y rest =>
      rw [List.map_cons, List.flatten_cons, ih (by simp), intercalate_cons_cons]
      simp [List.append_assoc]

theorem trimSuffix_append (x sep : Str) : trimSuffix (x ++ sep) sep = x := by
  unfold trimSuffix
  have h : sep.isSuffixOf (x ++ sep) = true := by
    rw [List.isSuffixOf_iff_suffix]
    exact List.suffix_append x sep
  rw [if_pos h, List.length_append, Nat.add_sub_cancel, List.take_left']
  rfl

theorem canonicalizedHeaders_normal {lowerCase : Char → Char} (header : List (Str × List Str))
    (hnd : ((markedHeaders lowerCase header).map Prod.fst).Nodup) :
    canonicalizedHeaders lowerCase header
      = joinWith "\n".toList ((sortStrings ((markedHeaders lowerCase header).map Prod.fst)).map
          (fun k => k ++ ":".toList ++ mapGet (markedHeaders lowerCase header) k)) := by
  unfold canonicalizedHeaders
  have hcol : collectMsHeaders lowerCase header [] = markedHeaders lowerCase header := by
    have := collectMsHeaders_eq header [] (by simpa using hnd)
    simpa using this
  rw [hcol]
  by_cases hempty : (markedHeaders lowerCase header).length = 0
  · have hnil : markedHeaders lowerCase header = [] := List.length_eq_zero.mp hempty
    simp only [hempty, if_true]
    rw [hnil]
    rfl
  · simp only [hempty, if_false]
    have hne : (sortStrings ((markedHeaders lowerCase header).map Prod.fst)).map
        (fun k => k ++ ":".toList ++ mapGet (markedHeaders lowerCase header) k) ≠ [] := by
      intro hnil
      have h1 := congrArg List.length hnil
      rw [List.length_map, (sortStrings_perm _).length_eq, List.length_map] at h1
      exact hempty h1
    have hflat := flatten_lines "\n".toList _ hne
    rw [List.map_map] at hflat
    have hfun : ((fun l : Str => l ++ "\n".toList) ∘
        fun k => k ++ ":".toList ++ mapGet (markedHeaders lowerCase header) k)
        = fun key => key ++ ":".toList ++ mapGet (markedHeaders lowerCase header) key ++ "\n".toList := rfl
    rw [hfun] at hflat
    rw [hflat, trimSuffix_append]

end BlobSetTags

namespace BlobSetTags

theorem map_fst_orderedInsert (a : Str × Str) (l : List (Str × Str)) :
    (List.orderedInsert (fun x y : Str × Str => x.1 ≤ y.1) a l).map Prod.fst
      = List.orderedInsert (fun x y : Str => x ≤ y) a.1 (l.map Prod.fst) := by
  induction l with
  | nil => rfl
  | cons b rest ih =>
    by_cases h : a.1 ≤ b.1
    · simp [List.orderedInsert, h]
    · simp [List.orderedInsert, h, ih]

theorem map_fst_insertionSort (l : List (Str × Str)) :
    (l.insertionSort (fun x y : Str × Str => x.1 ≤ y.1)).map Prod.fst
      = sortStrings (l.map Prod.fst) := by
  induction l with
  | nil => rfl
  | cons a rest ih =>
    rw [List.insertionSort, map_fst_orderedInsert, ih]
    rfl

theorem mapGet_of_mem (m : List (Str × Str)) (hnd : (m.map Prod.fst).Nodup) (p : Str × Str)
    (hp : p ∈ m) : mapGet m p.1 = p.2 := by
  unfold mapGet
  rw [lookup_of_mem m hnd p.1 p.2 hp]
  rfl

theorem rendered_sorted_lines (ms : List (Str × Str)) (hnd : (ms.map Prod.fst).Nodup) :
    ((ms.map (fun p => (p.1, p.1 ++ ":".toList ++ p.2))).insertionSort
        (fun x y : Str × Str => x.1 ≤ y.1)).map Prod.snd
      = (sortStrings (ms.map Prod.fst)).map (fun k => k ++ ":".toList ++ mapGet ms k) := by
  have hkeys : (ms.map (fun p : Str × Str => (p.1, p.1 ++ ":".toList ++ p.2))).map Prod.fst
      = ms.map Prod.fst := by
    rw [List.map_map]; rfl
  have hfst := map_fst_insertionSort (ms.map (fun p => (p.1, p.1 ++ ":".toList ++ p.2)))
  rw [hkeys] at hfst
  rw [← hfst, List.map_map]
  apply List.map_congr_left
  intro x hx
  have hx1 : x ∈ ms.map (fun p : Str × Str => (p.1, p.1 ++ ":".toList ++ p.2)) :=
    (List.perm_insertionSort _ _).mem_iff.mp hx
  obtain ⟨p, hp, rfl⟩ := List.mem_map.mp hx1
  show p.1 ++ ":".toList ++ p.2 = p.1 ++ ":".toList ++ mapGet ms p.1
  rw [mapGet_of_mem ms hnd p hp]

theorem markedHeaders_fst {lowerCase : Char → Char} (header : List (Str × List Str)) :
    (markedHeaders lowerCase header).map Prod.fst
      = (header.filter (fun kv => hasPrefix (toLower lowerCase kv.1) "x-ms-".toList)).map
          (fun kv => toLower lowerCase kv.1) := by
  unfold markedHeaders
  rw [List.map_map]
  rfl

theorem canonicalizedHeaders_of_no_marked {lowerCase : Char → Char} (header : List (Str × List Str))
    (h : ∀ kv ∈ header, hasPrefix (toLower lowerCase kv.1) "x-ms-".toList = false) :
    canonicalizedHeaders lowerCase header = [] := by
  have hnil : markedHeaders lowerCase header = [] := by
    unfold markedHeaders
    rw [List.filter_eq_nil_iff.mpr (fun kv hkv => by rw [h kv hkv]; decide)]
    rfl
  rw [canonicalizedHeaders_normal header (by rw [hnil]; exact List.nodup_nil), hnil]
  rfl

/-- Names that differ above ASCII only collide as well: under the excerpt of the case tables
the name `X-Ms-` followed by the Kelvin sign U+212A and the name `X-Ms-K` have the same
lower-cased name, and `canonicalizedHeaders` returns one line for the two headers. -/
theorem canonicalizedHeaders_kelvin_collision :
    toLower sampleLowerCase ("X-Ms-".toList ++ [Char.ofNat 0x212A]) = "x-ms-k".toList ∧
    canonicalizedHeaders sampleLowerCase
        [("X-Ms-".toList ++ [Char.ofNat 0x212A], ["1".toList]),
          ("X-Ms-K".toList, ["2".toList])]
      = "x-ms-k:2".toList := by
  decide

/-- C4 as stated fails: for a header map holding `X-MS-A B` and `x-ms-a b`, two names that
differ only in letter case, the code keeps one line (the header enumerated last) where the
claim renders each header. -/
theorem canonicalizedHeaders_case_collision :
    canonicalizedHeaders sampleLowerCase
        [("X-MS-A B".toList, ["1".toList]), ("x-ms-a b".toList, ["2".toList])]
      = "x-ms-a b:2".toList ∧
    canonicalizedHeadersSpec sampleLowerCase
        [("X-MS-A B".toList, ["1".toList]), ("x-ms-a b".toList, ["2".toList])]
      = "x-ms-a b:1\nx-ms-a b:2".toList ∧
    canonicalizedHeaders sampleLowerCase
        [("X-MS-A B".toList, ["1".toList]), ("x-ms-a b".toList, ["2".toList])]
      ≠ canonicalizedHeadersSpec sampleLowerCase
        [("X-MS-A B".toList, ["1".toList]), ("x-ms-a b".toList, ["2".toList])] := by
  decide

/-- C4, amended: for every header map in which no two headers carrying the `x-ms-` prefix
have the same lower-cased name, `canonicalizedHeaders` returns the headers whose lower-cased
name starts with `x-ms-`, each rendered as lower-cased name, `:` and its comma-joined
values, ordered by lower-cased name and joined by newlines without a trailing newline; it
returns the empty string when no header carries the prefix. -/
theorem canonicalizedHeaders_matches_spec (lowerCase : Char → Char)
    (header : List (Str × List Str))
    (hnd : ((header.filter (fun kv => hasPrefix (toLower lowerCase kv.1) "x-ms-".toList)).map
      (fun kv => toLower lowerCase kv.1)).Nodup) :
    canonicalizedHeaders lowerCase header = canonicalizedHeadersSpec lowerCase header ∧
    ((∀ kv ∈ header, hasPrefix (toLower lowerCase kv.1) "x-ms-".toList = false) →
      canonicalizedHeaders lowerCase header = []) := by
  refine ⟨?_, canonicalizedHeaders_of_no_marked header⟩
  rw [← markedHeaders_fst] at hnd
  rw [canonicalizedHeaders_normal header hnd, ← rendered_sorted_lines _ hnd]
  unfold canonicalizedHeadersSpec markedHeaders
  rw [List.map_map]
  rfl

theorem canonicalizedHeaders_matches_spec_witness :
    canonicalizedHeaders sampleLowerCase sampleRequest.header
      = canonicalizedHeadersSpec sampleLowerCase sampleRequest.header ∧
    canonicalizedHeaders sampleLowerCase sampleRequest.header
      = "x-ms-date:Fri, 04 Apr 2025 06:42:53 GMT\nx-ms-version:2025-05-05".toList :=
  ⟨(canonicalizedHeaders_matches_spec sampleLowerCase sampleRequest.header (by decide)).1,
    by decide⟩

end BlobSetTags

namespace BlobSetTags

/-! ## Independence of the enumeration order -/

theorem lookup_of_not_mem {β : Type} (m : List (Str × β)) (k : Str)
    (hk : k ∉ m.map Prod.fst) : m.lookup k = none := by
  induction m with
  | nil => rfl
  | cons p rest ih =>
    obtain ⟨k1, v1⟩ := p
    rw [List.map_cons, List.mem_cons, not_or] at hk
    have hb : (k == k1) = false := by simpa using hk.1
    rw [List.lookup_cons, hb]
    exact ih hk.2

theorem lookup_perm_any {β : Type} (m m1 : List (Str × β)) (hperm : m.Perm m1)
    (hnd : (m.map Prod.fst).Nodup) (k : Str) : m.lookup k = m1.lookup k := by
  by_cases hk : k ∈ m.map Prod.fst
  · exact lookup_perm m m1 hperm hnd k hk
  · have hk1 : k ∉ m1.map Prod.fst := fun h => hk ((hperm.map Prod.fst).mem_iff.mpr h)
    rw [lookup_of_not_mem m k hk, lookup_of_not_mem m1 k hk1]

theorem markedHeaders_perm (lowerCase : Char → Char) (h h1 : List (Str × List Str)) (hperm : h.Perm h1) :
    (markedHeaders lowerCase h).Perm (markedHeaders lowerCase h1) := by
  unfold markedHeaders
  exact (hperm.filter _).map _

theorem canonicalizedHeaders_perm {lowerCase : Char → Char} (h h1 : List (Str × List Str)) (hperm : h.Perm h1)
    (hnd : ((markedHeaders lowerCase h).map Prod.fst).Nodup) :
    canonicalizedHeaders lowerCase h = canonicalizedHeaders lowerCase h1 := by
  have hmp := markedHeaders_perm lowerCase h h1 hperm
  have hnd1 : ((markedHeaders lowerCase h1).map Prod.fst).Nodup := (hmp.map Prod.fst).nodup_iff.mp hnd
  rw [canonicalizedHeaders_normal h hnd, canonicalizedHeaders_normal h1 hnd1,
    sortStrings_congr _ _ (hmp.map Prod.fst)]
  congr 1
  apply List.map_congr_left
  intro k _
  unfold mapGet
  rw [lookup_perm_any _ _ hmp hnd k]

theorem headerGet_perm (h h1 : List (Str × List Str)) (hperm : h.Perm h1)
    (hnd : (h.map Prod.fst).Nodup) (key : Str) : headerGet h key = headerGet h1 key := by
  unfold headerGet
  rw [lookup_perm_any h h1 hperm hnd key]

theorem getCanonicalizedResource_perm {lowerCase : Char → Char} (path : Str) (q q1 : List (Str × List Str))
    (hperm : q.Perm q1) (hnd : (q.map Prod.fst).Nodup) (account : Str) :
    getCanonicalizedResource lowerCase ⟨path, q⟩ account = getCanonicalizedResource lowerCase ⟨path, q1⟩ account := by
  unfold getCanonicalizedResource
  simp only [hperm.length_eq, sortStrings_congr _ _ (hperm.map Prod.fst)]
  have hinner : (fun param =>
        ((sortStrings (mapGetAll q param)).map
          (fun value => "\n".toList ++ toLower lowerCase param ++ ":".toList ++ value)).flatten)
      = (fun param =>
        ((sortStrings (mapGetAll q1 param)).map
          (fun value => "\n".toList ++ toLower lowerCase param ++ ":".toList ++ value)).flatten) := by
    funext param
    unfold mapGetAll
    rw [lookup_perm_any q q1 hperm hnd param]
  rw [hinner]

/-- C8 as stated fails: the header map holding `X-MS-A B` and `x-ms-a b` signs a different
string, and yields a different authorization value, according to which of the two headers
the map enumerates last. -/
theorem authorization_depends_on_enumeration :
    List.Perm [("X-MS-A B".toList, ["1".toList]), ("x-ms-a b".toList, ["2".toList])]
      [("x-ms-a b".toList, ["2".toList]), ("X-MS-A B".toList, ["1".toList])] ∧
    stringToSign sampleLowerCase (collidingRequest
        [("X-MS-A B".toList, ["1".toList]), ("x-ms-a b".toList, ["2".toList])]) "acct".toList
      ≠ stringToSign sampleLowerCase (collidingRequest
        [("x-ms-a b".toList, ["2".toList]), ("X-MS-A B".toList, ["1".toList])]) "acct".toList ∧
    createAuthorizationHeader sampleLowerCase sampleMac (collidingRequest
        [("X-MS-A B".toList, ["1".toList]), ("x-ms-a b".toList, ["2".toList])])
        "acct".toList "a2V5".toList
      ≠ createAuthorizationHeader sampleLowerCase sampleMac (collidingRequest
        [("x-ms-a b".toList, ["2".toList]), ("X-MS-A B".toList, ["1".toList])])
        "acct".toList "a2V5".toList := by
  refine ⟨List.Perm.swap _ _ _, by decide, by decide⟩

/-- C8, amended: if no two headers carrying the `x-ms-` prefix have the same lower-cased
name, then two invocations with the same method, content length, URL path, account and
secret, and with the same header map and the same query-parameter map, return the same
authorization value in whatever order the two maps are enumerated. -/
theorem createAuthorizationHeader_order_independent (lowerCase : Char → Char)
    (hmacSha256 : Bytes → Bytes → Bytes) (r r1 : Request) (account secret : Str)
    (hmethod : r.method = r1.method) (hlen : r.contentLength = r1.contentLength)
    (hpath : r.url.path = r1.url.path)
    (hheader : r.header.Perm r1.header) (hquery : r.url.query.Perm r1.url.query)
    (hkeys : (r.header.map Prod.fst).Nodup) (hparams : (r.url.query.map Prod.fst).Nodup)
    (hnames : ((r.header.filter
      (fun kv => hasPrefix (toLower lowerCase kv.1) "x-ms-".toList)).map
      (fun kv => toLower lowerCase kv.1)).Nodup) :
    createAuthorizationHeader lowerCase hmacSha256 r account secret
      = createAuthorizationHeader lowerCase hmacSha256 r1 account secret := by
  rw [← markedHeaders_fst] at hnames
  obtain ⟨method, ⟨path, query⟩, header, clen⟩ := r
  obtain ⟨method1, ⟨path1, query1⟩, header1, clen1⟩ := r1
  simp only at hmethod hlen hpath hheader hquery hkeys hparams hnames
  subst hmethod hlen hpath
  have hsts : stringToSign lowerCase ⟨method, ⟨path, query⟩, header, clen⟩ account
      = stringToSign lowerCase ⟨method, ⟨path, query1⟩, header1, clen⟩ account := by
    unfold stringToSign
    simp only
    rw [getCanonicalizedResource_perm path query query1 hquery hparams account,
      canonicalizedHeaders_perm header header1 hheader hnames,
      headerGet_perm header header1 hheader hkeys]
  unfold createAuthorizationHeader
  rw [hsts]

theorem createAuthorizationHeader_order_independent_witness :
    createAuthorizationHeader sampleLowerCase sampleMac sampleRequest
        "stor00000001010".toList "a2V5".toList
      = createAuthorizationHeader sampleLowerCase sampleMac
        { sampleRequest with
          header := [("X-Ms-Date".toList, ["Fri, 04 Apr 2025 06:42:53 GMT".toList]),
            ("Content-Type".toList, ["application/xml; charset=UTF-8".toList]),
            ("X-Ms-Version".toList, ["2025-05-05".toList])] }
        "stor00000001010".toList "a2V5".toList :=
  createAuthorizationHeader_order_independent sampleLowerCase sampleMac sampleRequest _
    "stor00000001010".toList "a2V5".toList rfl rfl rfl
    (by decide) (List.Perm.refl _) (by decide) (by decide) (by decide)

end BlobSetTags

namespace BlobSetTags

/-! ## Counting outcomes -/

theorem updateErrorCount_counters (stats : Stats) (errMsg : Bytes) :
    (updateErrorCount stats errMsg).completed = stats.completed ∧
    (updateErrorCount stats errMsg).errors = stats.errors ∧
    (updateErrorCount stats errMsg).errorDetails = stats.errorDetails ∧
    (updateErrorCount stats errMsg).logErrorDetails = stats.logErrorDetails := by
  unfold updateErrorCount
  split
  · exact ⟨rfl, rfl, rfl, rfl⟩
  · exact ⟨rfl, rfl, rfl, rfl⟩

theorem recordError_counters (run : Run) (fullURL : Str) (errMsg : Bytes) :
    (recordError run fullURL errMsg).stats.completed = run.stats.completed ∧
    (recordError run fullURL errMsg).stats.errors = run.stats.errors + 1 ∧
    (recordError run fullURL errMsg).requests = run.requests := by
  unfold recordError
  obtain ⟨h1, h2, _, _⟩ := updateErrorCount_counters
    { run.stats with errors := run.stats.errors + 1,
                     errorDetails := mapSet run.stats.errorDetails fullURL errMsg } errMsg
  exact ⟨h1, h2, rfl⟩

theorem handleItem_counters (baseURL : Str) (run : Run) (path : Str) (outcome : Outcome) :
    (handleItem baseURL run path outcome).requests
      = run.requests ++ [baseURL ++ path ++ "?comp=tags".toList] ∧
    (outcome.isSuccess = true →
      (handleItem baseURL run path outcome).stats.completed = run.stats.completed + 1 ∧
      (handleItem baseURL run path outcome).stats.errors = run.stats.errors) ∧
    (outcome.isSuccess = false →
      (handleItem baseURL run path outcome).stats.completed = run.stats.completed ∧
      (handleItem baseURL run path outcome).stats.errors = run.stats.errors + 1) := by
  cases outcome with
  | createError err =>
    unfold handleItem
    simp only
    obtain ⟨h1, h2, h3⟩ := recordError_counters
      { run with requests := run.requests ++ [baseURL ++ path ++ "?comp=tags".toList] }
      (baseURL ++ path ++ "?comp=tags".toList) (utf8 "Request creation error: ".toList ++ err)
    exact ⟨h3, fun h => by simp [Outcome.isSuccess] at h, fun _ => ⟨h1, h2⟩⟩
  | transportError err =>
    unfold handleItem
    simp only
    obtain ⟨h1, h2, h3⟩ := recordError_counters
      { run with requests := run.requests ++ [baseURL ++ path ++ "?comp=tags".toList] }
      (baseURL ++ path ++ "?comp=tags".toList) (utf8 "Request execution error: ".toList ++ err)
    exact ⟨h3, fun h => by simp [Outcome.isSuccess] at h, fun _ => ⟨h1, h2⟩⟩
  | response status body =>
    unfold handleItem
    simp only
    by_cases hs : status ≥ 200 ∧ status < 300
    · rw [if_pos hs]
      refine ⟨rfl, fun _ => ⟨rfl, rfl⟩, fun h => ?_⟩
      have : Outcome.isSuccess (.response status body) = true := by
        simp only [Outcome.isSuccess, decide_eq_true_eq]
        exact hs
      rw [this] at h
      cases h
    · rw [if_neg hs]
      obtain ⟨h1, h2, h3⟩ := recordError_counters
        { run with requests := run.requests ++ [baseURL ++ path ++ "?comp=tags".toList] }
        (baseURL ++ path ++ "?comp=tags".toList)
        (utf8 ("Status: ".toList ++ decimal status ++ ", Response: ".toList)
          ++ (if status ≥ 400 then body else []))
      refine ⟨h3, fun h => ?_, fun _ => ⟨h1, h2⟩⟩
      simp only [Outcome.isSuccess, decide_eq_true_eq] at h
      exact absurd h hs

theorem processWorkerItems_append (baseURL : Str) (a b : List (Str × Outcome)) (run : Run) :
    processWorkerItems baseURL (a ++ b) run
      = processWorkerItems baseURL b (processWorkerItems baseURL a run) := by
  unfold processWorkerItems
  rw [List.foldl_append]

theorem processWorkerItems_counters (baseURL : Str) (items : List (Str × Outcome)) :
    ∀ run : Run,
      (processWorkerItems baseURL items run).stats.completed
        = run.stats.completed + (items.filter (fun i => i.2.isSuccess)).length ∧
      (processWorkerItems baseURL items run).stats.errors
        = run.stats.errors + (items.filter (fun i => !i.2.isSuccess)).length ∧
      (processWorkerItems baseURL items run).requests
        = run.requests ++ items.map (fun i => baseURL ++ i.1 ++ "?comp=tags".toList) := by
  induction items with
  | nil => intro run; simp [processWorkerItems]
  | cons item rest ih =>
    intro run
    obtain ⟨hreq, hsucc, hfail⟩ := handleItem_counters baseURL run item.1 item.2
    obtain ⟨h1, h2, h3⟩ := ih (handleItem baseURL run item.1 item.2)
    have hunf : processWorkerItems baseURL (item :: rest) run
        = processWorkerItems baseURL rest (handleItem baseURL run item.1 item.2) := rfl
    rw [hunf, h1, h2, h3, hreq]
    cases hs : item.2.isSuccess with
    | true =>
      obtain ⟨c1, c2⟩ := hsucc hs
      rw [c1, c2]
      simp [List.filter_cons, hs]
      omega
    | false =>
      obtain ⟨c1, c2⟩ := hfail hs
      rw [c1, c2]
      simp [List.filter_cons, hs]
      omega

theorem filter_split_length {α : Type} (p : α → Bool) (l : List α) :
    (l.filter p).length + (l.filter (fun a => !p a)).length = l.length := by
  induction l with
  | nil => rfl
  | cons a rest ih =>
    cases h : p a <;> simp [List.filter_cons, h] <;> omega

theorem runWorkers_total (baseURL : Str) (world : Str → Outcome)
    (slots : List (Option Launch)) :
    ∀ run : Run,
      (runWorkers baseURL world slots run).stats.completed
          + (runWorkers baseURL world slots run).stats.errors
        = run.stats.completed + run.stats.errors + (shardsOf slots).flatten.length ∧
      (runWorkers baseURL world slots run).requests
        = run.requests
          ++ (shardsOf slots).flatten.map (fun p => baseURL ++ p ++ "?comp=tags".toList) := by
  induction slots with
  | nil => intro run; simp [runWorkers, shardsOf]
  | cons slot rest ih =>
    intro run
    cases slot with
    | none =>
      have hunf : runWorkers baseURL world (none :: rest) run
          = runWorkers baseURL world rest run := rfl
      have hsh : shardsOf (none :: rest) = shardsOf rest := by
        simp [shardsOf, List.reduceOption_cons_of_none]
      rw [hunf, hsh]
      exact ih run
    | some launch =>
      have hunf : runWorkers baseURL world (some launch :: rest) run
          = runWorkers baseURL world rest
            (processWorkerItems baseURL (launch.paths.map (fun p => (p, world p))) run) := rfl
      have hsh : shardsOf (some launch :: rest) = launch.paths :: shardsOf rest := by
        simp [shardsOf, List.reduceOption_cons_of_some]
      obtain ⟨h1, h2, h3⟩ := processWorkerItems_counters baseURL
        (launch.paths.map (fun p => (p, world p))) run
      obtain ⟨i1, i2⟩ := ih
        (processWorkerItems baseURL (launch.paths.map (fun p => (p, world p))) run)
      have hsplit := filter_split_length (fun i : Str × Outcome => i.2.isSuccess)
        (launch.paths.map (fun p => (p, world p)))
      rw [List.length_map] at hsplit
      rw [hunf, hsh, i1, i2, h1, h2, h3, List.flatten_cons, List.length_append, List.map_append,
        List.map_map]
      constructor
      · omega
      · rw [List.append_assoc]
        rfl

theorem runBatches_total (baseURL : Str) (world : Str → Outcome) (runs : List BatchRun)
    (hall : ∀ r ∈ runs, (shardsOf r.slots).flatten = r.workItems) :
    ∀ run : Run,
      (runs.foldl (fun r batch => runWorkers baseURL world batch.slots r) run).stats.completed
          + (runs.foldl (fun r batch => runWorkers baseURL world batch.slots r)
              run).stats.errors
        = run.stats.completed + run.stats.errors
          + (runs.map BatchRun.workItems).flatten.length := by
  induction runs with
  | nil => intro run; simp
  | cons b rest ih =>
    intro run
    have hb := hall b (List.mem_cons_self _ _)
    have hrest := ih (fun r hr => hall r (List.mem_cons_of_mem _ hr))
      (runWorkers baseURL world b.slots run)
    rw [List.foldl_cons, hrest, (runWorkers_total baseURL world b.slots run).1, hb,
      List.map_cons, List.flatten_cons, List.length_append]
    omega

end BlobSetTags

namespace BlobSetTags

theorem isSuccess_iff (outcome : Outcome) :
    outcome.isSuccess = true
      ↔ ∃ status body, outcome = .response status body ∧ 200 ≤ status ∧ status < 300 := by
  cases outcome with
  | createError err => simp [Outcome.isSuccess]
  | transportError err => simp [Outcome.isSuccess]
  | response status body => simp [Outcome.isSuccess]

theorem file_run_shards (file : Str) (W : Int) (B fuel : Nat) (hW : 1 ≤ W) (hB : 1 ≤ B)
    (hB2 : B < 9223372036854775808) (hL : (splitLines file).length < 4611686018427387904)
    (runs : List BatchRun)
    (hrun : processFileInBatches file W (B : Int) fuel = some (.ok runs)) :
    (∀ r ∈ runs, (shardsOf r.slots).flatten = r.workItems) ∧
      (runs.map BatchRun.workItems).flatten = cleanLines (splitLines file) := by
  obtain ⟨hflat, hall, hpassed⟩ := processFileInBatches_ok file W B fuel hB hB2 hL runs hrun
  obtain ⟨hbound, _, _⟩ := batchesPassed_spec file W B fuel hB hB2 hL
  constructor
  · intro r hr
    have hmem : r.lines ∈ batchesPassed file W (B : Int) fuel := by
      rw [hpassed]
      exact List.mem_map_of_mem BatchRun.lines hr
    have hle := (hbound r.lines hmem).2
    rw [processBatch_ok_cover r.lines W hW (by omega) r.slots (hall r hr)]
    rfl
  · have hitems : runs.map BatchRun.workItems = (runs.map BatchRun.lines).map cleanLines := by
      rw [List.map_map]; rfl
    rw [hitems, cleanLines_flatten, hflat]

/-- C13: whatever the outcome, a work item raises exactly one of `completed` and `errors`,
by exactly one; after a worker has handled `k` items of its shard `completed + errors` has
grown by exactly `k`; once all the workers of a batch with `N` work items are done it has
grown by exactly `N`, and so it has once all the batches of a file with `N` work items are
done: in every run over the file that returns, and the run returns when no batch starts
`2^31` workers or more. -/
theorem counters_grow_by_one_per_item (baseURL : Str) (world : Str → Outcome) (run : Run) :
    (∀ path outcome,
      ((handleItem baseURL run path outcome).stats.completed = run.stats.completed + 1 ∧
        (handleItem baseURL run path outcome).stats.errors = run.stats.errors) ∨
      ((handleItem baseURL run path outcome).stats.completed = run.stats.completed ∧
        (handleItem baseURL run path outcome).stats.errors = run.stats.errors + 1)) ∧
    (∀ (items : List (Str × Outcome)) (k : Nat), k ≤ items.length →
      (processWorkerItems baseURL (items.take k) run).stats.completed
          + (processWorkerItems baseURL (items.take k) run).stats.errors
        = run.stats.completed + run.stats.errors + k) ∧
    (∀ (lines : List Str) (W : Int) (slots : List (Option Launch)),
      1 ≤ W → lines.length < 9223372036854775808 → processBatch lines W = .ok slots →
      (runWorkers baseURL world slots run).stats.completed
          + (runWorkers baseURL world slots run).stats.errors
        = run.stats.completed + run.stats.errors + (cleanLines lines).length) ∧
    (∀ (file : Str) (W : Int) (B fuel : Nat) (runs : List BatchRun), 1 ≤ W → 1 ≤ B →
      B < 9223372036854775808 → (splitLines file).length < 4611686018427387904 →
      processFileInBatches file W (B : Int) fuel = some (.ok runs) →
      (runs.foldl (fun r batch => runWorkers baseURL world batch.slots r)
          run).stats.completed
        + (runs.foldl (fun r batch => runWorkers baseURL world batch.slots r)
            run).stats.errors
        = run.stats.completed + run.stats.errors
          + (cleanLines (splitLines file)).length) ∧
    (∀ (file : Str) (W : Int) (B fuel : Nat), 1 ≤ W → 1 ≤ B → B < 9223372036854775808 →
      (splitLines file).length < 4611686018427387904 →
      min W.toNat (min B (splitLines file).length) < 2147483648 →
      ((splitLines file).length + B - 1) / B ≤ fuel →
      ∃ runs : List BatchRun,
        processFileInBatches file W (B : Int) fuel = some (.ok runs) ∧
        (runs.foldl (fun r batch => runWorkers baseURL world batch.slots r)
            run).stats.completed
          + (runs.foldl (fun r batch => runWorkers baseURL world batch.slots r)
              run).stats.errors
          = run.stats.completed + run.stats.errors
            + (cleanLines (splitLines file)).length) := by
  have hfile : ∀ (file : Str) (W : Int) (B fuel : Nat) (runs : List BatchRun), 1 ≤ W →
      1 ≤ B → B < 9223372036854775808 → (splitLines file).length < 4611686018427387904 →
      processFileInBatches file W (B : Int) fuel = some (.ok runs) →
      (runs.foldl (fun r batch => runWorkers baseURL world batch.slots r)
          run).stats.completed
        + (runs.foldl (fun r batch => runWorkers baseURL world batch.slots r)
            run).stats.errors
        = run.stats.completed + run.stats.errors
          + (cleanLines (splitLines file)).length := by
    intro file W B fuel runs hW hB hB2 hL hrun
    obtain ⟨hshards, hitems⟩ := file_run_shards file W B fuel hW hB hB2 hL runs hrun
    rw [runBatches_total baseURL world runs hshards run, hitems]
  refine ⟨?_, ?_, ?_, hfile, ?_⟩
  rotate_right
  · intro file W B fuel hW hB hB2 hL hwg hfuel
    obtain ⟨runs, hrun, _⟩ := processFileInBatches_runs file W B fuel hW hB hB2 hL hwg hfuel
    exact ⟨runs, hrun, hfile file W B fuel runs hW hB hB2 hL hrun⟩
  · intro path outcome
    obtain ⟨_, hsucc, hfail⟩ := handleItem_counters baseURL run path outcome
    cases hs : outcome.isSuccess with
    | true => exact Or.inl (hsucc hs)
    | false => exact Or.inr (hfail hs)
  · intro items k hk
    obtain ⟨h1, h2, _⟩ := processWorkerItems_counters baseURL (items.take k) run
    have hsplit := filter_split_length (fun i : Str × Outcome => i.2.isSuccess) (items.take k)
    rw [List.length_take, Nat.min_eq_left hk] at hsplit
    rw [h1, h2]
    omega
  · intro lines W slots hW hN hslots
    rw [(runWorkers_total baseURL world slots run).1,
      processBatch_ok_cover lines W hW hN slots hslots]

theorem counters_grow_by_one_per_item_witness :
    (runWorkers "https://acct.blob.core.windows.net".toList
        (fun _ => Outcome.response 503 [])
        [some ⟨0, 1, ["/a".toList]⟩, some ⟨1, 3, ["/b".toList, "/c".toList]⟩]
        ⟨⟨0, 0, [], [], false⟩, []⟩).stats.completed
      + (runWorkers "https://acct.blob.core.windows.net".toList
        (fun _ => Outcome.response 503 [])
        [some ⟨0, 1, ["/a".toList]⟩, some ⟨1, 3, ["/b".toList, "/c".toList]⟩]
        ⟨⟨0, 0, [], [], false⟩, []⟩).stats.errors
      = 0 + 0 + (cleanLines ["/a".toList, "/b".toList, "/c".toList]).length :=
  (counters_grow_by_one_per_item "https://acct.blob.core.windows.net".toList
    (fun _ => Outcome.response 503 []) ⟨⟨0, 0, [], [], false⟩, []⟩).2.2.1
    ["/a".toList, "/b".toList, "/c".toList] 2
    [some ⟨0, 1, ["/a".toList]⟩, some ⟨1, 3, ["/b".toList, "/c".toList]⟩]
    (by decide) (by decide) rfl

/-- C14: a work item is counted as completed exactly when its request was built, executed
and answered with a status code in `200..299`; in every other case it is counted as an
error; each item of a shard is attempted exactly once, in order. -/
theorem outcome_classification (baseURL : Str) (run : Run) :
    (∀ path outcome,
      ((handleItem baseURL run path outcome).stats.completed = run.stats.completed + 1
        ↔ ∃ status body, outcome = .response status body ∧ 200 ≤ status ∧ status < 300) ∧
      ((handleItem baseURL run path outcome).stats.errors = run.stats.errors + 1
        ↔ ¬ ∃ status body, outcome = .response status body ∧ 200 ≤ status ∧ status < 300) ∧
      (handleItem baseURL run path outcome).requests
        = run.requests ++ [baseURL ++ path ++ "?comp=tags".toList]) ∧
    (∀ items : List (Str × Outcome),
      (processWorkerItems baseURL items run).requests
        = run.requests ++ items.map (fun i => baseURL ++ i.1 ++ "?comp=tags".toList) ∧
      (processWorkerItems baseURL items run).stats.completed
        = run.stats.completed + (items.filter (fun i => i.2.isSuccess)).length ∧
      (processWorkerItems baseURL items run).stats.errors
        = run.stats.errors + (items.filter (fun i => !i.2.isSuccess)).length) := by
  constructor
  · intro path outcome
    obtain ⟨hreq, hsucc, hfail⟩ := handleItem_counters baseURL run path outcome
    rw [← isSuccess_iff]
    cases hs : outcome.isSuccess with
    | true =>
      obtain ⟨c1, c2⟩ := hsucc hs
      refine ⟨⟨fun _ => rfl, fun _ => c1⟩, ⟨fun h => ?_, fun h => absurd rfl h⟩, hreq⟩
      rw [c2] at h
      omega
    | false =>
      obtain ⟨c1, c2⟩ := hfail hs
      refine ⟨⟨fun h => ?_, fun h => by cases h⟩, ⟨fun _ => by simp, fun _ => c2⟩, hreq⟩
      rw [c1] at h
      omega
  · intro items
    obtain ⟨h1, h2, h3⟩ := processWorkerItems_counters baseURL items run
    exact ⟨h3, h1, h2⟩

end BlobSetTags

namespace BlobSetTags

/-! ## The error histogram -/

theorem lookup_mapSet_self {κ β : Type} [BEq κ] [LawfulBEq κ] [DecidableEq κ] (m : List (κ × β)) (k : κ) (v : β) :
    (mapSet m k v).lookup k = some v := by
  induction m with
  | nil => simp [mapSet, List.lookup]
  | cons p rest ih =>
    obtain ⟨k1, v1⟩ := p
    by_cases h : k1 = k
    · rw [mapSet, if_pos h]
      simp [List.lookup]
    · rw [mapSet, if_neg h]
      have hb : (k == k1) = false := by simpa using fun h1 : k = k1 => h h1.symm
      rw [List.lookup_cons, hb]
      exact ih

theorem lookup_mapSet_ne {κ β : Type} [BEq κ] [LawfulBEq κ] [DecidableEq κ]
    (m : List (κ × β)) (k k2 : κ) (v : β)
    (hne : k2 ≠ k) : (mapSet m k v).lookup k2 = m.lookup k2 := by
  induction m with
  | nil =>
    have hb : (k2 == k) = false := by simpa using hne
    simp [mapSet, List.lookup, hb]
  | cons p rest ih =>
    obtain ⟨k1, v1⟩ := p
    by_cases h : k1 = k
    · subst h
      rw [mapSet, if_pos rfl]
      have hb : (k2 == k1) = false := by simpa using hne
      rw [List.lookup_cons, List.lookup_cons, hb]
    · rw [mapSet, if_neg h, List.lookup_cons, List.lookup_cons, ih]

theorem normalized_eq_take (errMsg : Bytes) :
    (if errMsg.length > 200 then errMsg.take 200 else errMsg) = errMsg.take 200 := by
  split
  · rfl
  · rw [List.take_of_length_le (by omega)]

/-- C17: with detailed-error logging off `updateErrorCount` changes nothing; with it on,
the count stored under the first 200 bytes of the message (the whole message when it has at
most 200 bytes) is raised by exactly one, from 0 for a new key, the count of every other key
is unchanged, and so is the rest of the statistics. -/
theorem updateErrorCount_frame (stats : Stats) (errMsg : Bytes) :
    (stats.logErrorDetails = false → updateErrorCount stats errMsg = stats) ∧
    (stats.logErrorDetails = true →
      (updateErrorCount stats errMsg).errorCounts.lookup (errMsg.take 200)
        = some ((stats.errorCounts.lookup (errMsg.take 200)).getD 0 + 1) ∧
      (∀ k, k ≠ errMsg.take 200 →
        (updateErrorCount stats errMsg).errorCounts.lookup k = stats.errorCounts.lookup k)) ∧
    (errMsg.length ≤ 200 → errMsg.take 200 = errMsg) ∧
    (updateErrorCount stats errMsg).completed = stats.completed ∧
    (updateErrorCount stats errMsg).errors = stats.errors ∧
    (updateErrorCount stats errMsg).errorDetails = stats.errorDetails ∧
    (updateErrorCount stats errMsg).logErrorDetails = stats.logErrorDetails := by
  refine ⟨?_, ?_, fun h => List.take_of_length_le h, updateErrorCount_counters stats errMsg⟩
  · intro h
    unfold updateErrorCount
    simp [h]
  · intro h
    have hunf : (updateErrorCount stats errMsg).errorCounts
        = mapSet stats.errorCounts (errMsg.take 200)
            ((stats.errorCounts.lookup (errMsg.take 200)).getD 0 + 1) := by
      unfold updateErrorCount
      simp only [h, Bool.not_true, Bool.false_eq_true, if_false, normalized_eq_take]
      cases List.lookup (errMsg.take 200) stats.errorCounts <;> rfl
    rw [hunf]
    exact ⟨lookup_mapSet_self _ _ _, fun k hk => lookup_mapSet_ne _ _ _ _ hk⟩

theorem updateErrorCount_frame_witness :
    (updateErrorCount ⟨0, 2, [], [([1, 2], 1), ([3], 1)], true⟩ [1, 2]).errorCounts.lookup
        (([1, 2] : Bytes).take 200) = some ((some 1).getD 0 + 1) ∧
    updateErrorCount ⟨0, 2, [], [([1, 2], 1), ([3], 1)], false⟩ [1, 2]
      = ⟨0, 2, [], [([1, 2], 1), ([3], 1)], false⟩ :=
  ⟨((updateErrorCount_frame ⟨0, 2, [], [([1, 2], 1), ([3], 1)], true⟩ [1, 2]).2.1 rfl).1,
    (updateErrorCount_frame ⟨0, 2, [], [([1, 2], 1), ([3], 1)], false⟩ [1, 2]).1 rfl⟩

theorem foldl_mapSet_eq (l : List (Bytes × Nat)) :
    ∀ acc : List (Bytes × Nat), ((acc ++ l).map Prod.fst).Nodup →
      l.foldl (fun m e => mapSet m e.1 e.2) acc = acc ++ l := by
  induction l with
  | nil => intro acc _; simp
  | cons e rest ih =>
    intro acc hnd
    have hnot : e.1 ∉ acc.map Prod.fst := by
      rw [List.map_append, List.map_cons] at hnd
      have := (List.nodup_append.mp hnd).2.2
      intro hin
      exact this hin (List.mem_cons_self _ _)
    rw [List.foldl_cons, mapSet_of_not_mem acc _ _ hnot, ih (acc ++ [(e.1, e.2)])
      (by simpa [List.append_assoc] using hnd)]
    simp [List.append_assoc]

/-- C18: on a report with `errors > 0`, `reportStats` prints the first three entries (all
of them when there are fewer) of the histogram ordered by count, descending: it prints
`min 3 n` entries for a histogram of `n` keys, the printed counts do not increase, and no
entry left out has a count above that of a printed entry. -/
theorem topErrors_are_the_most_frequent (stats : Stats) (hpos : 0 < stats.errors)
    (hkeys : (stats.errorCounts.map Prod.fst).Nodup) :
    ∃ errorSlice : List (Bytes × Nat),
      errorSlice.Perm stats.errorCounts ∧
      topErrors stats = (errorSlice.take 3).map (fun e => (e.2, displayMsg e.1)) ∧
      (topErrors stats).length = min 3 stats.errorCounts.length ∧
      List.Sorted (fun a b : Nat => a ≥ b) ((topErrors stats).map Prod.fst) ∧
      (∀ a ∈ errorSlice.take 3, ∀ b ∈ errorSlice.drop 3, b.2 ≤ a.2) := by
  haveI : IsTotal (Bytes × Nat) (fun a b => a.2 ≥ b.2) := ⟨fun a b => Nat.le_total b.2 a.2⟩
  haveI : IsTrans (Bytes × Nat) (fun a b => a.2 ≥ b.2) :=
    ⟨fun a b c hab hbc => Nat.le_trans hbc hab⟩
  have hcopy : stats.errorCounts.foldl (fun m e => mapSet m e.1 e.2) [] = stats.errorCounts := by
    have := foldl_mapSet_eq stats.errorCounts [] (by simpa using hkeys)
    simpa using this
  have hsorted : List.Sorted (fun a b : Bytes × Nat => a.2 ≥ b.2)
      (stats.errorCounts.insertionSort (fun a b => a.2 ≥ b.2)) :=
    List.sorted_insertionSort _ _
  have hperm := List.perm_insertionSort (fun a b : Bytes × Nat => a.2 ≥ b.2) stats.errorCounts
  have htop : topErrors stats
      = ((stats.errorCounts.insertionSort (fun a b => a.2 ≥ b.2)).take 3).map
          (fun e => (e.2, displayMsg e.1)) := by
    unfold topErrors sortedErrors
    rw [hcopy]
    simp only [hpos, if_true]
    by_cases hlen : stats.errorCounts.length > 0
    · rw [if_pos hlen]
    · rw [if_neg hlen]
      have hnil : stats.errorCounts = [] := List.length_eq_zero.mp (by omega)
      rw [hnil]
      rfl
  refine ⟨_, hperm, htop, ?_, ?_, ?_⟩
  · rw [htop, List.length_map, List.length_take, hperm.length_eq]
  · rw [htop, List.map_map]
    have htake : List.Sorted (fun a b : Bytes × Nat => a.2 ≥ b.2)
        ((stats.errorCounts.insertionSort (fun a b => a.2 ≥ b.2)).take 3) :=
      hsorted.sublist (List.take_sublist _ _)
    exact List.pairwise_map.mpr htake
  · intro a ha b hb
    have hsplit := List.take_append_drop 3
      (stats.errorCounts.insertionSort (fun a b => a.2 ≥ b.2))
    rw [← hsplit] at hsorted
    exact (List.pairwise_append.mp hsorted).2.2 a ha b hb

theorem topErrors_are_the_most_frequent_witness :
    ∃ errorSlice : List (Bytes × Nat),
      errorSlice.Perm [([1], 2), ([2], 5), ([3], 1), ([4], 7)] ∧
      topErrors ⟨0, 15, [], [([1], 2), ([2], 5), ([3], 1), ([4], 7)], true⟩
        = (errorSlice.take 3).map (fun e => (e.2, displayMsg e.1)) ∧
      (topErrors ⟨0, 15, [], [([1], 2), ([2], 5), ([3], 1), ([4], 7)], true⟩).length
        = min 3 4 ∧
      List.Sorted (fun a b : Nat => a ≥ b)
        ((topErrors ⟨0, 15, [], [([1], 2), ([2], 5), ([3], 1), ([4], 7)], true⟩).map
          Prod.fst) ∧
      (∀ a ∈ errorSlice.take 3, ∀ b ∈ errorSlice.drop 3, b.2 ≤ a.2) :=
  topErrors_are_the_most_frequent ⟨0, 15, [], [([1], 2), ([2], 5), ([3], 1), ([4], 7)], true⟩
    (by decide) (by decide)

end BlobSetTags

namespace BlobSetTags

/-! ## The run over the input files -/

/-- C15, the code at the failing input: of three data files the second cannot be read. The
first file is processed, then `log.Fatalf` ends the whole run: the third file is never
processed (no request for `/b`) and the failure is not counted (`errors` stays 0). -/
theorem unreadable_file_ends_the_run :
    runMain ⟨"acct".toList, "a2V5".toList, "c".toList, 2, 10, false⟩
        (fun _ => Outcome.response 201 []) 5
        [some "/a".toList, none, some "/b".toList]
      = .fatal "Failed to read data file".toList
          ⟨⟨1, 0, [], [], false⟩,
            ["https://acct.blob.core.windows.net/c/a?comp=tags".toList]⟩ := by
  rfl

/-- C16, the code at the failing input: with an empty account, key and container `main`
does not stop; it builds the base URL `https://.blob.core.windows.net`, reads the data file
and sends the request for `/a`, and a request is signed under the empty account and key. -/
theorem missing_credentials_do_not_stop_main :
    runMain ⟨[], [], [], 1, 10, false⟩
        (fun _ => Outcome.transportError (utf8 "no such host".toList)) 5 [some "/a".toList]
      = .finished
          ⟨⟨0, 1, [("https://.blob.core.windows.net/a?comp=tags".toList,
              utf8 "Request execution error: no such host".toList)], [], false⟩,
            ["https://.blob.core.windows.net/a?comp=tags".toList]⟩ ∧
    ∀ (lowerCase : Char → Char) (hmacSha256 : Bytes → Bytes → Bytes) (request : Request),
      createAuthorizationHeader lowerCase hmacSha256 request [] []
        = "SharedKey :".toList
          ++ base64EncodeToString
            (hmacSha256 [] (utf8 (stringToSign lowerCase request []))) := by
  refine ⟨by rfl, fun lowerCase hmacSha256 request => ?_⟩
  rfl

end BlobSetTags

namespace BlobSetTags

/-! ## Sharding raises no fault -/

theorem shardPlan_bounds (urlPaths : List Str) (ppw : Nat) (hq : 1 ≤ ppw) :
    ∀ (k i : Nat), (i + k) * ppw ≤ urlPaths.length →
      ∀ l ∈ shardPlan urlPaths ppw k i,
        0 ≤ l.start ∧ l.start < l.stop ∧ l.stop ≤ (urlPaths.length : Int) ∧
        l.paths = (urlPaths.drop l.start.toNat).take (l.stop.toNat - l.start.toNat) := by
  intro k
  induction k with
  | zero => intro i _ l hl; cases hl
  | succ k ih =>
    intro i hle l hl
    obtain ⟨a, ha⟩ : ∃ a, i * ppw = a := ⟨_, rfl⟩
    obtain ⟨b, hb⟩ : ∃ b, k * ppw = b := ⟨_, rfl⟩
    have ha1 : (i + 1) * ppw = a + ppw := by rw [← ha]; ring
    have hsum : (i + (k + 1)) * ppw = a + ppw + b := by rw [← ha, ← hb]; ring
    rw [hsum] at hle
    rw [shardPlan, ha, ha1] at hl
    rcases List.mem_cons.mp hl with rfl | hrest
    · by_cases hk : k = 0
      · simp only [hk, if_true, Int.toNat_ofNat]
        exact ⟨by omega, by omega, by omega, trivial⟩
      · simp only [hk, if_false, Int.toNat_ofNat]
        exact ⟨by omega, by omega, by omega, trivial⟩
    · have hle1 : (i + 1 + k) * ppw ≤ urlPaths.length := by
        have : (i + 1 + k) * ppw = a + ppw + b := by rw [← ha, ← hb]; ring
        rw [this]; exact hle
      exact ih (i + 1) hle1 l hrest

theorem workerCountOf_eq (urlPaths : List Str) (W : Int) (hW : 1 ≤ W) :
    workerCountOf urlPaths W = ((min W.toNat urlPaths.length : Nat) : Int) := by
  unfold workerCountOf len
  obtain ⟨w, rfl⟩ : ∃ w : Nat, W = (w : Int) := ⟨W.toNat, (Int.toNat_of_nonneg (by omega)).symm⟩
  rw [Int.toNat_ofNat]
  by_cases h : (w : Int) > ((urlPaths.length : Nat) : Int)
  · rw [if_pos h]; omega
  · rw [if_neg h]; omega

theorem pathsPerWorkerOf_eq (urlPaths : List Str) (W : Int) (hW : 1 ≤ W)
    (hpos : 1 ≤ urlPaths.length) (hN : urlPaths.length < 9223372036854775808) :
    pathsPerWorkerOf urlPaths W
        = ((urlPaths.length / min W.toNat urlPaths.length : Nat) : Int) ∧
      1 ≤ urlPaths.length / min W.toNat urlPaths.length := by
  obtain ⟨wc, hwc⟩ : ∃ wc, min W.toNat urlPaths.length = wc := ⟨_, rfl⟩
  have hwc1 : 1 ≤ wc := by omega
  have hwcn : wc ≤ urlPaths.length := by omega
  have hq : 1 ≤ urlPaths.length / wc := (Nat.one_le_div_iff (by omega)).mpr hwcn
  have e5 : ¬ ((urlPaths.length / wc : Nat) : Int) < 1 := by
    generalize urlPaths.length / wc = q at hq
    omega
  have hdiv : div64 ((urlPaths.length : Nat) : Int) (wc : Int)
      = ((urlPaths.length / wc : Nat) : Int) := div64_natCast _ wc hN
  refine ⟨?_, by rw [hwc]; exact hq⟩
  unfold pathsPerWorkerOf
  rw [workerCountOf_eq urlPaths W hW, hwc]
  unfold len
  simp only [hdiv, e5, if_false]

theorem launchWorkers_of_counts (urlPaths : List Str) (W : Int) (hW : 1 ≤ W)
    (hpos : 1 ≤ urlPaths.length) (hN : urlPaths.length < 9223372036854775808) :
    launchWorkers urlPaths (workerCountOf urlPaths W) (pathsPerWorkerOf urlPaths W)
        (workerCountOf urlPaths W).toNat 0
      = .ok ((shardPlan urlPaths (urlPaths.length / min W.toNat urlPaths.length)
          (min W.toNat urlPaths.length) 0).map some) := by
  obtain ⟨hppw, hq⟩ := pathsPerWorkerOf_eq urlPaths W hW hpos hN
  rw [workerCountOf_eq urlPaths W hW, hppw, Int.toNat_ofNat]
  have hplan := launchWorkers_plan urlPaths (min W.toNat urlPaths.length)
    (urlPaths.length / min W.toNat urlPaths.length) hq (Nat.mul_div_le _ _) hN
    (min W.toNat urlPaths.length) 0 (by omega)
  exact_mod_cast hplan

/-- C22 as stated fails: with `N = 2^31 + 1` work items and `W = 2^31`, `processBatch`
computes `workerCount = 2^31` and `pathsPerWorker = 1`, and then `wg.Add(workerCount)` panics
on the 32-bit counter of the `WaitGroup`: the sharding meets a run-time fault. -/
theorem sharding_panics_in_wait_group :
    (cleanLines (List.replicate 2147483649 "/a".toList)).length = 2147483649 ∧
    processBatch (List.replicate 2147483649 "/a".toList) 2147483648
      = .error .negativeWaitGroup :=
  ⟨by rw [cleanLines_replicate "/a".toList (by decide) (by decide), List.length_replicate],
    processBatch_replicate 2147483649 2147483648 (by decide) (by decide) (by decide)
      (by decide)⟩

/-- C22, amended: for a batch with `N ≥ 1` work items and `W ≥ 1`, `processBatch` computes
`workerCount ≥ 1` (no division by zero) and `pathsPerWorker ≥ 1`, and its launch loop run
with them takes no slice out of range: every worker index is started (the branch that only
marks a worker done is never taken) with a slice `urlPaths[start:end]` that satisfies
`0 ≤ start < end ≤ N`. When `min W N < 2^31`, `processBatch` returns without a fault, having
started these workers; otherwise its only fault is the panic of the `WaitGroup`, whose
counter has 32 bits. -/
theorem sharding_has_no_fault (lines : List Str) (W : Int) (hW : 1 ≤ W)
    (hpos : 1 ≤ (cleanLines lines).length) (hN : lines.length < 9223372036854775808) :
    1 ≤ workerCountOf (cleanLines lines) W ∧
    1 ≤ pathsPerWorkerOf (cleanLines lines) W ∧
    ∃ launches : List Launch,
      launchWorkers (cleanLines lines) (workerCountOf (cleanLines lines) W)
          (pathsPerWorkerOf (cleanLines lines) W)
          (workerCountOf (cleanLines lines) W).toNat 0 = .ok (launches.map some) ∧
      (launches.length : Int) = workerCountOf (cleanLines lines) W ∧
      (∀ l ∈ launches,
        0 ≤ l.start ∧ l.start < l.stop ∧ l.stop ≤ ((cleanLines lines).length : Int) ∧
        l.paths = ((cleanLines lines).drop l.start.toNat).take
          (l.stop.toNat - l.start.toNat)) ∧
      (min W.toNat (cleanLines lines).length < 2147483648 →
        processBatch lines W = .ok (launches.map some)) ∧
      (2147483648 ≤ min W.toNat (cleanLines lines).length →
        processBatch lines W = .error .negativeWaitGroup ∨
        processBatch lines W = .error .waitGroupOutOfStep) := by
  have hlen := cleanLines_length_le lines
  have hfault := processBatch_fault lines W hW hN
  obtain ⟨urlPaths, hu⟩ : ∃ u, cleanLines lines = u := ⟨_, rfl⟩
  unfold processBatch at hfault ⊢
  rw [hu] at hlen hpos hfault ⊢
  have hlt : urlPaths.length < 9223372036854775808 := by omega
  have hwc := workerCountOf_eq urlPaths W hW
  obtain ⟨hppw, hq⟩ := pathsPerWorkerOf_eq urlPaths W hW hpos hlt
  have hmin1 : 1 ≤ min W.toNat urlPaths.length := by omega
  have hwc1 : 1 ≤ workerCountOf urlPaths W := by rw [hwc]; exact_mod_cast hmin1
  refine ⟨hwc1, by rw [hppw]; exact_mod_cast hq, _,
    launchWorkers_of_counts urlPaths W hW hpos hlt, ?_, ?_,
    fun hwg => distribute_plan urlPaths W hW hpos hlt hwg, fun hwg => ?_⟩
  · rw [shardPlan_length, hwc]
  · exact shardPlan_bounds urlPaths _ hq _ 0
      (by rw [Nat.zero_add]; exact Nat.mul_div_le _ _)
  · obtain ⟨fault, h1, h2, _⟩ := hfault hwg
    rw [h1]
    rcases h2 with rfl | rfl
    · exact Or.inl rfl
    · exact Or.inr rfl

theorem sharding_has_no_fault_witness :
    1 ≤ workerCountOf (cleanLines ["/a".toList, [], "/b".toList, "/c".toList]) 2 ∧
    1 ≤ pathsPerWorkerOf (cleanLines ["/a".toList, [], "/b".toList, "/c".toList]) 2 ∧
    processBatch ["/a".toList, [], "/b".toList, "/c".toList] 2
      = .ok [some ⟨0, 1, ["/a".toList]⟩, some ⟨1, 3, ["/b".toList, "/c".toList]⟩] := by
  obtain ⟨h1, h2, _, _⟩ := sharding_has_no_fault ["/a".toList, [], "/b".toList, "/c".toList] 2
    (by decide) (by decide) (by decide)
  exact ⟨h1, h2, rfl⟩

end BlobSetTags

namespace BlobSetTags

/-! ## The histogram agrees with the error counter -/

theorem sum_mapSet_count {κ : Type} [BEq κ] [LawfulBEq κ] [DecidableEq κ]
    (m : List (κ × Nat)) (k : κ) :
    ((mapSet m k ((m.lookup k).getD 0 + 1)).map Prod.snd).sum = (m.map Prod.snd).sum + 1 := by
  induction m with
  | nil => simp [mapSet, List.lookup]
  | cons p rest ih =>
    obtain ⟨k1, v1⟩ := p
    by_cases h : k1 = k
    · subst h
      have hl : List.lookup k1 ((k1, v1) :: rest) = some v1 := by simp [List.lookup]
      rw [hl, mapSet, if_pos rfl]
      simp only [Option.getD_some, List.map_cons, List.sum_cons]
      omega
    · have hb : (k == k1) = false := by simpa using fun h1 : k = k1 => h h1.symm
      have hl : List.lookup k ((k1, v1) :: rest) = List.lookup k rest := by
        rw [List.lookup_cons, hb]
      rw [hl, mapSet, if_neg h]
      simp only [List.map_cons, List.sum_cons, ih]
      omega

theorem keys_mapSet {κ β : Type} [DecidableEq κ] (m : List (κ × β)) (k : κ) (v : β) :
    ∀ x ∈ (mapSet m k v).map Prod.fst, x = k ∨ x ∈ m.map Prod.fst := by
  induction m with
  | nil =>
    intro x hx
    simp only [mapSet, List.map_cons, List.map_nil, List.mem_singleton] at hx
    exact Or.inl hx
  | cons p rest ih =>
    obtain ⟨k1, v1⟩ := p
    intro x hx
    by_cases h : k1 = k
    · rw [mapSet, if_pos h, List.map_cons, List.mem_cons] at hx
      rcases hx with hx | hx
      · exact Or.inl hx
      · exact Or.inr (by rw [List.map_cons]; exact List.mem_cons_of_mem _ hx)
    · rw [mapSet, if_neg h, List.map_cons, List.mem_cons] at hx
      rcases hx with hx | hx
      · exact Or.inr (by rw [List.map_cons, hx]; exact List.mem_cons_self _ _)
      · rcases ih x hx with h1 | h1
        · exact Or.inl h1
        · exact Or.inr (by rw [List.map_cons]; exact List.mem_cons_of_mem _ h1)

theorem updateErrorCount_on (stats : Stats) (errMsg : Bytes)
    (h : stats.logErrorDetails = true) :
    (updateErrorCount stats errMsg).errorCounts
      = mapSet stats.errorCounts (errMsg.take 200)
          ((stats.errorCounts.lookup (errMsg.take 200)).getD 0 + 1) := by
  unfold updateErrorCount
  simp only [h, Bool.not_true, Bool.false_eq_true, if_false, normalized_eq_take]
  cases List.lookup (errMsg.take 200) stats.errorCounts <;> rfl

theorem updateErrorCount_off (stats : Stats) (errMsg : Bytes)
    (h : stats.logErrorDetails = false) : updateErrorCount stats errMsg = stats := by
  unfold updateErrorCount
  simp [h]

/-- The histogram sums to the error counter and has no key above 200 bytes. -/
theorem handleItem_histogram_on (baseURL : Str) (run : Run) (path : Str) (outcome : Outcome)
    (hon : run.stats.logErrorDetails = true)
    (hsum : histogramTotal run.stats = run.stats.errors)
    (hkeys : ∀ key ∈ run.stats.errorCounts.map Prod.fst, key.length ≤ 200) :
    (handleItem baseURL run path outcome).stats.logErrorDetails = true ∧
    histogramTotal (handleItem baseURL run path outcome).stats
      = (handleItem baseURL run path outcome).stats.errors ∧
    (∀ key ∈ (handleItem baseURL run path outcome).stats.errorCounts.map Prod.fst,
      key.length ≤ 200) := by
  have herr : ∀ (requests : List Str) (fullURL : Str) (errMsg : Bytes),
      (recordError ⟨run.stats, requests⟩ fullURL errMsg).stats.logErrorDetails = true ∧
      histogramTotal (recordError ⟨run.stats, requests⟩ fullURL errMsg).stats
        = (recordError ⟨run.stats, requests⟩ fullURL errMsg).stats.errors ∧
      (∀ key ∈ (recordError ⟨run.stats, requests⟩ fullURL errMsg).stats.errorCounts.map
          Prod.fst, key.length ≤ 200) := by
    intro requests fullURL errMsg
    obtain ⟨_, c2, _⟩ := recordError_counters ⟨run.stats, requests⟩ fullURL errMsg
    obtain ⟨_, _, _, u4⟩ := updateErrorCount_counters
      { run.stats with errors := run.stats.errors + 1,
                       errorDetails := mapSet run.stats.errorDetails fullURL errMsg } errMsg
    have hcounts : (recordError ⟨run.stats, requests⟩ fullURL errMsg).stats.errorCounts
        = mapSet run.stats.errorCounts (errMsg.take 200)
            ((run.stats.errorCounts.lookup (errMsg.take 200)).getD 0 + 1) :=
      updateErrorCount_on
        { run.stats with errors := run.stats.errors + 1,
                         errorDetails := mapSet run.stats.errorDetails fullURL errMsg }
        errMsg hon
    refine ⟨u4.trans hon, ?_, ?_⟩
    · unfold histogramTotal
      rw [c2, hcounts, sum_mapSet_count]
      unfold histogramTotal at hsum
      show (run.stats.errorCounts.map Prod.snd).sum + 1 = run.stats.errors + 1
      rw [hsum]
    · intro key hkey
      rw [hcounts] at hkey
      rcases keys_mapSet _ _ _ key hkey with h1 | h1
      · rw [h1, List.length_take]
        omega
      · exact hkeys key h1
  cases outcome with
  | createError err => exact herr _ _ _
  | transportError err => exact herr _ _ _
  | response status body =>
    unfold handleItem
    simp only
    by_cases hs : status ≥ 200 ∧ status < 300
    · rw [if_pos hs]
      exact ⟨hon, hsum, hkeys⟩
    · rw [if_neg hs]
      exact herr _ _ _

theorem handleItem_histogram_off (baseURL : Str) (run : Run) (path : Str) (outcome : Outcome)
    (hoff : run.stats.logErrorDetails = false) :
    (handleItem baseURL run path outcome).stats.logErrorDetails = false ∧
    (handleItem baseURL run path outcome).stats.errorCounts = run.stats.errorCounts := by
  have herr : ∀ (requests : List Str) (fullURL : Str) (errMsg : Bytes),
      (recordError ⟨run.stats, requests⟩ fullURL errMsg).stats.logErrorDetails = false ∧
      (recordError ⟨run.stats, requests⟩ fullURL errMsg).stats.errorCounts
        = run.stats.errorCounts := by
    intro requests fullURL errMsg
    have hupd := updateErrorCount_off
      { run.stats with errors := run.stats.errors + 1,
                       errorDetails := mapSet run.stats.errorDetails fullURL errMsg }
      errMsg hoff
    unfold recordError
    simp only [hupd]
    exact ⟨hoff, trivial⟩
  cases outcome with
  | createError err => exact herr _ _ _
  | transportError err => exact herr _ _ _
  | response status body =>
    unfold handleItem
    simp only
    by_cases hs : status ≥ 200 ∧ status < 300
    · rw [if_pos hs]
      exact ⟨hoff, rfl⟩
    · rw [if_neg hs]
      exact herr _ _ _

theorem processWorkerItems_histogram_on (baseURL : Str) (items : List (Str × Outcome)) :
    ∀ run : Run, run.stats.logErrorDetails = true →
      histogramTotal run.stats = run.stats.errors →
      (∀ key ∈ run.stats.errorCounts.map Prod.fst, key.length ≤ 200) →
      (processWorkerItems baseURL items run).stats.logErrorDetails = true ∧
      histogramTotal (processWorkerItems baseURL items run).stats
        = (processWorkerItems baseURL items run).stats.errors ∧
      (∀ key ∈ (processWorkerItems baseURL items run).stats.errorCounts.map Prod.fst,
        key.length ≤ 200) := by
  induction items with
  | nil => intro run h1 h2 h3; exact ⟨h1, h2, h3⟩
  | cons item rest ih =>
    intro run h1 h2 h3
    obtain ⟨g1, g2, g3⟩ := handleItem_histogram_on baseURL run item.1 item.2 h1 h2 h3
    exact ih (handleItem baseURL run item.1 item.2) g1 g2 g3

theorem processWorkerItems_histogram_off (baseURL : Str) (items : List (Str × Outcome)) :
    ∀ run : Run, run.stats.logErrorDetails = false →
      (processWorkerItems baseURL items run).stats.logErrorDetails = false ∧
      (processWorkerItems baseURL items run).stats.errorCounts = run.stats.errorCounts := by
  induction items with
  | nil => intro run h1; exact ⟨h1, rfl⟩
  | cons item rest ih =>
    intro run h1
    obtain ⟨g1, g2⟩ := handleItem_histogram_off baseURL run item.1 item.2 h1
    obtain ⟨i1, i2⟩ := ih (handleItem baseURL run item.1 item.2) g1
    exact ⟨i1, i2.trans g2⟩

/-- C21: starting from zeroed statistics with detailed-error logging on, after any sequence
of work-item outcomes handled by `processWorkerItems` the counts of the error histogram sum
to the `errors` counter and no histogram key is longer than 200 bytes; with logging off the
histogram stays empty while `errors` counts every failure. -/
theorem histogram_consistent (baseURL : Str) (items : List (Str × Outcome)) :
    histogramTotal (processWorkerItems baseURL items (zeroRun true)).stats
      = (processWorkerItems baseURL items (zeroRun true)).stats.errors ∧
    (∀ key ∈ (processWorkerItems baseURL items (zeroRun true)).stats.errorCounts.map Prod.fst,
      key.length ≤ 200) ∧
    (processWorkerItems baseURL items (zeroRun true)).stats.errors
      = (items.filter (fun i => !i.2.isSuccess)).length ∧
    (processWorkerItems baseURL items (zeroRun false)).stats.errorCounts = [] ∧
    (processWorkerItems baseURL items (zeroRun false)).stats.errors
      = (items.filter (fun i => !i.2.isSuccess)).length := by
  obtain ⟨_, h2, h3⟩ := processWorkerItems_histogram_on baseURL items (zeroRun true) rfl rfl
    (fun key hkey => by cases hkey)
  obtain ⟨_, g2⟩ := processWorkerItems_histogram_off baseURL items (zeroRun false) rfl
  obtain ⟨_, c2, _⟩ := processWorkerItems_counters baseURL items (zeroRun true)
  obtain ⟨_, d2, _⟩ := processWorkerItems_counters baseURL items (zeroRun false)
  refine ⟨h2, h3, ?_, g2, ?_⟩
  · rw [c2]
    show 0 + _ = _
    omega
  · rw [d2]
    show 0 + _ = _
    omega

end BlobSetTags

namespace BlobSetTags

/-! ## `formatSize` -/

theorem formatSizeLoop_spec :
    ∀ (fuel n d e : Nat), n < 1024 ^ (fuel + 1) → 1 ≤ d → d * n < 9223372036854775808 →
      e + n < 9223372036854775808 →
      ∃ j, j ≤ fuel ∧
        formatSizeLoop fuel (n : Int) (d : Int) (e : Int)
          = some (((d * 1024 ^ j : Nat) : Int), ((e + j : Nat) : Int)) ∧
        n / 1024 ^ j < 1024 ∧ (j = 0 ∨ 1024 ^ j ≤ n) := by
  intro fuel
  induction fuel with
  | zero =>
    intro n d e hn _ _ _
    have hlt : n < 1024 := by simpa using hn
    have hcond : ¬ ((n : Nat) : Int) ≥ 1024 := by omega
    refine ⟨0, le_refl 0, ?_, by simpa using hlt, Or.inl rfl⟩
    rw [formatSizeLoop, if_neg hcond]
    simp
  | succ fuel ih =>
    intro n d e hn hd hdn hen
    by_cases hge : 1024 ≤ n
    · have hmul : d * 1024 ≤ d * n := Nat.mul_le_mul_left d hge
      have hnle : n ≤ d * n := Nat.le_mul_of_pos_left n hd
      have f1 : d * 1024 < 9223372036854775808 := by omega
      have f2 : e + 1 < 9223372036854775808 := by omega
      have f3 : n < 9223372036854775808 := by omega
      have f4 : n / 1024 < 1024 ^ (fuel + 1) := by
        apply Nat.div_lt_of_lt_mul
        have : 1024 ^ (fuel + 1 + 1) = 1024 * 1024 ^ (fuel + 1) := by ring
        rw [← this]
        exact hn
      have f5 : d * 1024 * (n / 1024) < 9223372036854775808 := by
        have h1 : 1024 * (n / 1024) ≤ n := Nat.mul_div_le n 1024
        have h2 : d * (1024 * (n / 1024)) ≤ d * n := Nat.mul_le_mul_left d h1
        rw [Nat.mul_assoc]
        omega
      have f6 : e + 1 + n / 1024 < 9223372036854775808 := by omega
      have f7 : 1 ≤ d * 1024 := by omega
      have hcond : ((n : Nat) : Int) ≥ 1024 := by omega
      obtain ⟨j, hj, hloop, hdiv, hpow⟩ := ih (n / 1024) (d * 1024) (e + 1) f4 f7 f5 f6
      have e1 : d * 1024 * 1024 ^ j = d * 1024 ^ (j + 1) := by ring
      have e2 : e + 1 + j = e + (j + 1) := by omega
      have e3 : n / 1024 / 1024 ^ j = n / 1024 ^ (j + 1) := by
        rw [Nat.div_div_eq_div_mul]
        congr 1
        ring
      have e4 : 1024 ^ (j + 1) ≤ n := by
        rcases hpow with h0 | hp
        · rw [h0]
          simpa using hge
        · have := (Nat.le_div_iff_mul_le (by decide : 0 < 1024)).mp hp
          rw [pow_succ]
          exact this
      rw [e1, e2] at hloop
      rw [e3] at hdiv
      have hdiv64 : div64 ((n : Nat) : Int) 1024 = ((n / 1024 : Nat) : Int) := by
        have := div64_natCast n 1024 f3
        exact_mod_cast this
      have hmul64 : mul64 ((d : Nat) : Int) 1024 = ((d * 1024 : Nat) : Int) := by
        have := mul64_natCast d 1024 (d * 1024) rfl f1
        exact_mod_cast this
      have hadd64 : add64 ((e : Nat) : Int) 1 = ((e + 1 : Nat) : Int) := by
        have := add64_natCast e 1 f2
        exact_mod_cast this
      refine ⟨j + 1, by omega, ?_, hdiv, Or.inr e4⟩
      rw [formatSizeLoop, if_pos hcond, hdiv64, hmul64, hadd64, hloop]
    · have hcond : ¬ ((n : Nat) : Int) ≥ 1024 := by omega
      refine ⟨0, Nat.zero_le _, ?_, by simpa using (by omega : n < 1024), Or.inl rfl⟩
      rw [formatSizeLoop, if_neg hcond]
      simp

theorem unitAt_of_le (exp : Nat) (h : exp ≤ 5) :
    ∃ c, unitAt (exp : Int) = .ok c ∧ "KMGTPE".toList.get? exp = some c := by
  interval_cases exp
  · exact ⟨'K', rfl, rfl⟩
  · exact ⟨'M', rfl, rfl⟩
  · exact ⟨'G', rfl, rfl⟩
  · exact ⟨'T', rfl, rfl⟩
  · exact ⟨'P', rfl, rfl⟩
  · exact ⟨'E', rfl, rfl⟩

end BlobSetTags

namespace BlobSetTags

theorem formatSizeLoop_of_int64 (B fuel : Nat) (hfuel : 5 ≤ fuel) (hge : 1024 ≤ B)
    (hhi : B < 9223372036854775808) :
    ∃ exp : Nat, exp ≤ 5 ∧
      formatSizeLoop fuel (div64 (B : Int) 1024) 1024 0
        = some (((1024 ^ (exp + 1) : Nat) : Int), (exp : Int)) ∧
      1024 ^ (exp + 1) ≤ B ∧ B < 1024 * 1024 ^ (exp + 1) := by
  have hn53 : B / 1024 < 9007199254740992 := by omega
  have h6 : (1024 : Nat) ^ 6 = 1152921504606846976 := by norm_num
  have hpow6 : (1024 : Nat) ^ 6 ≤ 1024 ^ (fuel + 1) :=
    Nat.pow_le_pow_right (by decide) (by omega)
  have f1 : B / 1024 < 1024 ^ (fuel + 1) := by omega
  have f2 : 1024 * (B / 1024) < 9223372036854775808 := by omega
  have f3 : 0 + B / 1024 < 9223372036854775808 := by omega
  obtain ⟨j, _, hloop, hdiv, hpow⟩ := formatSizeLoop_spec fuel (B / 1024) 1024 0 f1
    (by decide) f2 f3
  have e1 : 1024 * 1024 ^ j = 1024 ^ (j + 1) := by ring
  rw [e1, Nat.zero_add] at hloop
  have hj : j ≤ 5 := by
    by_contra hc
    rcases hpow with h0 | hp
    · omega
    · have : (1024 : Nat) ^ 6 ≤ 1024 ^ j := Nat.pow_le_pow_right (by decide) (by omega)
      omega
  have hle : 1024 ^ (j + 1) ≤ B := by
    rcases hpow with h0 | hp
    · rw [h0]
      simpa using hge
    · have := (Nat.le_div_iff_mul_le (by decide : 0 < 1024)).mp hp
      rw [pow_succ]
      exact this
  have hlt : B < 1024 * 1024 ^ (j + 1) := by
    have h1 : B / 1024 < 1024 * 1024 ^ j :=
      (Nat.div_lt_iff_lt_mul (pow_pos (by decide) j)).mp hdiv
    rw [e1] at h1
    have h2 := (Nat.div_lt_iff_lt_mul (by decide : 0 < 1024)).mp h1
    rw [Nat.mul_comm]
    exact h2
  have hdiv64 : div64 ((B : Nat) : Int) 1024 = ((B / 1024 : Nat) : Int) := by
    have := div64_natCast B 1024 hhi
    exact_mod_cast this
  refine ⟨j, hj, ?_, hle, hlt⟩
  rw [hdiv64]
  exact_mod_cast hloop

/-- C23: for every 64-bit byte count `b ≥ 1024` the loop of `formatSize` ends (five
iterations suffice) with `0 ≤ exp ≤ 5`, so that `"KMGTPE"[exp]` is in range, and with
`div = 1024^(exp+1)`, computed without overflow, such that `div ≤ b < 1024 * div`; for every
`b < 1024`, negative ones included, the result is the decimal value followed by ` bytes`. -/
theorem formatSize_unit_in_range (b : Int) (fuel : Nat) (hfuel : 5 ≤ fuel)
    (hhi : b < 9223372036854775808) :
    (1024 ≤ b →
      ∃ (exp : Nat) (unit : Char), exp ≤ 5 ∧
        formatSizeLoop fuel (div64 b 1024) 1024 0
          = some (((1024 ^ (exp + 1) : Nat) : Int), (exp : Int)) ∧
        ((1024 ^ (exp + 1) : Nat) : Int) ≤ b ∧
        b < 1024 * ((1024 ^ (exp + 1) : Nat) : Int) ∧
        1024 ^ (exp + 1) < 9223372036854775808 ∧
        unitAt (exp : Int) = .ok unit ∧
        "KMGTPE".toList.get? exp = some unit ∧
        formatSize b fuel = some (.ok (.scaled b ((1024 ^ (exp + 1) : Nat) : Int) unit))) ∧
    (b < 1024 → formatSize b fuel = some (.ok (.plain (decimal b ++ " bytes".toList)))) := by
  constructor
  · intro hge
    obtain ⟨B, rfl⟩ : ∃ B : Nat, b = (B : Int) :=
      ⟨b.toNat, (Int.toNat_of_nonneg (by omega)).symm⟩
    have hB : 1024 ≤ B := by omega
    have hBhi : B < 9223372036854775808 := by omega
    obtain ⟨exp, hexp, hloop, hle, hlt⟩ := formatSizeLoop_of_int64 B fuel hfuel hB hBhi
    obtain ⟨unit, hunit, hget⟩ := unitAt_of_le exp hexp
    have hnot : ¬ ((B : Nat) : Int) < 1024 := by omega
    refine ⟨exp, unit, hexp, hloop, by exact_mod_cast hle, by exact_mod_cast hlt,
      by omega, hunit, hget, ?_⟩
    unfold formatSize
    rw [if_neg hnot, hloop]
    simp only [hunit]
  · intro hlt
    unfold formatSize
    rw [if_pos hlt]

theorem formatSize_unit_in_range_witness :
    formatSize 1152921504606846975 5
      = some (.ok (.scaled 1152921504606846975 1125899906842624 'P')) ∧
    formatSize 9223372036854775807 5
      = some (.ok (.scaled 9223372036854775807 1152921504606846976 'E')) ∧
    formatSize (-5) 5 = some (.ok (.plain "-5 bytes".toList)) := by
  refine ⟨by rfl, by rfl, ?_⟩
  have h := (formatSize_unit_in_range (-5) 5 (by decide) (by decide)).2 (by decide)
  rw [h]
  rfl

end BlobSetTags
